import Mathlib

/-!
# The CVODE event driver of `rrCVODEInterface.cpp`

A shallow embedding of `rr::CvodeInterface` (source/rrCVODEInterface.cpp): the pending
assignment queue, the priority sort of fired events, the root handler
`handleRootsForTime`, the drain `assignPendingEvents` and the `oneStep` loop.

Conventions of the embedding.

* `double` times, delays and state values are rationals; `1E-16` is `1 / 10 ^ 16`.
  Event priorities keep a NaN (`none`), because the comparator is sensitive to it.
* The model collaborator (`ExecutableModel`, an abstract class whose header is not part
  of the sources) is a record of arbitrary functions over the model data. The static event
  metadata (`numEvents`, `eventPersistentType`, `eventType`) is constant; the arrays
  written during a simulation (`eventStatusArray`, `previousEventStatusArray`,
  `eventPriorities`) are fields of `ModelData`; everything else the model owns is `user`.
* The SUNDIALS library is a record of arbitrary functions over its memory block.
* A C++ exception is `Except.error`; the functions of the model do not throw. Logging and
  the counters `mCount` and `mRootCount`, which only the callbacks of the integrator
  advance, are dropped.
* A loop that need not end (`oneStep`) runs for a given number of rounds; a loop that needs
  no more rounds than the length of a list runs for that many.
-/

namespace rr

/-! ## Data model -/

/-- A `double` used as an event priority: `none` is NaN. -/
abbrev Priority := Option ℚ

/-- The C++ `a > b` on priorities: false as soon as one side is NaN. -/
def Priority.gt : Priority → Priority → Bool
  | some x, some y => decide (y < x)
  | _, _ => false

/-- The C++ `a == b` on priorities: false as soon as one side is NaN. -/
def Priority.eq : Priority → Priority → Bool
  | some x, some y => decide (x = y)
  | _, _ => false

/-- The C++ `a >= b` on priorities: false as soon as one side is NaN. -/
def Priority.ge : Priority → Priority → Bool
  | some x, some y => decide (y ≤ x)
  | _, _ => false

/-- The class `rr::Event` as far as the driver uses it: an id and a priority. -/
structure Event where
  mID : Nat
  mPriority : Priority
deriving DecidableEq, Repr

/-- The accessor `Event::GetID`. -/
def Event.GetID (e : Event) : Nat := e.mID

/-- The accessor `Event::GetPriority`. -/
def Event.GetPriority (e : Event) : Priority := e.mPriority

/-- The class `rr::PendingAssignment`: the fire time, the event index, the type flag and
the values computed at trigger time (when there are any). The two function pointers it
stores are those of the model for `Index`, so they are looked up in the model instead. -/
structure PendingAssignment where
  Time : ℚ
  Index : Nat
  UseValuesFromTriggerTime : Bool
  ComputedValues : Option (List ℚ)
deriving DecidableEq, Repr

/-- The accessor `PendingAssignment::GetTime`. -/
def PendingAssignment.GetTime (p : PendingAssignment) : ℚ := p.Time

/-- The accessor `PendingAssignment::GetIndex`. -/
def PendingAssignment.GetIndex (p : PendingAssignment) : Nat := p.Index

/-- The part of `ModelData` the driver reads and writes; `user` is the rest of the model
state (time, amounts, the snapshot stack, ...). -/
structure ModelData (σ : Type) where
  eventStatusArray : Nat → Bool
  previousEventStatusArray : Nat → Bool
  eventPriorities : Nat → Priority
  user : σ

/-- The interface `ExecutableModel` together with the function tables of `ModelData`. -/
structure ExecutableModel (σ : Type) where
  getNumEvents : Nat
  eventPersistentType : Nat → Bool
  eventType : Nat → Bool
  eventDelays : Nat → ModelData σ → ℚ
  computeEventAssignments : Nat → ModelData σ → List ℚ
  performEventAssignments : Nat → ModelData σ → List ℚ → ModelData σ
  eventAssignments : Nat → ModelData σ → ModelData σ
  getStateVector : ModelData σ → List ℚ
  setStateVector : List ℚ → ModelData σ → ModelData σ
  setTime : ℚ → ModelData σ → ModelData σ
  evalModel : ℚ → ModelData σ → ModelData σ
  evalEvents : ℚ → ModelData σ → ModelData σ
  convertToAmounts : ModelData σ → ModelData σ
  convertToConcentrations : ModelData σ → ModelData σ
  updateDependentSpeciesValues : ModelData σ → ModelData σ
  computeConservedTotals : ModelData σ → ModelData σ
  getConservedSumChanged : ModelData σ → Bool
  computeEventPriorites : ModelData σ → ModelData σ
  resetEvents : ModelData σ → ModelData σ
  testConstraints : ModelData σ → ModelData σ
  pushState : ModelData σ → ModelData σ
  popState : Nat → ModelData σ → ModelData σ

/-- The option `ExecutableModel::PopDiscard`. -/
def PopDiscard : Nat := 1

/-- What one call of `CVode` hands back: the return code, the time reached (`tret`), the
state vector it wrote and its memory block. -/
structure CVodeOut (κ : Type) where
  nResult : Int
  tret : ℚ
  y : Option (List ℚ)
  mem : Option κ

/-- The SUNDIALS/CVODE entry points the driver calls, over a memory block `κ`.
`CVode` receives the memory, the target time, the state vector, the current content of
`tret` and the model data its callbacks evaluate (they run between `pushState` and
`popState`, so they leave the model as it was). -/
structure Sundials (κ σ : Type) where
  CVodeCreate : Option κ
  CVodeSetUserData : κ → Int × κ
  CVodeInit : κ → ℚ → Option (List ℚ) → Int × κ
  CVodeReInit : κ → ℚ → Option (List ℚ) → Int × κ
  CVodeSVtolerances : κ → ℚ → Option (List ℚ) → Int × κ
  CVodeRootInit : κ → Nat → Int × κ
  CVDense : Option κ → Nat → Int × Option κ
  CVodeSetMaxOrd : Option κ → Int → Option κ
  CVodeSetInitStep : Option κ → ℚ → Option κ
  CVodeSetMinStep : Option κ → ℚ → Option κ
  CVodeSetMaxStep : Option κ → ℚ → Option κ
  CVodeSetMaxNumSteps : Option κ → Int → Option κ
  CVode : Option κ → ℚ → Option (List ℚ) → ℚ → ModelData σ → CVodeOut κ
  CVodeGetRootInfo : Option κ → Nat → List Int

/-- The constant `CV_SUCCESS` of cvode.h. -/
def CV_SUCCESS : Int := 0

/-- The constant `CV_ROOT_RETURN` of cvode.h. -/
def CV_ROOT_RETURN : Int := 2

/-- The data members of `CvodeInterface` (the model pointer is the model data it points
to; `none` is a NULL pointer). -/
structure CvodeInterface (κ σ : Type) where
  mModel : ModelData σ
  mDefaultReltol : ℚ
  mDefaultAbsTol : ℚ
  mStateVector : Option (List ℚ)
  mAbstolArray : Option (List ℚ)
  mStateVectorSize : Nat
  mCVODE_Memory : Option κ
  mAssignments : List PendingAssignment
  mAssignmentTimes : List ℚ
  mLastTimeValue : ℚ
  mLastEvent : ℚ
  mOneStepCount : Nat
  mFollowEvents : Bool
  mMaxBDFOrder : Int
  mInitStep : ℚ
  mMinStep : ℚ
  mMaxStep : ℚ
  mMaxNumSteps : Int
  mRelTol : ℚ
  mAbsTol : ℚ

/-! ## Sorting -/

/-- The helper `__unguarded_linear_insert` of the library's insertion sort, on the reversed
sorted prefix: `val` moves left past every element it must precede (`comp val p`). -/
def linearInsert {α : Type} (comp : α → α → Bool) (val : α) : List α → List α
  | [] => [val]
  | p :: ps => if comp val p then p :: linearInsert comp val ps else val :: p :: ps

/-- One round of the loop of the library's `__insertion_sort`, on the reversed sorted
prefix `acc` (whose last element is `*first`): when `comp(*i, *first)` holds, `*i` moves to
the front of the range; otherwise it is inserted by `__unguarded_linear_insert`. -/
def insertionStep {α : Type} (comp : α → α → Bool) (acc : List α) (x : α) : List α :=
  match acc.getLast? with
  | none => [x]
  | some first => if comp x first then acc ++ [x] else linearInsert comp x acc

/-- The library call `std::sort(first, last, comp)`, as the `__insertion_sort` that
libstdc++ runs on ranges of up to 16 elements: the elements are taken one after the other,
from the left. On a longer range the library partitions the range before it runs the
insertion sort; the result is the same as here whenever `comp` is a strict total order on
the elements of the range, which then has one sorted arrangement only. -/
def stdSort {α : Type} (comp : α → α → Bool) (l : List α) : List α :=
  (l.foldl (insertionStep comp) []).reverse

/-- Modelled from the spec: the comparator `SortByPriority` (declared in rrEvent.h, which is
not among the sources). "Sort candidates by descending priority; NaN priorities are
unordered with respect to each other; ties break by event id ascending." -/
def SortByPriority (lx rx : Event) : Bool :=
  Priority.gt lx.GetPriority rx.GetPriority ||
    (Priority.eq lx.GetPriority rx.GetPriority && decide (lx.GetID < rx.GetID))

/-- The overload `CvodeInterface::sortEventsByPriority(vector<int>&)`: with two fired events
or more, recompute the priorities, wrap each id in an `Event` carrying its priority, sort,
and write the ids back. Returns the model data and the reordered ids. -/
def sortEventsByPriority {σ : Type} (m : ExecutableModel σ) (md : ModelData σ)
    (firedEvents : List Nat) : ModelData σ × List Nat :=
  if firedEvents.length > 1 then
    let md1 := m.computeEventPriorites md
    let dummy := firedEvents.map (fun id => Event.mk id (md1.eventPriorities id))
    let sorted := stdSort SortByPriority dummy
    (md1, sorted.map Event.GetID)
  else
    (md, firedEvents)

/-! ## The pending queue -/

/-- The loop of `removePendingAssignmentForIndex`: `j` runs from `n - 1` down to `0` and
the entry at `j` is erased when its index is `eventIndex`. -/
def removePendingLoop (eventIndex : Nat) : Nat → List PendingAssignment → List PendingAssignment
  | 0, l => l
  | j + 1, l =>
    match l.get? j with
    | some p =>
      if p.GetIndex = eventIndex then removePendingLoop eventIndex j (l.eraseIdx j)
      else removePendingLoop eventIndex j l
    | none => removePendingLoop eventIndex j l

/-- The method `CvodeInterface::removePendingAssignmentForIndex`. -/
def removePendingAssignmentForIndex {κ σ : Type} (cv : CvodeInterface κ σ) (eventIndex : Nat) :
    CvodeInterface κ σ :=
  { cv with mAssignments := removePendingLoop eventIndex cv.mAssignments.length cv.mAssignments }

/-! ## Vectors, tolerances and (re)initialisation -/

/-- The helper `SetVector(v, Index, Value)`: `data[Index] = Value`. -/
def SetVector (v : Option (List ℚ)) (Index : Nat) (Value : ℚ) : Option (List ℚ) :=
  v.map (fun data => data.set Index Value)

/-- The helper `GetVector(v, Index)`. -/
def GetVector (v : Option (List ℚ)) (Index : Nat) : ℚ :=
  (v.getD []).getD Index 0

/-- The library call `N_VNew_Serial(n)`: a fresh vector of length `n` (its content, which C
leaves uninitialised, is zero here). -/
def N_VNew_Serial (n : Nat) : Option (List ℚ) := some (List.replicate n 0)

/-- The method `CvodeInterface::haveVariables`. -/
def haveVariables {κ σ : Type} (cv : CvodeInterface κ σ) : Bool :=
  if cv.mStateVectorSize > 0 then true else false

/-- The method `CvodeInterface::handleCVODEError`: throws for a negative code. -/
def handleCVODEError (errCode : Int) : Except String Unit :=
  if errCode < 0 then .error "Error in CVODE...!" else .ok ()

/-- The method `CvodeInterface::allocateCvodeMem`. -/
def allocateCvodeMem {κ σ : Type} (s : Sundials κ σ) (cv : CvodeInterface κ σ) :
    Int × CvodeInterface κ σ :=
  match cv.mCVODE_Memory with
  | none => (CV_SUCCESS, cv)
  | some mem =>
    let t0 : ℚ := 0
    let mem1 := (s.CVodeSetUserData mem).2
    let r := s.CVodeInit mem1 t0 cv.mStateVector
    if r.1 ≠ CV_SUCCESS then (r.1, { cv with mCVODE_Memory := some r.2 })
    else
      let r2 := s.CVodeSVtolerances r.2 cv.mRelTol cv.mAbstolArray
      (r2.1, { cv with mCVODE_Memory := some r2.2 })

/-- The method `CvodeInterface::rootInit`. -/
def rootInit {κ σ : Type} (s : Sundials κ σ) (cv : CvodeInterface κ σ) (numRoots : Nat) :
    Int × CvodeInterface κ σ :=
  match cv.mCVODE_Memory with
  | none => (CV_SUCCESS, cv)
  | some mem =>
    let r := s.CVodeRootInit mem numRoots
    (r.1, { cv with mCVODE_Memory := some r.2 })

/-- The method `CvodeInterface::reInit`. -/
def reInit {κ σ : Type} (s : Sundials κ σ) (cv : CvodeInterface κ σ) (t0 : ℚ) :
    Int × CvodeInterface κ σ :=
  match cv.mCVODE_Memory with
  | none => (CV_SUCCESS, cv)
  | some mem =>
    let r := s.CVodeReInit mem t0 cv.mStateVector
    if r.1 ≠ CV_SUCCESS then (r.1, { cv with mCVODE_Memory := some r.2 })
    else
      let r2 := s.CVodeSVtolerances r.2 cv.mRelTol cv.mAbstolArray
      (r2.1, { cv with mCVODE_Memory := some r2.2 })

/-- The method `CvodeInterface::setAbsTolerance`. -/
def setAbsTolerance {κ σ : Type} (cv : CvodeInterface κ σ) (index : Nat) (dValue : ℚ) :
    CvodeInterface κ σ :=
  let dTolerance : ℚ := if dValue > 0 ∧ cv.mAbsTol > dValue then dValue else cv.mAbsTol
  { cv with mAbstolArray := SetVector cv.mAbstolArray index dTolerance }

/-- The first loop of `assignNewVector`: the least positive `y[i] / 1000` below `mAbsTol`. -/
def minTolerance (mAbsTol : ℚ) (y : List ℚ) : ℚ :=
  y.foldl (fun dMin yi => let tmp := yi / 1000; if tmp > 0 ∧ tmp < dMin then tmp else dMin) mAbsTol

/-- The method `CvodeInterface::assignNewVector(oModel, assignNewTolerances)`. The model
copies its state over the front of the state vector. -/
def assignNewVector {κ σ : Type} (m : ExecutableModel σ) (cv : CvodeInterface κ σ)
    (assignNewTolerances : Bool) : Except String (CvodeInterface κ σ) :=
  match cv.mStateVector with
  | none => .ok cv
  | some sv =>
    let y := m.getStateVector cv.mModel
    if y.length > sv.length then
      .error "attempt to assign different length data to existing state vector"
    else
      let sv1 := y ++ sv.drop y.length
      let cv1 := { cv with mStateVector := some sv1 }
      if assignNewTolerances then
        let dMin := minTolerance cv1.mAbsTol sv1
        let cv2 := (List.range sv1.length).foldl (fun c i => setAbsTolerance c i dMin) cv1
        if !haveVariables cv2 && decide (m.getNumEvents > 0) then
          let cv3 := setAbsTolerance cv2 0 dMin
          .ok { cv3 with mStateVector := SetVector cv3.mStateVector 0 1 }
        else .ok cv2
      else .ok cv1

/-- The method `CvodeInterface::assignResultsToModel`. -/
def assignResultsToModel {κ σ : Type} (m : ExecutableModel σ) (cv : CvodeInterface κ σ) :
    CvodeInterface κ σ :=
  { cv with mModel := m.setStateVector (cv.mStateVector.getD []) cv.mModel }

/-- The method `CvodeInterface::reStart`. -/
def reStart {κ σ : Type} (m : ExecutableModel σ) (s : Sundials κ σ) (cv : CvodeInterface κ σ)
    (timeStart : ℚ) : Except String (CvodeInterface κ σ) := do
  let cv1 ← assignNewVector m cv false
  match cv1.mCVODE_Memory with
  | none => pure cv1
  | some _ =>
    let cv2 := { cv1 with mCVODE_Memory := s.CVodeSetInitStep cv1.mCVODE_Memory cv1.mInitStep }
    let cv3 := { cv2 with mCVODE_Memory := s.CVodeSetMinStep cv2.mCVODE_Memory cv2.mMinStep }
    let cv4 := { cv3 with mCVODE_Memory := s.CVodeSetMaxStep cv3.mCVODE_Memory cv3.mMaxStep }
    pure (reInit s cv4 timeStart).2

/-- The body of the `try` block of `initializeCVODEInterface`. -/
def initializeBody {κ σ : Type} (m : ExecutableModel σ) (s : Sundials κ σ)
    (cv : CvodeInterface κ σ) (oModel : ModelData σ) : Except String (CvodeInterface κ σ) := do
  let cv := { cv with mModel := oModel }
  let cv := { cv with mStateVectorSize := (m.getStateVector oModel).length }
  if cv.mStateVectorSize > 0 then
    let cv := { cv with mStateVector := N_VNew_Serial cv.mStateVectorSize }
    let cv := { cv with mAbstolArray := N_VNew_Serial cv.mStateVectorSize }
    let cv := (List.range cv.mStateVectorSize).foldl
      (fun c i => { c with mAbstolArray := SetVector c.mAbstolArray i c.mDefaultAbsTol }) cv
    let cv ← assignNewVector m cv true
    let cv := { cv with mCVODE_Memory := s.CVodeCreate }
    let cv :=
      match cv.mCVODE_Memory with
      | some _ =>
        let c := { cv with mCVODE_Memory := s.CVodeSetMaxOrd cv.mCVODE_Memory cv.mMaxBDFOrder }
        let c := { c with mCVODE_Memory := s.CVodeSetInitStep c.mCVODE_Memory c.mInitStep }
        let c := { c with mCVODE_Memory := s.CVodeSetMinStep c.mCVODE_Memory c.mMinStep }
        let c := { c with mCVODE_Memory := s.CVodeSetMaxStep c.mCVODE_Memory c.mMaxStep }
        { c with mCVODE_Memory := s.CVodeSetMaxNumSteps c.mCVODE_Memory c.mMaxNumSteps }
      | none => cv
    let r := allocateCvodeMem s cv
    let cv := r.2
    if r.1 < 0 then handleCVODEError r.1
    let cv := if m.getNumEvents > 0 then (rootInit s cv m.getNumEvents).2 else cv
    let d := s.CVDense cv.mCVODE_Memory cv.mStateVectorSize
    let cv := { cv with mCVODE_Memory := d.2 }
    if d.1 < 0 then handleCVODEError d.1
    pure { cv with mModel := m.resetEvents cv.mModel }
  else if m.getNumEvents > 0 then
    let allocated : Nat := 1
    let cv := { cv with mStateVector := N_VNew_Serial allocated }
    let cv := { cv with mAbstolArray := N_VNew_Serial allocated }
    let cv := { cv with mStateVector := SetVector cv.mStateVector 0 10 }
    let cv := { cv with mAbstolArray := SetVector cv.mAbstolArray 0 cv.mDefaultAbsTol }
    let cv := { cv with mCVODE_Memory := s.CVodeCreate }
    let cv := { cv with mCVODE_Memory := s.CVodeSetMaxOrd cv.mCVODE_Memory cv.mMaxBDFOrder }
    let cv := { cv with mCVODE_Memory := s.CVodeSetMaxNumSteps cv.mCVODE_Memory cv.mMaxNumSteps }
    let r := allocateCvodeMem s cv
    let cv := r.2
    if r.1 < 0 then handleCVODEError r.1
    let cv := if m.getNumEvents > 0 then (rootInit s cv m.getNumEvents).2 else cv
    let d := s.CVDense cv.mCVODE_Memory allocated
    let cv := { cv with mCVODE_Memory := d.2 }
    if d.1 < 0 then handleCVODEError d.1
    pure { cv with mModel := m.resetEvents cv.mModel }
  else
    pure cv

/-- The method `CvodeInterface::initializeCVODEInterface`; `none` is a NULL model. -/
def initializeCVODEInterface {κ σ : Type} (m : ExecutableModel σ) (s : Sundials κ σ)
    (cv : CvodeInterface κ σ) (oModel : Option (ModelData σ)) :
    Except String (CvodeInterface κ σ) :=
  match oModel with
  | none => .error "Fatal Error while initializing CVODE"
  | some md =>
    match initializeBody m s cv md with
    | .ok cv1 => .ok cv1
    | .error _ => .error "Fatal Error while initializing CVODE"

/-! ## Retest and the root handler -/

/-- The loop of `retestEvents` over the event ids: `result` collects the events that are
true now, were false in the copy `before` and are not handled; `removeEvents` collects the
non-persistent events that are false now and were true in the copy. -/
def retestLoop {σ : Type} (m : ExecutableModel σ) (md : ModelData σ) (before : Nat → Bool)
    (handledEvents : List Nat) : List Nat → List Nat × List Nat → List Nat × List Nat
  | [], acc => acc
  | i :: is, (result, removeEvents) =>
    let containsI : Bool := decide (i ∈ handledEvents)
    let result1 :=
      if md.eventStatusArray i = true ∧ before i = false ∧ containsI = false then result ++ [i]
      else result
    let removeEvents1 :=
      if md.eventStatusArray i = false ∧ before i = true ∧ m.eventPersistentType i = false then
        removeEvents ++ [i]
      else removeEvents
    retestLoop m md before handledEvents is (result1, removeEvents1)

/-- The method `CvodeInterface::retestEvents(timeEnd, handledEvents, assignOldState,
removeEvents)`. Returns the driver, the result vector and the extended `removeEvents`. -/
def retestEvents {κ σ : Type} (m : ExecutableModel σ) (cv : CvodeInterface κ σ) (timeEnd : ℚ)
    (handledEvents : List Nat) (assignOldState : Bool) (removeEvents : List Nat) :
    CvodeInterface κ σ × List Nat × List Nat :=
  let md := cv.mModel
  let md := if m.getConservedSumChanged md then m.computeConservedTotals md else md
  let md := m.convertToAmounts md
  let md := m.evalModel timeEnd md
  let eventStatusArray := md.eventStatusArray
  let md := m.pushState md
  let md := m.evalEvents timeEnd md
  let r := retestLoop m md eventStatusArray handledEvents (List.range m.getNumEvents)
    ([], removeEvents)
  let md := m.popState (if assignOldState then 0 else PopDiscard) md
  ({ cv with mModel := md }, r.1, r.2)

/-- The local variables of `handleRootsForTime` next to the driver itself: the candidate
list, the map of precomputed assignments and the list of handled events. -/
structure RootState (κ σ : Type) where
  cv : CvodeInterface κ σ
  firedEvents : List Nat
  preComputedAssignments : Nat → Option (List ℚ)
  handled : List Nat

/-- One round of the first loop of `handleRootsForTime`, for the event `i`. -/
def partitionStep {κ σ : Type} (m : ExecutableModel σ) (rootsFound : List Int)
    (st : RootState κ σ) (i : Nat) : RootState κ σ :=
  if rootsFound.getD i 0 = 1 then
    if st.cv.mModel.eventStatusArray i then
      let st1 := { st with firedEvents := st.firedEvents ++ [i] }
      if m.eventType i then
        let values := m.computeEventAssignments i st1.cv.mModel
        { st1 with preComputedAssignments := Function.update st1.preComputedAssignments i (some values) }
      else st1
    else st
  else
    if !m.eventPersistentType i then
      { st with cv := removePendingAssignmentForIndex st.cv i }
    else st

/-- Modelled from the spec: the constructor of `PendingAssignment` (rrPendingAssignment.h is
not among the sources). "PendingAssignment: tuple (eventId, fireTime, precomputedValues?,
assignFn)"; the constructor stores its arguments and no precomputed values. -/
def PendingAssignment.new (time : ℚ) (useValuesFromTriggerTime : Bool) (index : Nat) :
    PendingAssignment :=
  { Time := time, Index := index, UseValuesFromTriggerTime := useValuesFromTriggerTime,
    ComputedValues := none }

/-- Modelled from the spec: the method `PendingAssignment::AssignToModel`
(rrPendingAssignment.h is not among the sources). "Apply the assignment (Type-A uses stored
precomputed values; Type-B evaluates against current model state)." -/
def PendingAssignment.AssignToModel {σ : Type} (m : ExecutableModel σ) (p : PendingAssignment)
    (md : ModelData σ) : ModelData σ :=
  match p.UseValuesFromTriggerTime, p.ComputedValues with
  | true, some values => m.performEventAssignments p.Index md values
  | _, _ => m.performEventAssignments p.Index md (m.computeEventAssignments p.Index md)

/-- The loop over `removeEvents` after an immediate assignment: an item that is still a
candidate is erased from the candidates and its pending assignments are removed. -/
def retractStep {κ σ : Type} (acc : List Nat × CvodeInterface κ σ) (item : Nat) :
    List Nat × CvodeInterface κ σ :=
  if item ∈ acc.1 then (acc.1.erase item, removePendingAssignmentForIndex acc.2 item)
  else acc

/-- The loop over `additionalEvents` after an immediate assignment: the assignment of every
Type-A event in it is precomputed. -/
def precomputeStep {σ : Type} (m : ExecutableModel σ) (md : ModelData σ)
    (pre : Nat → Option (List ℚ)) (newEvent : Nat) : Nat → Option (List ℚ) :=
  if m.eventType newEvent then
    Function.update pre newEvent (some (m.computeEventAssignments newEvent md))
  else pre

/-- The branch `eventDelay == 0` of the loop of `handleRootsForTime`, for the candidate
`currentEvent` taken from the front of the sorted candidates (`rest` are the others) and the
model data `md`: the assignment is applied, the events are retested, `currentEvent` is
erased from the candidates, and so is every candidate that `retestEvents` reports as
removed. The `std::copy` of `additionalEvents` to `firedEvents.end()` writes behind the last
element and leaves the size of `firedEvents` as it is, so the candidates do not change by
it. -/
def fireNow {κ σ : Type} (m : ExecutableModel σ) (timeEnd : ℚ) (st : RootState κ σ)
    (md : ModelData σ) (currentEvent : Nat) (rest : List Nat) : RootState κ σ :=
  let md :=
    if m.eventType currentEvent = true ∧ (st.preComputedAssignments currentEvent).isSome then
      m.performEventAssignments currentEvent md ((st.preComputedAssignments currentEvent).getD [])
    else m.eventAssignments currentEvent md
  let handled := st.handled ++ [currentEvent]
  let rt := retestEvents m { st.cv with mModel := md } timeEnd handled false []
  let cv := rt.1
  let additionalEvents := rt.2.1
  let removeEvents := rt.2.2
  let pre := additionalEvents.foldl (precomputeStep m cv.mModel) st.preComputedAssignments
  let md := cv.mModel
  let md := { md with eventStatusArray := Function.update md.eventStatusArray currentEvent false }
  let cv := { cv with mModel := md }
  let firedEvents := rest
  let r := removeEvents.foldl retractStep (firedEvents, cv)
  { cv := r.2, firedEvents := r.1, preComputedAssignments := pre, handled := handled }

/-- The pending assignment the branch `eventDelay != 0` builds for `currentEvent`: the
precomputed values are stored in it when the event is of Type A and has some. -/
def pendingFor {σ : Type} (m : ExecutableModel σ) (pre : Nat → Option (List ℚ)) (time : ℚ)
    (currentEvent : Nat) : PendingAssignment :=
  let pending := PendingAssignment.new time (m.eventType currentEvent) currentEvent
  if m.eventType currentEvent = true ∧ (pre currentEvent).isSome then
    { pending with ComputedValues := pre currentEvent }
  else pending

/-- The branch `eventDelay != 0` of the loop of `handleRootsForTime`: the fire time goes
into the schedule unless it is there, a pending assignment goes to the end of the queue, the
status of `currentEvent` is cleared and it is erased from the candidates. -/
def scheduleLater {κ σ : Type} (m : ExecutableModel σ) (timeEnd : ℚ) (st : RootState κ σ)
    (md : ModelData σ) (currentEvent : Nat) (rest : List Nat) (eventDelay : ℚ) : RootState κ σ :=
  let cv : CvodeInterface κ σ := { st.cv with mModel := md }
  let cv :=
    if timeEnd + eventDelay ∈ cv.mAssignmentTimes then cv
    else { cv with mAssignmentTimes := cv.mAssignmentTimes ++ [timeEnd + eventDelay] }
  let pending := pendingFor m st.preComputedAssignments (timeEnd + eventDelay) currentEvent
  let cv := { cv with mAssignments := cv.mAssignments ++ [pending] }
  let md := cv.mModel
  let md := { md with eventStatusArray := Function.update md.eventStatusArray currentEvent false }
  let cv := { cv with mModel := md }
  { st with cv := cv, firedEvents := rest }

/-- The statement `previousEventStatusArray[currentEvent] = eventStatusArray[currentEvent]`. -/
def markPrevious {σ : Type} (md : ModelData σ) (currentEvent : Nat) : ModelData σ :=
  let status := md.eventStatusArray currentEvent
  { md with
    previousEventStatusArray := Function.update md.previousEventStatusArray currentEvent status }

/-- One round of the `while (firedEvents.size() > 0)` loop of `handleRootsForTime`. The inner
`for` loop leaves through a `break` in its first round on both branches, so a round sorts
the candidates and deals with the first of them. -/
def drainStep {κ σ : Type} (m : ExecutableModel σ) (timeEnd : ℚ) (st : RootState κ σ) :
    RootState κ σ :=
  let sorted := sortEventsByPriority m st.cv.mModel st.firedEvents
  match sorted.2 with
  | [] => { st with cv := { st.cv with mModel := sorted.1 }, firedEvents := [] }
  | currentEvent :: rest =>
    let md := markPrevious sorted.1 currentEvent
    let eventDelay := m.eventDelays currentEvent md
    if eventDelay = 0 then fireNow m timeEnd st md currentEvent rest
    else scheduleLater m timeEnd st md currentEvent rest eventDelay

/-- The `while (firedEvents.size() > 0)` loop, run for at most `fuel` rounds. -/
def drainLoop {κ σ : Type} (m : ExecutableModel σ) (timeEnd : ℚ) :
    Nat → RootState κ σ → RootState κ σ
  | 0, st => st
  | fuel + 1, st =>
    if st.firedEvents.length > 0 then drainLoop m timeEnd fuel (drainStep m timeEnd st)
    else st

/-- The state of `handleRootsForTime` when its `while` loop starts: the model is refreshed
and the events are partitioned. -/
def partitionRoots {κ σ : Type} (m : ExecutableModel σ) (cv : CvodeInterface κ σ)
    (timeEnd : ℚ) (rootsFound : List Int) : RootState κ σ :=
  let cv := assignResultsToModel m cv
  let cv := { cv with mModel := m.convertToConcentrations cv.mModel }
  let cv := { cv with mModel := m.updateDependentSpeciesValues cv.mModel }
  let cv := { cv with mModel := m.evalEvents timeEnd cv.mModel }
  (List.range m.getNumEvents).foldl (partitionStep m rootsFound)
    { cv := cv, firedEvents := [], preComputedAssignments := fun _ => none, handled := [] }

/-- The state of `handleRootsForTime` when its `while` loop is left. Every round erases a
candidate, so as many rounds as there are candidates are enough. -/
def drainRoots {κ σ : Type} (m : ExecutableModel σ) (cv : CvodeInterface κ σ)
    (timeEnd : ℚ) (rootsFound : List Int) : RootState κ σ :=
  let st := partitionRoots m cv timeEnd rootsFound
  drainLoop m timeEnd st.firedEvents.length st

/-- The method `CvodeInterface::handleRootsForTime`. -/
def handleRootsForTime {κ σ : Type} (m : ExecutableModel σ) (s : Sundials κ σ)
    (cv : CvodeInterface κ σ) (timeEnd : ℚ) (rootsFound : List Int) : CvodeInterface κ σ :=
  let cv := (drainRoots m cv timeEnd rootsFound).cv
  let cv :=
    if m.getConservedSumChanged cv.mModel then
      { cv with mModel := m.computeConservedTotals cv.mModel }
    else cv
  let cv := { cv with mModel := m.convertToAmounts cv.mModel }
  let cv := { cv with mModel := m.evalModel timeEnd cv.mModel }
  let y := m.getStateVector cv.mModel
  let cv := { cv with mStateVector := cv.mStateVector.map (fun sv => y ++ sv.drop y.length) }
  let cv := (reInit s cv timeEnd).2
  { cv with mAssignmentTimes := stdSort (fun a b => decide (a < b)) cv.mAssignmentTimes }

/-- The method `CvodeInterface::handleRootsFound`. -/
def handleRootsFound {κ σ : Type} (m : ExecutableModel σ) (s : Sundials κ σ)
    (cv : CvodeInterface κ σ) (timeEnd : ℚ) : CvodeInterface κ σ :=
  let rootsFound := s.CVodeGetRootInfo cv.mCVODE_Memory m.getNumEvents
  handleRootsForTime m s cv timeEnd rootsFound

/-! ## The drain of due assignments -/

/-- The body of the `if` of `assignPendingEvents` for the pending assignment `p`, up to and
including `reStart`; the `erase` that follows it is in `assignPendingLoop`. -/
def assignPendingBody {κ σ : Type} (m : ExecutableModel σ) (s : Sundials κ σ) (timeEnd tout : ℚ)
    (p : PendingAssignment) (cv : CvodeInterface κ σ) : Except String (CvodeInterface κ σ) :=
  let cv := { cv with mModel := m.setTime tout cv.mModel }
  let cv := assignResultsToModel m cv
  let cv := { cv with mModel := m.convertToConcentrations cv.mModel }
  let cv := { cv with mModel := m.updateDependentSpeciesValues cv.mModel }
  let cv := { cv with mModel := p.AssignToModel m cv.mModel }
  let cv :=
    if m.getConservedSumChanged cv.mModel then
      { cv with mModel := m.computeConservedTotals cv.mModel }
    else cv
  let cv := { cv with mModel := m.convertToAmounts cv.mModel }
  let cv := { cv with mModel := m.evalModel timeEnd cv.mModel }
  reStart m s cv timeEnd

/-- The loop of `assignPendingEvents`: `i` runs from `n - 1` down to `0`; an entry that is
due (`timeEnd >= GetTime()`) is assigned to the model and erased. -/
def assignPendingLoop {κ σ : Type} (m : ExecutableModel σ) (s : Sundials κ σ) (timeEnd tout : ℚ) :
    Nat → CvodeInterface κ σ → Except String (CvodeInterface κ σ)
  | 0, cv => .ok cv
  | i + 1, cv =>
    match cv.mAssignments.get? i with
    | some p =>
      if timeEnd ≥ p.GetTime then
        match assignPendingBody m s timeEnd tout p cv with
        | .ok cv1 =>
          assignPendingLoop m s timeEnd tout i
            { cv1 with mAssignments := cv1.mAssignments.eraseIdx i }
        | .error e => .error e
      else assignPendingLoop m s timeEnd tout i cv
    | none => assignPendingLoop m s timeEnd tout i cv

/-- The method `CvodeInterface::assignPendingEvents`. -/
def assignPendingEvents {κ σ : Type} (m : ExecutableModel σ) (s : Sundials κ σ)
    (cv : CvodeInterface κ σ) (timeEnd tout : ℚ) : Except String (CvodeInterface κ σ) :=
  assignPendingLoop m s timeEnd tout cv.mAssignments.length cv

/-! ## The driver loop -/

/-- The local variables of `oneStep`. -/
structure StepVars where
  timeEnd : ℚ
  timeStart : ℚ
  tout : ℚ
  strikes : Int

/-- How one round of the `while` loop of `oneStep` ends: with a `return` statement, or at
the end of the loop body. -/
inductive Round (κ σ : Type) where
  | returned (value : ℚ) (cv : CvodeInterface κ σ)
  | continues (v : StepVars) (cv : CvodeInterface κ σ)

/-- The target of the next integrator call: the first scheduled assignment time when there
is one before `tout` (it is then erased from the schedule), `tout` otherwise. -/
def nextTarget {κ σ : Type} (cv : CvodeInterface κ σ) (tout : ℚ) : ℚ × CvodeInterface κ σ :=
  match cv.mAssignmentTimes with
  | t :: ts => if t < tout then (t, { cv with mAssignmentTimes := ts }) else (tout, cv)
  | [] => (tout, cv)

/-- The three-way branch of `oneStep` on the result of `CVode`. -/
def afterCVode {κ σ : Type} (m : ExecutableModel σ) (s : Sundials κ σ) (nResult : Int)
    (v : StepVars) (cv : CvodeInterface κ σ) : Except String (StepVars × CvodeInterface κ σ) :=
  if nResult = CV_ROOT_RETURN ∧ cv.mFollowEvents = true then
    let tooCloseToStart : Bool := decide (|v.timeEnd - cv.mLastEvent| > cv.mRelTol)
    let v := if tooCloseToStart then { v with strikes := 3 } else { v with strikes := v.strikes - 1 }
    if tooCloseToStart = true ∨ v.strikes > 0 then
      let cv := handleRootsFound m s cv v.timeEnd
      match reStart m s cv v.timeEnd with
      | .ok cv1 => .ok (v, { cv1 with mLastEvent := v.timeEnd })
      | .error e => .error e
    else .ok (v, cv)
  else if nResult = CV_SUCCESS ∨ cv.mFollowEvents = false then
    let cv := { cv with mModel := m.setTime v.tout cv.mModel }
    .ok (v, assignResultsToModel m cv)
  else
    match handleCVODEError nResult with
    | .ok _ => .ok (v, cv)
    | .error e => .error e

/-- The start of a round of `oneStep`: `reStart(timeStart, mModel)` when the last time value
lies behind `timeStart`. -/
def beginRound {κ σ : Type} (m : ExecutableModel σ) (s : Sundials κ σ) (v : StepVars)
    (cv : CvodeInterface κ σ) : Except String (CvodeInterface κ σ) :=
  if cv.mLastTimeValue > v.timeStart then reStart m s cv v.timeStart else .ok cv

/-- The integrator call of a round of `oneStep`: the target is chosen, `CVode` runs, and
its state vector, its memory and the time it reached (`timeEnd`) are stored. Returns the
return code as well. -/
def callCVode {κ σ : Type} (s : Sundials κ σ) (v : StepVars) (cv : CvodeInterface κ σ) :
    Int × StepVars × CvodeInterface κ σ :=
  let tgt := nextTarget cv v.tout
  let nextTargetEndTime := tgt.1
  let cv := tgt.2
  let out := s.CVode cv.mCVODE_Memory nextTargetEndTime cv.mStateVector v.timeEnd cv.mModel
  let cv := { cv with mCVODE_Memory := out.mem, mStateVector := out.y }
  let v := { v with timeEnd := out.tret }
  (out.nResult, v, cv)

/-- The end of a round of `oneStep`: the last time value is stored, the constraints are
tested (an exception of the test is logged and dropped), the due assignments are drained
and `timeStart` moves on when the end is not reached. -/
def endRound {κ σ : Type} (m : ExecutableModel σ) (s : Sundials κ σ) (v : StepVars)
    (cv : CvodeInterface κ σ) : Except String (Round κ σ) :=
  let cv := { cv with mLastTimeValue := v.timeEnd }
  let cv := { cv with mModel := m.testConstraints cv.mModel }
  match assignPendingEvents m s cv v.timeEnd v.tout with
  | .ok cv1 =>
    let v := if v.tout - v.timeEnd > 1 / 10 ^ 16 then { v with timeStart := v.timeEnd } else v
    .ok (.continues v cv1)
  | .error e => .error e

/-- The body of the `while` loop of `oneStep`. -/
def oneStepRound {κ σ : Type} (m : ExecutableModel σ) (s : Sundials κ σ) (hstep : ℚ)
    (v : StepVars) (cv : CvodeInterface κ σ) : Except String (Round κ σ) :=
  if hstep < 1 / 10 ^ 16 then .ok (.returned v.tout cv)
  else if haveVariables cv = false ∧ m.getNumEvents = 0 then
    let md := m.convertToAmounts cv.mModel
    let md := m.evalModel v.tout md
    .ok (.returned v.tout { cv with mModel := md })
  else
    match beginRound m s v cv with
    | .error e => .error e
    | .ok cv1 =>
      let c := callCVode s v cv1
      match afterCVode m s c.1 c.2.1 c.2.2 with
      | .error e => .error e
      | .ok r => endRound m s r.1 r.2

/-- The `while (tout - timeEnd > 1E-16)` loop of `oneStep`, run for at most `fuel` rounds;
`none` when the rounds are used up before the loop is left. -/
def oneStepLoop {κ σ : Type} (m : ExecutableModel σ) (s : Sundials κ σ) (hstep : ℚ) :
    Nat → StepVars → CvodeInterface κ σ → Except String (Option (ℚ × CvodeInterface κ σ))
  | fuel, v, cv =>
    if v.tout - v.timeEnd > 1 / 10 ^ 16 then
      match fuel with
      | 0 => .ok none
      | fuel + 1 =>
        match oneStepRound m s hstep v cv with
        | .ok (.returned value cv1) => .ok (some (value, cv1))
        | .ok (.continues v1 cv1) => oneStepLoop m s hstep fuel v1 cv1
        | .error e => .error e
    else .ok (some (v.timeEnd, cv))

/-- The method `CvodeInterface::oneStep(_timeStart, hstep)`, its loop bounded by `fuel`
rounds. The result is `.error` when an exception leaves the method (the handler of the `try`
block re-initialises the driver and throws again, so an exception inside always leaves the
method), `.ok none` when the rounds are used up, and `.ok (some (t, cv))` when the method
returns `t` and leaves the driver `cv`. -/
def oneStep {κ σ : Type} (m : ExecutableModel σ) (s : Sundials κ σ) (fuel : Nat)
    (cv : CvodeInterface κ σ) (_timeStart hstep : ℚ) :
    Except String (Option (ℚ × CvodeInterface κ σ)) :=
  let cv := { cv with mOneStepCount := cv.mOneStepCount + 1 }
  let timeEnd : ℚ := 0
  let timeStart := _timeStart
  let tout := timeStart + hstep
  let strikes : Int := 3
  let v : StepVars := ⟨timeEnd, timeStart, tout, strikes⟩
  oneStepLoop m s hstep fuel v cv

/-! ## Properties of the queue and the schedule -/

/-- Every pending assignment of the queue has its fire time in the schedule. -/
def Scheduled {κ σ : Type} (cv : CvodeInterface κ σ) : Prop :=
  ∀ p ∈ cv.mAssignments, p.GetTime ∈ cv.mAssignmentTimes

/-- The schedule holds exactly the fire times of the pending assignments of the queue. -/
def ExactSchedule {κ σ : Type} (cv : CvodeInterface κ σ) : Prop :=
  ∀ t, t ∈ cv.mAssignmentTimes ↔ ∃ p ∈ cv.mAssignments, p.GetTime = t

/-- The event `a` may stand before the event `b` in a list ordered by descending priority
with ties in ascending id order: the priority of `a` is at least that of `b`, and when the
two are equal the id of `a` is at most that of `b`. -/
def Descending (p : Nat → Priority) (a b : Nat) : Prop :=
  Priority.ge (p a) (p b) = true ∧ (Priority.eq (p a) (p b) = true → a ≤ b)

/-- The driver `cv` with the queue `q` in the place of its own. -/
def withQueue {κ σ : Type} (q : List PendingAssignment) (cv : CvodeInterface κ σ) :
    CvodeInterface κ σ :=
  { cv with mAssignments := q }

/-- The pending assignments of `q` that are due at `timeEnd`, the last inserted first. -/
def dueReversed (timeEnd : ℚ) (q : List PendingAssignment) : List PendingAssignment :=
  (q.filter (fun p => decide (p.GetTime ≤ timeEnd))).reverse

/-- The pending assignments of `q` that are not due at `timeEnd`, in their order. -/
def notDue (timeEnd : ℚ) (q : List PendingAssignment) : List PendingAssignment :=
  q.filter (fun p => decide (timeEnd < p.GetTime))

/-- The memory block `reInit` leaves behind, from the members it reads. -/
def reInitMemory {κ σ : Type} (s : Sundials κ σ) (mem : Option κ) (t0 : ℚ)
    (sv : Option (List ℚ)) (relTol : ℚ) (tol : Option (List ℚ)) : Option κ :=
  match mem with
  | none => none
  | some mem =>
    if (s.CVodeReInit mem t0 sv).1 ≠ CV_SUCCESS then some (s.CVodeReInit mem t0 sv).2
    else some (s.CVodeSVtolerances (s.CVodeReInit mem t0 sv).2 relTol tol).2

/-- The state vector `assignNewVector(model, false)` leaves behind, or its exception. -/
def restartVector {σ : Type} (m : ExecutableModel σ) (md : ModelData σ) (sv : Option (List ℚ)) :
    Except String (Option (List ℚ)) :=
  match sv with
  | none => .ok none
  | some sv =>
    if (m.getStateVector md).length > sv.length then
      .error "attempt to assign different length data to existing state vector"
    else .ok (some (m.getStateVector md ++ sv.drop (m.getStateVector md).length))

/-- The memory block `reStart` leaves behind, from the members it reads. -/
def reStartMemory {κ σ : Type} (s : Sundials κ σ) (mem : Option κ) (initStep minStep maxStep : ℚ)
    (t0 : ℚ) (sv : Option (List ℚ)) (relTol : ℚ) (tol : Option (List ℚ)) : Option κ :=
  match mem with
  | none => none
  | some _ =>
    reInitMemory s
      (s.CVodeSetMaxStep (s.CVodeSetMinStep (s.CVodeSetInitStep mem initStep) minStep) maxStep)
      t0 sv relTol tol

/-- The driver `reStart` leaves behind when `assignNewVector` wrote the state vector `v`. -/
def afterRestart {κ σ : Type} (s : Sundials κ σ) (cv : CvodeInterface κ σ) (t0 : ℚ)
    (v : Option (List ℚ)) : CvodeInterface κ σ :=
  let mem := reStartMemory s cv.mCVODE_Memory cv.mInitStep cv.mMinStep cv.mMaxStep t0 v
    cv.mRelTol cv.mAbstolArray
  { cv with mStateVector := v, mCVODE_Memory := mem }

/-- The model data the body of `assignPendingEvents` hands to `reStart`, for the pending
assignment `p` and the state vector `sv`. -/
def drainModel {σ : Type} (m : ExecutableModel σ) (timeEnd tout : ℚ) (p : PendingAssignment)
    (sv : Option (List ℚ)) (md : ModelData σ) : ModelData σ :=
  let md := m.setTime tout md
  let md := m.setStateVector (sv.getD []) md
  let md := m.convertToConcentrations md
  let md := m.updateDependentSpeciesValues md
  let md := p.AssignToModel m md
  let md := if m.getConservedSumChanged md then m.computeConservedTotals md else md
  let md := m.convertToAmounts md
  m.evalModel timeEnd md

/-- The driver `cv` with the model data `md` in the place of its own. -/
def withModel {κ σ : Type} (md : ModelData σ) (cv : CvodeInterface κ σ) : CvodeInterface κ σ :=
  { cv with mModel := md }

/-- The time reached, the queue and the schedule a round of the loop of `oneStep` leaves
behind when it ends at the end of the loop body. -/
def roundSummary {κ σ : Type} (r : Except String (Round κ σ)) :
    Option (ℚ × List PendingAssignment × List ℚ) :=
  match r with
  | .ok (.continues v cv) => some (v.timeEnd, cv.mAssignments, cv.mAssignmentTimes)
  | _ => none

/-- The time a call of `oneStep` returns, when it returns one. -/
def returnedTime {κ σ : Type} (r : Except String (Option (ℚ × CvodeInterface κ σ))) : Option ℚ :=
  match r with
  | .ok (some (t, _)) => some t
  | _ => none

/-- The queue and the schedule behind a call that may throw, when it does not. -/
def scheduleOf {κ σ : Type} (r : Except String (CvodeInterface κ σ)) :
    Option (List PendingAssignment × List ℚ) :=
  match r with
  | .ok cv => some (cv.mAssignments, cv.mAssignmentTimes)
  | .error _ => none

/-- The message of the exception that leaves a call, when one does. -/
def thrown {α : Type} (r : Except String α) : Option String :=
  match r with
  | .ok _ => none
  | .error e => some e

/-- The model data `retestEvents` copies the event status array from: the model of the
driver after `computeConservedTotals` (when the conserved sums have changed),
`convertToAmounts` and `evalModel`, ahead of `pushState` and `evalEvents`. -/
def retestBefore {κ σ : Type} (m : ExecutableModel σ) (cv : CvodeInterface κ σ) (timeEnd : ℚ) :
    ModelData σ :=
  let md := cv.mModel
  let md := if m.getConservedSumChanged md then m.computeConservedTotals md else md
  let md := m.convertToAmounts md
  m.evalModel timeEnd md

/-- The model data `retestEvents` reads the event status array from after `evalEvents`. -/
def retestAfter {κ σ : Type} (m : ExecutableModel σ) (cv : CvodeInterface κ σ) (timeEnd : ℚ) :
    ModelData σ :=
  m.evalEvents timeEnd (m.pushState (retestBefore m cv timeEnd))

/-- The model data `handleRootsForTime` partitions the events on: the model of the driver
after `assignResultsToModel`, `convertToConcentrations`, `updateDependentSpeciesValues` and
`evalEvents`. -/
def refreshedModel {κ σ : Type} (m : ExecutableModel σ) (cv : CvodeInterface κ σ) (timeEnd : ℚ) :
    ModelData σ :=
  m.evalEvents timeEnd (m.updateDependentSpeciesValues (m.convertToConcentrations
    (m.setStateVector (cv.mStateVector.getD []) cv.mModel)))

/-- The tolerance in the words of the specification: "for each positive `y[i]`, let
`s = y[i] / 1000`; set per-component tolerance to `min(absTol, min over positive s)`". -/
def leastTolerance (absTol : ℚ) (y : List ℚ) : ℚ :=
  ((y.filter (fun yi => decide (yi > 0))).map (fun yi => yi / 1000)).foldl min absTol

/-- The state vector right after `assignNewVector` has copied the state of the model over
its front; `sv` is the vector before. -/
def copiedState {σ : Type} (m : ExecutableModel σ) (md : ModelData σ) (sv : List ℚ) : List ℚ :=
  m.getStateVector md ++ sv.drop (m.getStateVector md).length

/-- The driver `cv` with the tolerance vector `tol` in the place of its own. -/
def withTolerances {κ σ : Type} (tol : Option (List ℚ)) (cv : CvodeInterface κ σ) :
    CvodeInterface κ σ :=
  { cv with mAbstolArray := tol }

/-- The state vector and the tolerance vector behind a call that may throw, when it does
not. -/
def vectorsOf {κ σ : Type} (r : Except String (CvodeInterface κ σ)) :
    Option (Option (List ℚ) × Option (List ℚ)) :=
  match r with
  | .ok cv => some (cv.mStateVector, cv.mAbstolArray)
  | .error _ => none

/-- The state of `handleRootsForTime(timeEnd, rootsFound)` after `k` rounds of its `while`
loop, or when the loop is left if that is earlier. -/
def handlerState {κ σ : Type} (m : ExecutableModel σ) (cv : CvodeInterface κ σ) (timeEnd : ℚ)
    (rootsFound : List Int) (k : Nat) : RootState κ σ :=
  drainLoop m timeEnd k (partitionRoots m cv timeEnd rootsFound)

/-- The candidates as a round of the `while` loop has sorted them. -/
def sortedCandidates {κ σ : Type} (m : ExecutableModel σ) (st : RootState κ σ) : List Nat :=
  (sortEventsByPriority m st.cv.mModel st.firedEvents).2

/-- The model data a round of the `while` loop evaluates the delay of `currentEvent` on:
after the sort and the copy of the status to `previousEventStatusArray`. -/
def roundModel {κ σ : Type} (m : ExecutableModel σ) (st : RootState κ σ) (currentEvent : Nat) :
    ModelData σ :=
  markPrevious (sortEventsByPriority m st.cv.mModel st.firedEvents).1 currentEvent

/-- The model data after the assignment of `currentEvent` in the branch `eventDelay == 0`. -/
def appliedModel {κ σ : Type} (m : ExecutableModel σ) (st : RootState κ σ) (md : ModelData σ)
    (currentEvent : Nat) : ModelData σ :=
  if m.eventType currentEvent = true ∧ (st.preComputedAssignments currentEvent).isSome then
    m.performEventAssignments currentEvent md ((st.preComputedAssignments currentEvent).getD [])
  else m.eventAssignments currentEvent md

/-- The statement `eventStatusArray[currentEvent] = false`. -/
def clearStatus {σ : Type} (md : ModelData σ) (currentEvent : Nat) : ModelData σ :=
  { md with eventStatusArray := Function.update md.eventStatusArray currentEvent false }

/-- The candidate list of the handler is in order: no candidate stands in it twice, no
handled event is a candidate, and values are stored for every candidate of Type A. -/
def CandidatesReady {κ σ : Type} (m : ExecutableModel σ) (st : RootState κ σ) : Prop :=
  st.firedEvents.Nodup ∧ (∀ x ∈ st.handled, x ∉ st.firedEvents) ∧
    ∀ x ∈ st.firedEvents, m.eventType x = true → (st.preComputedAssignments x).isSome = true

/-- The return code of `CVode`, the local variables and the driver as a round of the loop of
`oneStep` has them right after its integrator call; `none` when the round returns or throws
before it. -/
def roundCall {κ σ : Type} (m : ExecutableModel σ) (s : Sundials κ σ) (hstep : ℚ)
    (v : StepVars) (cv : CvodeInterface κ σ) : Option (Int × StepVars × CvodeInterface κ σ) :=
  if hstep < 1 / 10 ^ 16 then none
  else if haveVariables cv = false ∧ m.getNumEvents = 0 then none
  else
    match beginRound m s v cv with
    | .error _ => none
    | .ok cv1 => some (callCVode s v cv1)

/-- The local `tooCloseToStart` of `oneStep`: `fabs(timeEnd - mLastEvent) > mRelTol`. -/
def tooCloseToStart {κ σ : Type} (v : StepVars) (cv : CvodeInterface κ σ) : Bool :=
  decide (|v.timeEnd - cv.mLastEvent| > cv.mRelTol)

/-- The strike counter after the statement
`if (tooCloseToStart) strikes = 3; else strikes--;`. -/
def strikesAfterRoot {κ σ : Type} (v : StepVars) (cv : CvodeInterface κ σ) : Int :=
  if tooCloseToStart v cv then 3 else v.strikes - 1

/-- The condition `tooCloseToStart || strikes > 0` under which `oneStep` handles a root,
with the counter as the statement before it leaves it. -/
def handlesRoot {κ σ : Type} (v : StepVars) (cv : CvodeInterface κ σ) : Bool :=
  decide (tooCloseToStart v cv = true ∨ strikesAfterRoot v cv > 0)

/-- The root returns of at most `fuel` rounds of the loop of `oneStep`, in their order: one
entry for every round whose integrator call returns `CV_ROOT_RETURN` while `mFollowEvents`
is true. The first component tells whether `|timeEnd - mLastEvent| ≤ mRelTol` holds at the
return, the second whether the round handles the root. -/
def rootTrace {κ σ : Type} (m : ExecutableModel σ) (s : Sundials κ σ) (hstep : ℚ) :
    Nat → StepVars → CvodeInterface κ σ → List (Bool × Bool)
  | 0, _, _ => []
  | fuel + 1, v, cv =>
    if v.tout - v.timeEnd > 1 / 10 ^ 16 then
      let here : List (Bool × Bool) :=
        match roundCall m s hstep v cv with
        | some (nResult, v1, cv1) =>
          if nResult = CV_ROOT_RETURN ∧ cv1.mFollowEvents = true then
            [(decide (|v1.timeEnd - cv1.mLastEvent| ≤ cv1.mRelTol), handlesRoot v1 cv1)]
          else []
        | none => []
      match oneStepRound m s hstep v cv with
      | .ok (.continues v2 cv2) => here ++ rootTrace m s hstep fuel v2 cv2
      | _ => here
    else []

/-- The root returns of the first `fuel` rounds of a call `oneStep(_timeStart, hstep)`. -/
def oneStepTrace {κ σ : Type} (m : ExecutableModel σ) (s : Sundials κ σ) (fuel : Nat)
    (cv : CvodeInterface κ σ) (_timeStart hstep : ℚ) : List (Bool × Bool) :=
  let cv := { cv with mOneStepCount := cv.mOneStepCount + 1 }
  rootTrace m s hstep fuel ⟨0, _timeStart, _timeStart + hstep, 3⟩ cv

/-- The list of root returns `l` is one of a strike counter that stands at `k`: a return
within the tolerance takes one off the counter, any other sets it to 3, and the return is
handled when it is not within the tolerance or the counter is above 0 afterwards. -/
def Counted : Int → List (Bool × Bool) → Prop
  | _, [] => True
  | k, e :: l =>
    e.2 = decide (e.1 = false ∨ (if e.1 then k - 1 else 3) > 0) ∧
      Counted (if e.1 then k - 1 else 3) l

/-- The local variables `v` with the strike counter `k`. -/
def withStrikes (k : Int) (v : StepVars) : StepVars :=
  { v with strikes := k }

/-- The driver `cv` after the statement `mLastEvent = timeEnd`. -/
def withLastEvent {κ σ : Type} (timeEnd : ℚ) (cv : CvodeInterface κ σ) : CvodeInterface κ σ :=
  { cv with mLastEvent := timeEnd }

/-- The branch for a root hit in the words of the specification:
"chatter = |tReached - lastEventTime| ≤ relTol; if chatter: strikes -= 1 else: strikes = 3;
if not chatter or strikes > 0: rootInfo = integrator.getRootInfo();
RootHandler.handle(tReached, rootInfo); reStart(tReached); lastEventTime = tReached". -/
def chatterRule {κ σ : Type} (m : ExecutableModel σ) (s : Sundials κ σ) (v : StepVars)
    (cv : CvodeInterface κ σ) : Except String (StepVars × CvodeInterface κ σ) :=
  let chatter : Bool := decide (|v.timeEnd - cv.mLastEvent| ≤ cv.mRelTol)
  let strikes : Int := if chatter then v.strikes - 1 else 3
  if chatter = false ∨ strikes > 0 then
    let rootInfo := s.CVodeGetRootInfo cv.mCVODE_Memory m.getNumEvents
    let cv1 := handleRootsForTime m s cv v.timeEnd rootInfo
    match reStart m s cv1 v.timeEnd with
    | .ok cv2 => .ok (withStrikes strikes v, withLastEvent v.timeEnd cv2)
    | .error e => .error e
  else .ok (withStrikes strikes v, cv)

/-- The condition `mAssignmentTimes.size() > 0 && mAssignmentTimes[0] < nextTargetEndTime`
under which `oneStep` takes the target of its integrator call from the schedule. -/
def takesScheduled {κ σ : Type} (cv : CvodeInterface κ σ) (tout : ℚ) : Bool :=
  match cv.mAssignmentTimes with
  | t :: _ => decide (t < tout)
  | [] => false

/-- The driver as a round of the loop of `oneStep` has it when it chooses the target of its
integrator call; `none` when the round returns or throws before it. -/
def roundStart {κ σ : Type} (m : ExecutableModel σ) (s : Sundials κ σ) (hstep : ℚ)
    (v : StepVars) (cv : CvodeInterface κ σ) : Option (CvodeInterface κ σ) :=
  if hstep < 1 / 10 ^ 16 then none
  else if haveVariables cv = false ∧ m.getNumEvents = 0 then none
  else
    match beginRound m s v cv with
    | .error _ => none
    | .ok cv1 => some cv1

/-- The targets that at most `fuel` rounds of the loop of `oneStep` take from the schedule,
in their order, each with the schedule it is taken from. -/
def targetTrace {κ σ : Type} (m : ExecutableModel σ) (s : Sundials κ σ) (hstep : ℚ) :
    Nat → StepVars → CvodeInterface κ σ → List (ℚ × List ℚ)
  | 0, _, _ => []
  | fuel + 1, v, cv =>
    if v.tout - v.timeEnd > 1 / 10 ^ 16 then
      let here : List (ℚ × List ℚ) :=
        match roundStart m s hstep v cv with
        | some c0 =>
          if takesScheduled c0 v.tout then [((nextTarget c0 v.tout).1, c0.mAssignmentTimes)]
          else []
        | none => []
      match oneStepRound m s hstep v cv with
      | .ok (.continues v2 cv2) => here ++ targetTrace m s hstep fuel v2 cv2
      | _ => here
    else []

/-- The targets that the first `fuel` rounds of a call `oneStep(_timeStart, hstep)` take
from the schedule. -/
def oneStepTargets {κ σ : Type} (m : ExecutableModel σ) (s : Sundials κ σ) (fuel : Nat)
    (cv : CvodeInterface κ σ) (_timeStart hstep : ℚ) : List (ℚ × List ℚ) :=
  let cv := { cv with mOneStepCount := cv.mOneStepCount + 1 }
  targetTrace m s hstep fuel ⟨0, _timeStart, _timeStart + hstep, 3⟩ cv

/-- The number of times the body of the `while (firedEvents.size() > 0)` loop runs from the
state `st`, when at most `fuel` rounds are allowed. -/
def loopRounds {κ σ : Type} (m : ExecutableModel σ) (timeEnd : ℚ) :
    Nat → RootState κ σ → Nat
  | 0, _ => 0
  | fuel + 1, st =>
    if st.firedEvents.length > 0 then 1 + loopRounds m timeEnd fuel (drainStep m timeEnd st)
    else 0

/-- The candidates that the rounds of the `while` loop deal with (fire or schedule) from the
state `st`, in their order, when at most `fuel` rounds are allowed: a round deals with the
first of the candidates as it has sorted them. -/
def takenEvents {κ σ : Type} (m : ExecutableModel σ) (timeEnd : ℚ) :
    Nat → RootState κ σ → List Nat
  | 0, _ => []
  | fuel + 1, st =>
    if st.firedEvents.length > 0 then
      (sortedCandidates m st).take 1 ++ takenEvents m timeEnd fuel (drainStep m timeEnd st)
    else []

/-- The time a call of `oneStep` returns and the user part of the model data it leaves, when
it returns. -/
def returnedUser {κ σ : Type} (r : Except String (Option (ℚ × CvodeInterface κ σ))) :
    Option (ℚ × σ) :=
  match r with
  | .ok (some (t, cv)) => some (t, cv.mModel.user)
  | _ => none

/-- What `retestEvents` returns in the round of the `while` loop of `handleRootsForTime` that
starts in the state `st`, when this round fires its candidate (`eventDelay == 0`); `none`
when the round schedules its candidate or there is no candidate. -/
def roundRetest {κ σ : Type} (m : ExecutableModel σ) (timeEnd : ℚ) (st : RootState κ σ) :
    Option (CvodeInterface κ σ × List Nat × List Nat) :=
  match sortedCandidates m st with
  | [] => none
  | currentEvent :: _ =>
    if m.eventDelays currentEvent (roundModel m st currentEvent) = 0 then
      some (retestEvents m
        (withModel (appliedModel m st (roundModel m st currentEvent) currentEvent) st.cv)
        timeEnd (st.handled ++ [currentEvent]) false [])
    else none

/-- The `additionalEvents` of the round that starts in the state `st`: the events its retest
reports as newly true (none when the round does not fire its candidate). -/
def retestReport {κ σ : Type} (m : ExecutableModel σ) (timeEnd : ℚ) (st : RootState κ σ) :
    List Nat :=
  match roundRetest m timeEnd st with
  | some rt => rt.2.1
  | none => []

/-- The model data right after the retest of the round that starts in the state `st`, on
which the assignments of the `additionalEvents` are precomputed. -/
def retestedModel {κ σ : Type} (m : ExecutableModel σ) (timeEnd : ℚ) (st : RootState κ σ) :
    ModelData σ :=
  match roundRetest m timeEnd st with
  | some rt => rt.1.mModel
  | none => st.cv.mModel

/-! ## Concrete models -/

/-- Model data with every trigger false, no priority computed and `u` as the rest. -/
def idleData {σ : Type} (u : σ) : ModelData σ :=
  { eventStatusArray := fun _ => false, previousEventStatusArray := fun _ => false,
    eventPriorities := fun _ => none, user := u }

/-- A model with `n` events, all non-persistent and of Type B, whose operations leave the
model data as it is; its state vector is `y`. -/
def idleModel (σ : Type) (n : Nat) (y : List ℚ) : ExecutableModel σ :=
  { getNumEvents := n
    eventPersistentType := fun _ => false
    eventType := fun _ => false
    eventDelays := fun _ _ => 0
    computeEventAssignments := fun _ _ => []
    performEventAssignments := fun _ md _ => md
    eventAssignments := fun _ md => md
    getStateVector := fun _ => y
    setStateVector := fun _ md => md
    setTime := fun _ md => md
    evalModel := fun _ md => md
    evalEvents := fun _ md => md
    convertToAmounts := fun md => md
    convertToConcentrations := fun md => md
    updateDependentSpeciesValues := fun md => md
    computeConservedTotals := fun md => md
    getConservedSumChanged := fun _ => false
    computeEventPriorites := fun md => md
    resetEvents := fun md => md
    testConstraints := fun md => md
    pushState := fun md => md
    popState := fun _ md => md }

/-- An integrator without memory whose `CVode` answers every call with the code `code` at
the time `reach target`, and reports the root directions `roots`. -/
def constSundials (σ : Type) (code : Int) (reach : ℚ → ℚ) (roots : List Int) : Sundials Unit σ :=
  { CVodeCreate := some ()
    CVodeSetUserData := fun mem => (CV_SUCCESS, mem)
    CVodeInit := fun mem _ _ => (CV_SUCCESS, mem)
    CVodeReInit := fun mem _ _ => (CV_SUCCESS, mem)
    CVodeSVtolerances := fun mem _ _ => (CV_SUCCESS, mem)
    CVodeRootInit := fun mem _ => (CV_SUCCESS, mem)
    CVDense := fun mem _ => (CV_SUCCESS, mem)
    CVodeSetMaxOrd := fun mem _ => mem
    CVodeSetInitStep := fun mem _ => mem
    CVodeSetMinStep := fun mem _ => mem
    CVodeSetMaxStep := fun mem _ => mem
    CVodeSetMaxNumSteps := fun mem _ => mem
    CVode := fun mem target y _ _ => { nResult := code, tret := reach target, y := y, mem := mem }
    CVodeGetRootInfo := fun _ _ => roots }

/-- An integrator without memory whose `CVode` gives up with the code -1
(`CV_TOO_MUCH_WORK`) at the time `1 / 2` as long as the time it is handed lies before
`1 / 2`, and converges at its target afterwards. -/
def tooMuchWork (σ : Type) : Sundials Unit σ :=
  { constSundials σ CV_SUCCESS id [] with
    CVode := fun mem target y tret _ =>
      if tret < 1 / 2 then { nResult := -1, tret := 1 / 2, y := y, mem := mem }
      else { nResult := CV_SUCCESS, tret := target, y := y, mem := mem } }

/-- A driver around the model data `md` with the state vector `y`, the queue `queue` and the
schedule `times`, as the constructor and `initializeCVODEInterface` leave the other members
(tolerances `1 / 10 ^ 6`). -/
def driverOf {σ : Type} (md : ModelData σ) (y : List ℚ) (queue : List PendingAssignment)
    (times : List ℚ) : CvodeInterface Unit σ :=
  { mModel := md
    mDefaultReltol := 1 / 10 ^ 6
    mDefaultAbsTol := 1 / 10 ^ 6
    mStateVector := some y
    mAbstolArray := some (List.replicate y.length (1 / 10 ^ 6))
    mStateVectorSize := y.length
    mCVODE_Memory := some ()
    mAssignments := queue
    mAssignmentTimes := times
    mLastTimeValue := 0
    mLastEvent := 0
    mOneStepCount := 0
    mFollowEvents := true
    mMaxBDFOrder := 5
    mInitStep := 0
    mMinStep := 0
    mMaxStep := 0
    mMaxNumSteps := 10000
    mRelTol := 1 / 10 ^ 6
    mAbsTol := 1 / 10 ^ 6 }

/-- A driver with two delayed assignments: event 0 due at time 5, event 1 due at time 7. -/
def twoPending : CvodeInterface Unit ℚ :=
  driverOf (idleData 0) [0] [⟨5, 0, false, none⟩, ⟨7, 1, false, none⟩] [5, 7]

/-- Four events of which the events 0 and 2 have a NaN priority, the event 1 the priority 1
and the event 3 the priority 2; all fire without delay. -/
def nanModel : ExecutableModel ℚ :=
  { idleModel ℚ 4 [0] with
    evalEvents := fun _ md => { md with eventStatusArray := fun _ => true }
    computeEventPriorites := fun md =>
      { md with eventPriorities := fun i => if i = 1 then some 1 else if i = 3 then some 2 else none } }

/-- Two persistent events of Type B; the trigger of event 0 is true and its delay is `1 / 2`. -/
def delayModel : ExecutableModel ℚ :=
  { idleModel ℚ 2 [0] with
    eventPersistentType := fun _ => true
    evalEvents := fun _ md => { md with eventStatusArray := fun i => decide (i = 0) }
    eventDelays := fun _ _ => 1 / 2 }

/-- A driver in which an assignment of event 1 is pending at time 1. -/
def onePending : CvodeInterface Unit ℚ :=
  driverOf (idleData 0) [0] [⟨1, 1, false, none⟩] [1]

/-- Two events of Type B without delay: event 0 is persistent, the trigger of event 1 is
true. -/
def rootModel : ExecutableModel ℚ :=
  { idleModel ℚ 2 [0] with
    eventPersistentType := fun i => decide (i = 0)
    evalEvents := fun _ md => { md with eventStatusArray := fun i => decide (i = 1) } }

/-- A driver in which an assignment of event 0 is pending at time 1. -/
def persistentPending : CvodeInterface Unit ℚ :=
  driverOf (idleData 0) [0] [⟨1, 0, false, none⟩] [1]

/-- The driver `onePending` with `mFollowEvents` switched off. -/
def notFollowing : CvodeInterface Unit ℚ :=
  { onePending with mFollowEvents := false }

/-- A cascade: the state is one number `y`; the trigger of event 0 is true, the trigger of
event 1 is `y ≥ 1`; the assignment of event 0 is `y := 1`, the one of event 1 is
`y := y + 10`. Both events are of Type B, not persistent and have no delay. -/
def cascadeModel : ExecutableModel ℚ :=
  { idleModel ℚ 2 [0] with
    evalEvents := fun _ md =>
      { md with eventStatusArray := fun i => decide (i = 0 ∨ (i = 1 ∧ 1 ≤ md.user)) }
    eventAssignments := fun i md =>
      if i = 0 then { md with user := 1 } else { md with user := md.user + 10 } }

/-- A model with one persistent event of Type B and the state `(y, stamp)`: `y` is the one
state variable, and the assignment of the event is `stamp := y`. -/
def stampModel : ExecutableModel (ℚ × ℚ) :=
  { idleModel (ℚ × ℚ) 1 [0] with
    eventPersistentType := fun _ => true
    getStateVector := fun md => [md.user.1]
    setStateVector := fun sv md => { md with user := (sv.headD 0, md.user.2) }
    performEventAssignments := fun _ md _ => { md with user := (md.user.1, md.user.1) } }

/-- An integrator for `y = t` without memory: `CVode` reaches its target and leaves `y` at
it, unless `rootAt` holds a time between the time it is handed and the target; it then
stops there with `CV_ROOT_RETURN`, the trigger of event 0 having gone from true to false. -/
def clockSundials (σ : Type) (rootAt : Option ℚ) : Sundials Unit σ :=
  { constSundials σ CV_SUCCESS id [-1] with
    CVode := fun mem target _ tret _ =>
      match rootAt with
      | some r =>
        if tret < r ∧ r < target then
          { nResult := CV_ROOT_RETURN, tret := r, y := some [r], mem := mem }
        else { nResult := CV_SUCCESS, tret := target, y := some [target], mem := mem }
      | none => { nResult := CV_SUCCESS, tret := target, y := some [target], mem := mem } }

/-- A driver of `stampModel` with `y = 0` in which the assignment of event 0 is pending at
time 1. -/
def stampPending : CvodeInterface Unit (ℚ × ℚ) :=
  driverOf (idleData (0, 0)) [0] [⟨1, 0, false, none⟩] [1]

/-- A trigger that flickers: the state is one number `y`. The events 0 and 1 are of Type B,
their triggers are true and their assignments are `y := 1` and `y := 5`. The event 2 is
persistent and of Type A, its trigger is `y = 0 ∨ y = 5`, the value it computes at trigger
time is `y`, its assignment is `y := 100 + value` and its delay is `d`. The priorities are
3, 2 and 1. -/
def flickerModel (d : ℚ) : ExecutableModel ℚ :=
  { idleModel ℚ 3 [0] with
    eventPersistentType := fun i => decide (i = 2)
    eventType := fun i => decide (i = 2)
    eventDelays := fun i _ => if i = 2 then d else 0
    evalEvents := fun _ md =>
      { md with
        eventStatusArray := fun i => decide (i < 2 ∨ (i = 2 ∧ (md.user = 0 ∨ md.user = 5))) }
    computeEventPriorites := fun md =>
      { md with
        eventPriorities := fun i =>
          if i = 0 then some 3 else if i = 1 then some 2 else if i = 2 then some 1 else none }
    computeEventAssignments := fun _ md => [md.user]
    performEventAssignments := fun _ md values => { md with user := 100 + values.headD 0 }
    eventAssignments := fun i md =>
      if i = 0 then { md with user := 1 } else { md with user := 5 } }

/-! ## The queue: `removePendingAssignmentForIndex` -/

theorem removePendingLoop_eq (e : Nat) :
    ∀ (j : Nat) (l : List PendingAssignment), j ≤ l.length →
      removePendingLoop e j l = (l.take j).filter (fun p => decide (p.GetIndex ≠ e)) ++ l.drop j := by
  intro j
  induction j with
  | zero => intro l _; simp [removePendingLoop]
  | succ j ih =>
    intro l hj
    have hlt : j < l.length := hj
    have hget : l.get? j = some l[j] := by simp [List.getElem?_eq_getElem hlt]
    have htake : l.take (j + 1) = l.take j ++ [l[j]] := by
      rw [List.take_succ, List.getElem?_eq_getElem hlt]; rfl
    have hdrop : l.drop j = l[j] :: l.drop (j + 1) := by simp
    rw [removePendingLoop, hget]
    by_cases hp : l[j].GetIndex = e
    · have hlen : j ≤ (l.eraseIdx j).length := by
        rw [List.length_eraseIdx]; simp [hlt]; omega
      simp only [hp, if_true]
      rw [ih _ hlen, htake, List.filter_append]
      have h1 : (l.eraseIdx j).take j = l.take j := by
        rw [List.eraseIdx_eq_take_drop_succ]
        simp [List.take_append_eq_append_take, List.length_take, Nat.min_eq_left (Nat.le_of_lt hlt)]
      have h2 : (l.eraseIdx j).drop j = l.drop (j + 1) := by
        rw [List.eraseIdx_eq_take_drop_succ]
        simp [List.drop_append_eq_append_drop, List.length_take, Nat.min_eq_left (Nat.le_of_lt hlt)]
      rw [h1, h2]
      simp [hp]
    · simp only [hp, if_false]
      rw [ih _ (Nat.le_of_lt hlt), htake, List.filter_append, hdrop]
      simp [hp]

/-- C6: `removePendingAssignmentForIndex(e)` leaves the queue with exactly the entries of
event `e` removed; the other entries stay, unchanged and in their order. -/
theorem removePendingAssignmentForIndex_eq_filter {κ σ : Type} (cv : CvodeInterface κ σ)
    (e : Nat) :
    (removePendingAssignmentForIndex cv e).mAssignments =
      cv.mAssignments.filter (fun p => decide (p.GetIndex ≠ e)) := by
  simp [removePendingAssignmentForIndex, removePendingLoop_eq e _ _ (Nat.le_refl _)]

theorem removePending_times {κ σ : Type} (cv : CvodeInterface κ σ) (e : Nat) :
    (removePendingAssignmentForIndex cv e).mAssignmentTimes = cv.mAssignmentTimes := rfl

theorem removePending_queue {κ σ : Type} (cv : CvodeInterface κ σ) (e : Nat) :
    (removePendingAssignmentForIndex cv e).mAssignments =
      cv.mAssignments.filter (fun p => decide (p.GetIndex ≠ e)) := by
  simp [removePendingAssignmentForIndex, removePendingLoop_eq e _ _ (Nat.le_refl _)]

theorem removePending_model {κ σ : Type} (cv : CvodeInterface κ σ) (e : Nat) :
    (removePendingAssignmentForIndex cv e).mModel = cv.mModel := rfl

theorem removePending_scheduled {κ σ : Type} (cv : CvodeInterface κ σ) (e : Nat)
    (h : Scheduled cv) : Scheduled (removePendingAssignmentForIndex cv e) := by
  intro p hp
  rw [removePending_queue] at hp
  rw [removePending_times]
  exact h p (List.mem_filter.mp hp).1

/-- C7, as the claim states it, fails: in `twoPending` the schedule `[5, 7]` holds exactly the
fire times of the queue, and after the drop of event 0 it still holds the time 5, which is
the fire time of no remaining entry. -/
theorem drop_leaves_stale_time :
    ExactSchedule twoPending ∧ ¬ ExactSchedule (removePendingAssignmentForIndex twoPending 0) := by
  constructor
  · intro t
    simp [twoPending, driverOf, PendingAssignment.GetTime]
    tauto
  · intro h
    have h5 := (h 5).mp (by simp [removePending_times, twoPending, driverOf])
    obtain ⟨p, hp, ht⟩ := h5
    rw [removePending_queue] at hp
    simp [twoPending, driverOf, PendingAssignment.GetIndex] at hp
    rw [hp] at ht
    simp [PendingAssignment.GetTime] at ht

/-- C7, amended: `removePendingAssignmentForIndex` leaves the schedule as it is, so when
every queue entry had its fire time in the schedule before the drop, every remaining entry
still has it after the drop (the schedule may keep the fire times of the removed entries). -/
theorem drop_keeps_schedule {κ σ : Type} (cv : CvodeInterface κ σ) (e : Nat)
    (h : Scheduled cv) :
    (removePendingAssignmentForIndex cv e).mAssignmentTimes = cv.mAssignmentTimes ∧
      Scheduled (removePendingAssignmentForIndex cv e) :=
  ⟨removePending_times cv e, removePending_scheduled cv e h⟩

/-- C7, amended, at `twoPending` and the drop of event 0. -/
theorem drop_keeps_schedule_witness :
    Scheduled twoPending ∧
      (removePendingAssignmentForIndex twoPending 0).mAssignmentTimes = [5, 7] ∧
      Scheduled (removePendingAssignmentForIndex twoPending 0) :=
  have h : Scheduled twoPending := by
    intro p hp
    simp [twoPending, driverOf] at hp
    rcases hp with rfl | rfl <;> simp [twoPending, driverOf, PendingAssignment.GetTime]
  ⟨h, drop_keeps_schedule twoPending 0 h⟩

/-! ## The priority sort -/

theorem linearInsert_perm {α : Type} (comp : α → α → Bool) (val : α) :
    ∀ l : List α, (linearInsert comp val l).Perm (val :: l)
  | [] => List.Perm.refl _
  | p :: ps => by
    unfold linearInsert
    split
    · exact ((linearInsert_perm comp val ps).cons p).trans (List.Perm.swap val p ps)
    · exact List.Perm.refl _

theorem insertionStep_perm {α : Type} (comp : α → α → Bool) (acc : List α) (x : α) :
    (insertionStep comp acc x).Perm (x :: acc) := by
  unfold insertionStep
  split
  · rename_i hnone
    rw [List.getLast?_eq_none_iff.mp hnone]
  · split_ifs
    · exact List.perm_append_singleton x acc
    · exact linearInsert_perm comp x acc

theorem insertAll_perm {α : Type} (comp : α → α → Bool) :
    ∀ (l acc : List α), (l.foldl (insertionStep comp) acc).Perm (l ++ acc)
  | [], acc => List.Perm.refl _
  | x :: xs, acc => by
    rw [List.foldl_cons]
    refine (insertAll_perm comp xs (insertionStep comp acc x)).trans ?_
    refine ((insertionStep_perm comp acc x).append_left xs).trans ?_
    exact List.perm_middle

theorem stdSort_perm {α : Type} (comp : α → α → Bool) (l : List α) : (stdSort comp l).Perm l := by
  unfold stdSort
  refine (List.reverse_perm _).trans ?_
  simpa using insertAll_perm comp l []

theorem linearInsert_ordered {α : Type} (comp : α → α → Bool) (P : α → Prop)
    (hasym : ∀ a b, P a → P b → comp a b = true → comp b a = false)
    (htrans : ∀ a b c, P a → P b → P c → comp a b = false → comp b c = false → comp a c = false)
    (val : α) (hval : P val) :
    ∀ l : List α, (∀ x ∈ l, P x) → l.Pairwise (fun u w => comp u w = false) →
      (linearInsert comp val l).Pairwise (fun u w => comp u w = false)
  | [], _, _ => by simp [linearInsert]
  | p :: ps, hP, hso => by
    have hp : P p := hP p (List.mem_cons_self _ _)
    have hps : ∀ x ∈ ps, P x := fun x hx => hP x (List.mem_cons_of_mem _ hx)
    rw [List.pairwise_cons] at hso
    unfold linearInsert
    split
    · rename_i hc
      rw [List.pairwise_cons]
      refine ⟨?_, linearInsert_ordered comp P hasym htrans val hval ps hps hso.2⟩
      intro w hw
      rcases List.mem_cons.mp ((linearInsert_perm comp val ps).subset hw) with rfl | hw
      · exact hasym _ _ hval hp hc
      · exact hso.1 w hw
    · rename_i hc
      have hc : comp val p = false := by simpa using hc
      rw [List.pairwise_cons]
      refine ⟨?_, List.pairwise_cons.mpr hso⟩
      intro w hw
      rcases List.mem_cons.mp hw with rfl | hw
      · exact hc
      · exact htrans _ _ _ hval hp (hps w hw) hc (hso.1 w hw)

theorem pairwise_getLast {α : Type} (R : α → α → Prop) :
    ∀ (l : List α) (f : α), l.Pairwise R → l.getLast? = some f → ∀ u ∈ l, u = f ∨ R u f
  | [], _, _, h, _, _ => by simp at h
  | [x], f, _, h, u, hu => by
    simp only [List.getLast?_singleton, Option.some.injEq] at h
    rw [List.mem_singleton] at hu
    exact Or.inl (hu.trans h)
  | x :: y :: l, f, hp, h, u, hu => by
    rw [List.getLast?_cons_cons] at h
    rw [List.pairwise_cons] at hp
    rcases List.mem_cons.mp hu with rfl | hu
    · exact Or.inr (hp.1 f (List.mem_of_getLast?_eq_some h))
    · exact pairwise_getLast R (y :: l) f hp.2 h u hu

theorem insertionStep_ordered {α : Type} (comp : α → α → Bool) (P : α → Prop)
    (hasym : ∀ a b, P a → P b → comp a b = true → comp b a = false)
    (htrans : ∀ a b c, P a → P b → P c → comp a b = false → comp b c = false → comp a c = false)
    (x : α) (hx : P x) (acc : List α) (hacc : ∀ y ∈ acc, P y)
    (hso : acc.Pairwise (fun u w => comp u w = false)) :
    (insertionStep comp acc x).Pairwise (fun u w => comp u w = false) := by
  unfold insertionStep
  split
  · exact List.pairwise_singleton _ _
  · rename_i first hfirst
    have hf : P first := hacc first (List.mem_of_getLast?_eq_some hfirst)
    split_ifs with hc
    · rw [List.pairwise_append]
      refine ⟨hso, List.pairwise_singleton _ _, ?_⟩
      intro u hu w hw
      rw [List.mem_singleton] at hw
      subst hw
      have hfx : comp first w = false := hasym _ _ hx hf hc
      rcases pairwise_getLast _ acc first hso hfirst u hu with rfl | huf
      · exact hfx
      · exact htrans _ _ _ (hacc u hu) hf hx huf hfx
    · exact linearInsert_ordered comp P hasym htrans x hx acc hacc hso

theorem insertAll_ordered {α : Type} (comp : α → α → Bool) (P : α → Prop)
    (hasym : ∀ a b, P a → P b → comp a b = true → comp b a = false)
    (htrans : ∀ a b c, P a → P b → P c → comp a b = false → comp b c = false → comp a c = false) :
    ∀ (l acc : List α), (∀ x ∈ l, P x) → (∀ x ∈ acc, P x) →
      acc.Pairwise (fun u w => comp u w = false) →
      (l.foldl (insertionStep comp) acc).Pairwise (fun u w => comp u w = false)
  | [], _, _, _, hso => hso
  | x :: xs, acc, hl, hacc, hso => by
    rw [List.foldl_cons]
    have hx : P x := hl x (List.mem_cons_self _ _)
    refine insertAll_ordered comp P hasym htrans xs _ (fun y hy => hl y (List.mem_cons_of_mem _ hy))
      ?_ (insertionStep_ordered comp P hasym htrans x hx acc hacc hso)
    intro y hy
    rcases List.mem_cons.mp ((insertionStep_perm comp acc x).subset hy) with rfl | hy
    · exact hx
    · exact hacc y hy

/-- On elements among which `comp` is asymmetric and its negation transitive (a strict weak
order), `stdSort` puts no element behind one it must precede. -/
theorem stdSort_ordered {α : Type} (comp : α → α → Bool) (P : α → Prop)
    (hasym : ∀ a b, P a → P b → comp a b = true → comp b a = false)
    (htrans : ∀ a b c, P a → P b → P c → comp a b = false → comp b c = false → comp a c = false)
    (l : List α) (hl : ∀ x ∈ l, P x) :
    (stdSort comp l).Pairwise (fun a b => comp b a = false) := by
  unfold stdSort
  rw [List.pairwise_reverse]
  exact insertAll_ordered comp P hasym htrans l [] hl (by simp) List.Pairwise.nil

theorem SortByPriority_asymm (a b : Event) (ha : a.mPriority.isSome) (hb : b.mPriority.isSome)
    (h : SortByPriority a b = true) : SortByPriority b a = false := by
  obtain ⟨ia, pa⟩ := a
  obtain ⟨ib, pb⟩ := b
  cases pa with
  | none => simp at ha
  | some x =>
    cases pb with
    | none => simp at hb
    | some y =>
      simp only [SortByPriority, Event.GetPriority, Event.GetID, Priority.gt, Priority.eq,
        Bool.or_eq_true, Bool.and_eq_true, decide_eq_true_eq, Bool.or_eq_false_iff,
        Bool.and_eq_false_iff, decide_eq_false_iff_not] at h ⊢
      rcases h with h | ⟨h1, h2⟩
      · exact ⟨not_lt.mpr h.le, Or.inl (ne_of_lt h)⟩
      · exact ⟨by rw [h1]; exact lt_irrefl _, Or.inr (by omega)⟩

theorem SortByPriority_negTrans (a b c : Event) (ha : a.mPriority.isSome)
    (hb : b.mPriority.isSome) (hc : c.mPriority.isSome)
    (hab : SortByPriority a b = false) (hbc : SortByPriority b c = false) :
    SortByPriority a c = false := by
  obtain ⟨ia, pa⟩ := a
  obtain ⟨ib, pb⟩ := b
  obtain ⟨ic, pc⟩ := c
  cases pa with
  | none => simp at ha
  | some x =>
    cases pb with
    | none => simp at hb
    | some y =>
      cases pc with
      | none => simp at hc
      | some z =>
        simp only [SortByPriority, Event.GetPriority, Event.GetID, Priority.gt, Priority.eq,
          Bool.or_eq_false_iff, Bool.and_eq_false_iff, decide_eq_false_iff_not, not_lt] at hab hbc ⊢
        obtain ⟨h1, h2⟩ := hab
        obtain ⟨h3, h4⟩ := hbc
        refine ⟨le_trans h1 h3, ?_⟩
        by_cases hxz : x = z
        · right
          subst hxz
          have hxy : x = y := le_antisymm h1 h3
          rcases h2 with h2 | h2
          · exact absurd hxy h2
          · rcases h4 with h4 | h4
            · exact absurd hxy.symm h4
            · omega
        · exact Or.inl hxz

theorem SortByPriority_descending (p : Nat → Priority) (a b : Nat) (ha : (p a).isSome)
    (hb : (p b).isSome) (h : SortByPriority ⟨b, p b⟩ ⟨a, p a⟩ = false) : Descending p a b := by
  revert h ha hb
  cases hpa : p a with
  | none => simp
  | some x =>
    cases hpb : p b with
    | none => simp
    | some y =>
      intro _ _ h
      simp only [SortByPriority, Event.GetPriority, Event.GetID, Priority.gt, Priority.eq,
        Bool.or_eq_false_iff, Bool.and_eq_false_iff, decide_eq_false_iff_not, not_lt] at h
      simp only [Descending, hpa, hpb, Priority.ge, Priority.eq, decide_eq_true_eq]
      refine ⟨h.1, fun hxy => ?_⟩
      rcases h.2 with h2 | h2
      · exact absurd hxy.symm h2
      · omega

theorem sortEvents_perm {σ : Type} (m : ExecutableModel σ) (md : ModelData σ) (l : List Nat) :
    (sortEventsByPriority m md l).2.Perm l := by
  unfold sortEventsByPriority
  split
  · have h := (stdSort_perm SortByPriority
      (l.map (fun id => Event.mk id ((m.computeEventPriorites md).eventPriorities id)))).map
      Event.GetID
    simpa [Function.comp_def, Event.GetID] using h
  · exact List.Perm.refl _

theorem sortEvents_descending {σ : Type} (m : ExecutableModel σ) (md : ModelData σ) (l : List Nat)
    (hnan : ∀ i ∈ l, ((m.computeEventPriorites md).eventPriorities i).isSome) :
    (sortEventsByPriority m md l).2.Pairwise
      (Descending (m.computeEventPriorites md).eventPriorities) := by
  unfold sortEventsByPriority
  split
  · simp only
    rw [List.pairwise_map]
    have hP : ∀ x ∈ l.map (fun id => Event.mk id ((m.computeEventPriorites md).eventPriorities id)),
        x.mPriority.isSome ∧ x.mPriority = (m.computeEventPriorites md).eventPriorities x.mID := by
      intro x hx
      obtain ⟨i, hi, rfl⟩ := List.mem_map.mp hx
      exact ⟨hnan i hi, rfl⟩
    have hso := stdSort_ordered SortByPriority
      (fun x => x.mPriority.isSome ∧ x.mPriority = (m.computeEventPriorites md).eventPriorities x.mID)
      (fun a b ha hb h => SortByPriority_asymm a b ha.1 hb.1 h)
      (fun a b c ha hb hc h1 h2 => SortByPriority_negTrans a b c ha.1 hb.1 hc.1 h1 h2) _ hP
    have hmem : ∀ x ∈ stdSort SortByPriority
        (l.map (fun id => Event.mk id ((m.computeEventPriorites md).eventPriorities id))),
        x.mPriority.isSome ∧ x.mPriority = (m.computeEventPriorites md).eventPriorities x.mID :=
      fun x hx => hP x ((stdSort_perm _ _).subset hx)
    refine List.Pairwise.imp_of_mem ?_ hso
    intro a b ha hb h
    obtain ⟨ha1, ha2⟩ := hmem a ha
    obtain ⟨hb1, hb2⟩ := hmem b hb
    have h' : SortByPriority ⟨b.mID, (m.computeEventPriorites md).eventPriorities b.mID⟩
        ⟨a.mID, (m.computeEventPriorites md).eventPriorities a.mID⟩ = false := by
      rw [← ha2, ← hb2]; exact h
    exact SortByPriority_descending _ a.mID b.mID (ha2 ▸ ha1) (hb2 ▸ hb1) h'
  · rename_i hlen
    have : l.length ≤ 1 := by omega
    match l, this with
    | [], _ => exact List.Pairwise.nil
    | [x], _ => exact List.pairwise_singleton _ _

/-- C4, as the claim states it, fails: with the priorities NaN, 1, NaN, 2 of `nanModel` the
candidates `[0, 1, 2, 3]` stay as they are, so the event 1 stands before the event 3 of
greater priority and the result is not ordered by descending priority. -/
theorem sortEventsByPriority_nan_unordered :
    (sortEventsByPriority nanModel (idleData 0) [0, 1, 2, 3]).2 = [0, 1, 2, 3] ∧
    Priority.gt ((nanModel.computeEventPriorites (idleData 0)).eventPriorities 3)
      ((nanModel.computeEventPriorites (idleData 0)).eventPriorities 1) = true ∧
    ¬ (sortEventsByPriority nanModel (idleData 0) [0, 1, 2, 3]).2.Pairwise
      (Descending (nanModel.computeEventPriorites (idleData 0)).eventPriorities) := by
  have hout : (sortEventsByPriority nanModel (idleData 0) [0, 1, 2, 3]).2 = [0, 1, 2, 3] := by
    decide!
  refine ⟨hout, by decide!, ?_⟩
  rw [hout]
  intro h
  have h13 : Descending (nanModel.computeEventPriorites (idleData 0)).eventPriorities 1 3 := by
    have := List.pairwise_cons.mp (List.pairwise_cons.mp h).2
    exact this.1 3 (by simp)
  have hge := h13.1
  revert hge
  decide!

/-- C4, amended: when no candidate has a NaN priority, `sortEventsByPriority` leaves a
permutation of the candidates ordered by descending priority (the priorities computed by
`computeEventPriorites`), in which events of equal priority stand in ascending id order. -/
theorem sortEventsByPriority_sorted {σ : Type} (m : ExecutableModel σ) (md : ModelData σ)
    (l : List Nat)
    (hnan : ∀ i ∈ l, ((m.computeEventPriorites md).eventPriorities i).isSome) :
    (sortEventsByPriority m md l).2.Perm l ∧
      (sortEventsByPriority m md l).2.Pairwise
        (Descending (m.computeEventPriorites md).eventPriorities) :=
  ⟨sortEvents_perm m md l, sortEvents_descending m md l hnan⟩

/-- C4, amended, at the candidates `[1, 3]` of `nanModel` (priorities 1 and 2): the result is
`[3, 1]`. -/
theorem sortEventsByPriority_sorted_witness :
    (sortEventsByPriority nanModel (idleData 0) [1, 3]).2 = [3, 1] ∧
    (sortEventsByPriority nanModel (idleData 0) [1, 3]).2.Perm [1, 3] ∧
      (sortEventsByPriority nanModel (idleData 0) [1, 3]).2.Pairwise
        (Descending (nanModel.computeEventPriorites (idleData 0)).eventPriorities) :=
  ⟨by decide!, sortEventsByPriority_sorted nanModel (idleData 0) [1, 3] (by decide)⟩

/-! ## Frame properties: what the restart leaves alone -/

theorem reInit_snd {κ σ : Type} (s : Sundials κ σ) (cv : CvodeInterface κ σ) (t : ℚ) :
    (reInit s cv t).2 =
      { cv with mCVODE_Memory := reInitMemory s cv.mCVODE_Memory t cv.mStateVector cv.mRelTol cv.mAbstolArray } := by
  obtain ⟨md, rt, at0, sv, tol, n, mem, q0, ts, lt, le, cnt, fe, ord, h0, h1, h2, ns, rtol, atol⟩ := cv
  cases mem with
  | none => rfl
  | some mem =>
    simp only [reInit, reInitMemory]
    split_ifs <;> rfl

theorem assignNewVector_false {κ σ : Type} (m : ExecutableModel σ) (cv : CvodeInterface κ σ) :
    assignNewVector m cv false =
      (restartVector m cv.mModel cv.mStateVector).map (fun v => { cv with mStateVector := v }) := by
  obtain ⟨md, rt, at0, sv, tol, n, mem, q0, ts, lt, le, cnt, fe, ord, h0, h1, h2, ns, rtol, atol⟩ := cv
  cases sv with
  | none => rfl
  | some sv =>
    simp only [assignNewVector, restartVector, Bool.false_eq_true, if_false]
    split_ifs <;> rfl

theorem reStart_eq {κ σ : Type} (m : ExecutableModel σ) (s : Sundials κ σ)
    (cv : CvodeInterface κ σ) (t : ℚ) :
    reStart m s cv t = (restartVector m cv.mModel cv.mStateVector).map (afterRestart s cv t) := by
  unfold reStart
  rw [assignNewVector_false]
  obtain ⟨md, rt, at0, sv, tol, n, mem, q0, ts, lt, le, cnt, fe, ord, h0, h1, h2, ns, rtol, atol⟩ := cv
  cases hv : restartVector m md sv with
  | error e => rfl
  | ok v =>
    cases mem with
    | none => rfl
    | some mem =>
      simp only [bind, Except.bind, pure, Except.pure, reInit_snd, Except.map, reStartMemory,
        afterRestart]

theorem reStart_withQueue {κ σ : Type} (m : ExecutableModel σ) (s : Sundials κ σ)
    (cv : CvodeInterface κ σ) (t : ℚ) (q : List PendingAssignment) :
    reStart m s (withQueue q cv) t = (reStart m s cv t).map (withQueue q) := by
  rw [reStart_eq, reStart_eq]
  obtain ⟨md, rt, at0, sv, tol, n, mem, q0, ts, lt, le, cnt, fe, ord, h0, h1, h2, ns, rtol, atol⟩ := cv
  simp only [withQueue]
  cases restartVector m md sv <;> rfl

theorem assignPendingBody_eq {κ σ : Type} (m : ExecutableModel σ) (s : Sundials κ σ)
    (timeEnd tout : ℚ) (p : PendingAssignment) (cv : CvodeInterface κ σ) :
    assignPendingBody m s timeEnd tout p cv =
      reStart m s (withModel (drainModel m timeEnd tout p cv.mStateVector cv.mModel) cv) timeEnd := by
  obtain ⟨md, rt, at0, sv, tol, n, mem, q0, ts, lt, le, cnt, fe, ord, h0, h1, h2, ns, rtol, atol⟩ := cv
  simp only [assignPendingBody, assignResultsToModel, drainModel, withModel]
  split_ifs <;> rfl

theorem assignPendingBody_withQueue {κ σ : Type} (m : ExecutableModel σ) (s : Sundials κ σ)
    (timeEnd tout : ℚ) (p : PendingAssignment) (cv : CvodeInterface κ σ)
    (q : List PendingAssignment) :
    assignPendingBody m s timeEnd tout p (withQueue q cv) =
      (assignPendingBody m s timeEnd tout p cv).map (withQueue q) := by
  rw [assignPendingBody_eq, assignPendingBody_eq]
  exact reStart_withQueue m s
    (withModel (drainModel m timeEnd tout p cv.mStateVector cv.mModel) cv) timeEnd q

/-! ## The drain: `assignPendingEvents` -/

theorem reStart_queue {κ σ : Type} (m : ExecutableModel σ) (s : Sundials κ σ)
    (cv cv1 : CvodeInterface κ σ) (t : ℚ) (h : reStart m s cv t = .ok cv1) :
    cv1.mAssignments = cv.mAssignments ∧ cv1.mAssignmentTimes = cv.mAssignmentTimes ∧
      cv1.mModel = cv.mModel := by
  rw [reStart_eq] at h
  cases hv : restartVector m cv.mModel cv.mStateVector with
  | error e => rw [hv] at h; cases h
  | ok v =>
    rw [hv] at h
    cases h
    exact ⟨rfl, rfl, rfl⟩

theorem assignPendingBody_queue {κ σ : Type} (m : ExecutableModel σ) (s : Sundials κ σ)
    (timeEnd tout : ℚ) (p : PendingAssignment) (cv cv1 : CvodeInterface κ σ)
    (h : assignPendingBody m s timeEnd tout p cv = .ok cv1) :
    cv1.mAssignments = cv.mAssignments ∧ cv1.mAssignmentTimes = cv.mAssignmentTimes := by
  rw [assignPendingBody_eq] at h
  have := reStart_queue m s _ cv1 timeEnd h
  exact ⟨this.1, this.2.1⟩

theorem drainFold_withQueue {κ σ : Type} (m : ExecutableModel σ) (s : Sundials κ σ)
    (timeEnd tout : ℚ) (q : List PendingAssignment) :
    ∀ (r : List PendingAssignment) (c : CvodeInterface κ σ),
      List.foldlM (fun c p => assignPendingBody m s timeEnd tout p c) (withQueue q c) r =
        (List.foldlM (fun c p => assignPendingBody m s timeEnd tout p c) c r).map (withQueue q)
  | [], _ => rfl
  | p :: r, c => by
    rw [List.foldlM_cons, List.foldlM_cons, assignPendingBody_withQueue]
    cases assignPendingBody m s timeEnd tout p c with
    | error e => rfl
    | ok c1 => exact drainFold_withQueue m s timeEnd tout q r c1

theorem map_withQueue_twice {κ σ : Type} (q q1 : List PendingAssignment)
    (x : Except String (CvodeInterface κ σ)) :
    (x.map (withQueue q1)).map (withQueue q) = x.map (withQueue q) := by
  cases x <;> rfl

theorem assignPendingLoop_eq {κ σ : Type} (m : ExecutableModel σ) (s : Sundials κ σ)
    (timeEnd tout : ℚ) :
    ∀ (i : Nat) (cv : CvodeInterface κ σ), i ≤ cv.mAssignments.length →
      assignPendingLoop m s timeEnd tout i cv =
        (List.foldlM (fun c p => assignPendingBody m s timeEnd tout p c) cv
          (dueReversed timeEnd (cv.mAssignments.take i))).map
          (withQueue (notDue timeEnd (cv.mAssignments.take i) ++ cv.mAssignments.drop i)) := by
  intro i
  induction i with
  | zero =>
    intro cv _
    simp only [assignPendingLoop, List.take_zero, dueReversed, notDue, List.filter_nil,
      List.reverse_nil, List.nil_append, List.drop_zero]
    rfl
  | succ i ih =>
    intro cv hi
    have hlt : i < cv.mAssignments.length := hi
    have hget : cv.mAssignments.get? i = some cv.mAssignments[i] := by
      simp [List.getElem?_eq_getElem hlt]
    have htake : cv.mAssignments.take (i + 1) = cv.mAssignments.take i ++ [cv.mAssignments[i]] := by
      rw [List.take_succ, List.getElem?_eq_getElem hlt]; rfl
    have hdrop : cv.mAssignments.drop i = cv.mAssignments[i] :: cv.mAssignments.drop (i + 1) := by
      simp
    rw [assignPendingLoop, hget]
    simp only
    by_cases hdue : timeEnd ≥ cv.mAssignments[i].GetTime
    · have hdue1 : cv.mAssignments[i].GetTime ≤ timeEnd := hdue
      have hdue2 : ¬ timeEnd < cv.mAssignments[i].GetTime := not_lt.mpr hdue
      rw [if_pos hdue]
      have hrev : dueReversed timeEnd (cv.mAssignments.take (i + 1)) =
          cv.mAssignments[i] :: dueReversed timeEnd (cv.mAssignments.take i) := by
        rw [dueReversed, dueReversed, htake, List.filter_append]
        simp [hdue1]
      have hnot : notDue timeEnd (cv.mAssignments.take (i + 1)) =
          notDue timeEnd (cv.mAssignments.take i) := by
        rw [notDue, notDue, htake, List.filter_append]
        simp [hdue2]
      rw [hrev, hnot, List.foldlM_cons]
      cases hb : assignPendingBody m s timeEnd tout cv.mAssignments[i] cv with
      | error e => rfl
      | ok cv1 =>
        have hq := (assignPendingBody_queue m s timeEnd tout _ cv cv1 hb).1
        have hcv1 : ({ cv1 with mAssignments := cv1.mAssignments.eraseIdx i } :
            CvodeInterface κ σ) = withQueue (cv.mAssignments.eraseIdx i) cv1 := by
          rw [hq]; rfl
        have hlen : i ≤ (withQueue (cv.mAssignments.eraseIdx i) cv1).mAssignments.length := by
          show i ≤ (cv.mAssignments.eraseIdx i).length
          rw [List.length_eraseIdx]; simp [hlt]; omega
        have h1 : (cv.mAssignments.eraseIdx i).take i = cv.mAssignments.take i := by
          rw [List.eraseIdx_eq_take_drop_succ]
          simp [List.take_append_eq_append_take, List.length_take, Nat.min_eq_left (Nat.le_of_lt hlt)]
        have h2 : (cv.mAssignments.eraseIdx i).drop i = cv.mAssignments.drop (i + 1) := by
          rw [List.eraseIdx_eq_take_drop_succ]
          simp [List.drop_append_eq_append_drop, List.length_take, Nat.min_eq_left (Nat.le_of_lt hlt)]
        have hqq : (withQueue (cv.mAssignments.eraseIdx i) cv1).mAssignments =
            cv.mAssignments.eraseIdx i := rfl
        simp only [hcv1]
        rw [ih _ hlen, hqq, h1, h2, drainFold_withQueue, map_withQueue_twice]
        rfl
    · have hdue1 : ¬ cv.mAssignments[i].GetTime ≤ timeEnd := hdue
      have hdue2 : timeEnd < cv.mAssignments[i].GetTime := not_le.mp hdue
      rw [if_neg hdue, ih cv (Nat.le_of_lt hlt)]
      have hrev : dueReversed timeEnd (cv.mAssignments.take (i + 1)) =
          dueReversed timeEnd (cv.mAssignments.take i) := by
        rw [dueReversed, dueReversed, htake, List.filter_append]
        simp [hdue1]
      have hnot : notDue timeEnd (cv.mAssignments.take (i + 1)) ++ cv.mAssignments.drop (i + 1) =
          notDue timeEnd (cv.mAssignments.take i) ++ cv.mAssignments.drop i := by
        rw [hdrop, notDue, notDue, htake, List.filter_append]
        simp [hdue2]
      rw [hrev, hnot]

theorem drainFold_schedule {κ σ : Type} (m : ExecutableModel σ) (s : Sundials κ σ)
    (timeEnd tout : ℚ) :
    ∀ (r : List PendingAssignment) (c c1 : CvodeInterface κ σ),
      List.foldlM (fun c p => assignPendingBody m s timeEnd tout p c) c r = .ok c1 →
      c1.mAssignments = c.mAssignments ∧ c1.mAssignmentTimes = c.mAssignmentTimes
  | [], c, c1, h => by cases h; exact ⟨rfl, rfl⟩
  | p :: r, c, c1, h => by
    rw [List.foldlM_cons] at h
    cases hb : assignPendingBody m s timeEnd tout p c with
    | error e => rw [hb] at h; cases h
    | ok c2 =>
      rw [hb] at h
      have h1 := assignPendingBody_queue m s timeEnd tout p c c2 hb
      have h2 := drainFold_schedule m s timeEnd tout r c2 c1 h
      exact ⟨h2.1.trans h1.1, h2.2.trans h1.2⟩

theorem assignPendingEvents_ok {κ σ : Type} (m : ExecutableModel σ) (s : Sundials κ σ)
    (cv c : CvodeInterface κ σ) (timeEnd tout : ℚ)
    (h : assignPendingEvents m s cv timeEnd tout = .ok c) :
    c.mAssignments = notDue timeEnd cv.mAssignments ∧ c.mAssignmentTimes = cv.mAssignmentTimes := by
  have h0 := assignPendingLoop_eq m s timeEnd tout cv.mAssignments.length cv (Nat.le_refl _)
  simp only [List.take_length, List.drop_length, List.append_nil] at h0
  unfold assignPendingEvents at h
  rw [h0] at h
  cases hf : List.foldlM (fun c p => assignPendingBody m s timeEnd tout p c) cv
      (dueReversed timeEnd cv.mAssignments) with
  | error e => rw [hf] at h; cases h
  | ok c1 =>
    rw [hf] at h
    cases h
    exact ⟨rfl, (drainFold_schedule m s timeEnd tout _ cv c1 hf).2⟩

theorem assignPendingEvents_schedule {κ σ : Type} (m : ExecutableModel σ) (s : Sundials κ σ)
    (cv : CvodeInterface κ σ) (timeEnd tout : ℚ) :
    scheduleOf (assignPendingEvents m s cv timeEnd tout) = none ∨
      scheduleOf (assignPendingEvents m s cv timeEnd tout) =
        some (notDue timeEnd cv.mAssignments, cv.mAssignmentTimes) := by
  cases h : assignPendingEvents m s cv timeEnd tout with
  | error e => exact Or.inl rfl
  | ok c =>
    have := assignPendingEvents_ok m s cv c timeEnd tout h
    exact Or.inr (by simp [scheduleOf, this.1, this.2])

/-- C9: `assignPendingEvents(timeEnd, tout)` runs the body of its loop (write the state,
`AssignToModel`, restart) on exactly the pending assignments with `GetTime() <= timeEnd`,
one after the other from the last inserted to the first, and leaves as the queue the
entries with `GetTime() > timeEnd`, unchanged and in their order. An exception of
`reStart` ends the drain at the entry that raised it, as it ends the fold. -/
theorem assignPendingEvents_eq_fold {κ σ : Type} (m : ExecutableModel σ) (s : Sundials κ σ)
    (cv : CvodeInterface κ σ) (timeEnd tout : ℚ) :
    assignPendingEvents m s cv timeEnd tout =
      (List.foldlM (fun c p => assignPendingBody m s timeEnd tout p c) cv
        ((cv.mAssignments.filter (fun p => decide (p.GetTime ≤ timeEnd))).reverse)).map
        (fun c => { c with
          mAssignments := cv.mAssignments.filter (fun p => decide (timeEnd < p.GetTime)) }) := by
  have h := assignPendingLoop_eq m s timeEnd tout cv.mAssignments.length cv (Nat.le_refl _)
  simp only [List.take_length, List.drop_length, List.append_nil] at h
  exact h

/-! ## The root handler: what it does to the queue and the schedule -/

theorem retestLoop_removed {σ : Type} (m : ExecutableModel σ) (md : ModelData σ)
    (before : Nat → Bool) (handledEvents : List Nat) :
    ∀ (is : List Nat) (acc : List Nat × List Nat),
      (∀ x ∈ acc.2, m.eventPersistentType x = false) →
      ∀ x ∈ (retestLoop m md before handledEvents is acc).2, m.eventPersistentType x = false
  | [], _, h => h
  | i :: is, (result, removeEvents), h => by
    rw [retestLoop]
    apply retestLoop_removed m md before handledEvents is
    intro x hx
    simp only at hx
    split_ifs at hx with hc
    · rcases List.mem_append.mp hx with hx | hx
      · exact h x hx
      · rw [List.mem_singleton.mp hx]; exact hc.2.2
    · exact h x hx

theorem retestEvents_removed {κ σ : Type} (m : ExecutableModel σ) (cv : CvodeInterface κ σ)
    (timeEnd : ℚ) (handledEvents : List Nat) (assignOldState : Bool) :
    ∀ x ∈ (retestEvents m cv timeEnd handledEvents assignOldState []).2.2,
      m.eventPersistentType x = false := by
  unfold retestEvents
  exact retestLoop_removed m _ _ handledEvents _ _ (by simp)

theorem retract_fold_induct {κ σ : Type} (m : ExecutableModel σ)
    (I : List PendingAssignment → List ℚ → Prop)
    (hrem : ∀ q ts i, m.eventPersistentType i = false → I q ts →
      I (q.filter (fun p => decide (p.GetIndex ≠ i))) ts) :
    ∀ (removeEvents : List Nat) (acc : List Nat × CvodeInterface κ σ),
      (∀ x ∈ removeEvents, m.eventPersistentType x = false) →
      I acc.2.mAssignments acc.2.mAssignmentTimes →
      I (removeEvents.foldl retractStep acc).2.mAssignments
        (removeEvents.foldl retractStep acc).2.mAssignmentTimes
  | [], _, _, h => h
  | item :: items, acc, hnp, h => by
    rw [List.foldl_cons]
    apply retract_fold_induct m I hrem items _ (fun x hx => hnp x (List.mem_cons_of_mem _ hx))
    unfold retractStep
    split_ifs
    · show I (removePendingAssignmentForIndex acc.2 item).mAssignments acc.2.mAssignmentTimes
      rw [removePending_queue]
      exact hrem _ _ item (hnp item (List.mem_cons_self _ _)) h
    · exact h

theorem fireNow_induct {κ σ : Type} (m : ExecutableModel σ) (timeEnd : ℚ)
    (I : List PendingAssignment → List ℚ → Prop)
    (hrem : ∀ q ts i, m.eventPersistentType i = false → I q ts →
      I (q.filter (fun p => decide (p.GetIndex ≠ i))) ts)
    (st : RootState κ σ) (md : ModelData σ) (currentEvent : Nat) (rest : List Nat)
    (h : I st.cv.mAssignments st.cv.mAssignmentTimes) :
    I (fireNow m timeEnd st md currentEvent rest).cv.mAssignments
      (fireNow m timeEnd st md currentEvent rest).cv.mAssignmentTimes := by
  unfold fireNow
  exact retract_fold_induct m I hrem _ _ (retestEvents_removed m _ timeEnd _ false) h

theorem scheduleLater_queue {κ σ : Type} (m : ExecutableModel σ) (timeEnd : ℚ)
    (st : RootState κ σ) (md : ModelData σ) (currentEvent : Nat) (rest : List Nat) (d : ℚ) :
    (scheduleLater m timeEnd st md currentEvent rest d).cv.mAssignments =
      st.cv.mAssignments ++ [pendingFor m st.preComputedAssignments (timeEnd + d) currentEvent] := by
  unfold scheduleLater
  simp only
  split_ifs <;> rfl

theorem scheduleLater_times {κ σ : Type} (m : ExecutableModel σ) (timeEnd : ℚ)
    (st : RootState κ σ) (md : ModelData σ) (currentEvent : Nat) (rest : List Nat) (d : ℚ) :
    (scheduleLater m timeEnd st md currentEvent rest d).cv.mAssignmentTimes =
      if timeEnd + d ∈ st.cv.mAssignmentTimes then st.cv.mAssignmentTimes
      else st.cv.mAssignmentTimes ++ [timeEnd + d] := by
  unfold scheduleLater
  simp only
  split_ifs <;> rfl

theorem pendingFor_time {σ : Type} (m : ExecutableModel σ) (pre : Nat → Option (List ℚ))
    (time : ℚ) (currentEvent : Nat) :
    (pendingFor m pre time currentEvent).GetTime = time ∧
      (pendingFor m pre time currentEvent).GetIndex = currentEvent := by
  unfold pendingFor
  simp only
  split_ifs <;> exact ⟨rfl, rfl⟩

theorem drainStep_induct {κ σ : Type} (m : ExecutableModel σ) (timeEnd : ℚ)
    (I : List PendingAssignment → List ℚ → Prop)
    (hrem : ∀ q ts i, m.eventPersistentType i = false → I q ts →
      I (q.filter (fun p => decide (p.GetIndex ≠ i))) ts)
    (hadd : ∀ q ts t p, p.GetTime = t → I q ts →
      I (q ++ [p]) (if t ∈ ts then ts else ts ++ [t]))
    (st : RootState κ σ) (h : I st.cv.mAssignments st.cv.mAssignmentTimes) :
    I (drainStep m timeEnd st).cv.mAssignments (drainStep m timeEnd st).cv.mAssignmentTimes := by
  unfold drainStep
  simp only
  split
  · exact h
  · split_ifs
    · exact fireNow_induct m timeEnd I hrem st _ _ _ h
    · rw [scheduleLater_queue, scheduleLater_times]
      exact hadd _ _ _ _ (pendingFor_time m _ _ _).1 h

theorem drainLoop_induct {κ σ : Type} (m : ExecutableModel σ) (timeEnd : ℚ)
    (I : List PendingAssignment → List ℚ → Prop)
    (hrem : ∀ q ts i, m.eventPersistentType i = false → I q ts →
      I (q.filter (fun p => decide (p.GetIndex ≠ i))) ts)
    (hadd : ∀ q ts t p, p.GetTime = t → I q ts →
      I (q ++ [p]) (if t ∈ ts then ts else ts ++ [t])) :
    ∀ (fuel : Nat) (st : RootState κ σ), I st.cv.mAssignments st.cv.mAssignmentTimes →
      I (drainLoop m timeEnd fuel st).cv.mAssignments
        (drainLoop m timeEnd fuel st).cv.mAssignmentTimes
  | 0, _, h => h
  | fuel + 1, st, h => by
    rw [drainLoop]
    split_ifs
    · exact drainLoop_induct m timeEnd I hrem hadd fuel _
        (drainStep_induct m timeEnd I hrem hadd st h)
    · exact h

theorem partitionStep_induct {κ σ : Type} (m : ExecutableModel σ) (rootsFound : List Int)
    (I : List PendingAssignment → List ℚ → Prop)
    (hrem : ∀ q ts i, m.eventPersistentType i = false → I q ts →
      I (q.filter (fun p => decide (p.GetIndex ≠ i))) ts)
    (st : RootState κ σ) (i : Nat) (h : I st.cv.mAssignments st.cv.mAssignmentTimes) :
    I (partitionStep m rootsFound st i).cv.mAssignments
      (partitionStep m rootsFound st i).cv.mAssignmentTimes := by
  unfold partitionStep
  split_ifs with h1 h2 h3 h4
  · exact h
  · exact h
  · exact h
  · show I (removePendingAssignmentForIndex st.cv i).mAssignments st.cv.mAssignmentTimes
    rw [removePending_queue]
    exact hrem _ _ i (by simpa using h4) h
  · exact h

theorem partitionFold_induct {κ σ : Type} (m : ExecutableModel σ) (rootsFound : List Int)
    (I : List PendingAssignment → List ℚ → Prop)
    (hrem : ∀ q ts i, m.eventPersistentType i = false → I q ts →
      I (q.filter (fun p => decide (p.GetIndex ≠ i))) ts) :
    ∀ (is : List Nat) (st : RootState κ σ), I st.cv.mAssignments st.cv.mAssignmentTimes →
      I (is.foldl (partitionStep m rootsFound) st).cv.mAssignments
        (is.foldl (partitionStep m rootsFound) st).cv.mAssignmentTimes
  | [], _, h => h
  | i :: is, st, h => by
    rw [List.foldl_cons]
    exact partitionFold_induct m rootsFound I hrem is _
      (partitionStep_induct m rootsFound I hrem st i h)

theorem drainRoots_induct {κ σ : Type} (m : ExecutableModel σ) (cv : CvodeInterface κ σ)
    (timeEnd : ℚ) (rootsFound : List Int) (I : List PendingAssignment → List ℚ → Prop)
    (hrem : ∀ q ts i, m.eventPersistentType i = false → I q ts →
      I (q.filter (fun p => decide (p.GetIndex ≠ i))) ts)
    (hadd : ∀ q ts t p, p.GetTime = t → I q ts →
      I (q ++ [p]) (if t ∈ ts then ts else ts ++ [t]))
    (h : I cv.mAssignments cv.mAssignmentTimes) :
    I (drainRoots m cv timeEnd rootsFound).cv.mAssignments
      (drainRoots m cv timeEnd rootsFound).cv.mAssignmentTimes := by
  unfold drainRoots
  apply drainLoop_induct m timeEnd I hrem hadd
  unfold partitionRoots
  exact partitionFold_induct m rootsFound I hrem _ _ h

/-- Every property of the queue and the schedule that survives the three things
`handleRootsForTime` does to them survives the call: the removal of the pending
assignments of a non-persistent event, the append of a pending assignment with the unique
insertion of its fire time, and the final sort of the schedule. -/
theorem handleRootsForTime_induct {κ σ : Type} (m : ExecutableModel σ) (s : Sundials κ σ)
    (cv : CvodeInterface κ σ) (timeEnd : ℚ) (rootsFound : List Int)
    (I : List PendingAssignment → List ℚ → Prop)
    (hrem : ∀ q ts i, m.eventPersistentType i = false → I q ts →
      I (q.filter (fun p => decide (p.GetIndex ≠ i))) ts)
    (hadd : ∀ q ts t p, p.GetTime = t → I q ts →
      I (q ++ [p]) (if t ∈ ts then ts else ts ++ [t]))
    (hsort : ∀ q ts, I q ts → I q (stdSort (fun a b => decide (a < b)) ts))
    (h : I cv.mAssignments cv.mAssignmentTimes) :
    I (handleRootsForTime m s cv timeEnd rootsFound).mAssignments
      (handleRootsForTime m s cv timeEnd rootsFound).mAssignmentTimes := by
  have hd := drainRoots_induct m cv timeEnd rootsFound I hrem hadd h
  unfold handleRootsForTime
  simp only [reInit_snd]
  split_ifs <;> exact hsort _ _ hd

theorem persistent_filter_remove {σ : Type} (m : ExecutableModel σ) (q : List PendingAssignment)
    (i : Nat) (hi : m.eventPersistentType i = false) :
    (q.filter (fun p => decide (p.GetIndex ≠ i))).filter (fun p => m.eventPersistentType p.GetIndex) =
      q.filter (fun p => m.eventPersistentType p.GetIndex) := by
  rw [List.filter_filter]
  apply List.filter_congr
  intro p _
  by_cases hp : p.GetIndex = i
  · simp [hp, hi]
  · simp [hp]

/-- C5: `handleRootsForTime` removes no pending assignment of a persistent event: the
entries of persistent events in the queue after the call are those before the call, in
their order, followed by the ones the call has appended. The only other place that erases
queue entries is `assignPendingEvents`, and when it returns, the entries it has left are
exactly those that are not due (the due ones are those it has applied). -/
theorem persistent_pending_kept {κ σ : Type} (m : ExecutableModel σ) (s : Sundials κ σ)
    (cv : CvodeInterface κ σ) (timeEnd : ℚ) (rootsFound : List Int) :
    (∃ added : List PendingAssignment,
      (handleRootsForTime m s cv timeEnd rootsFound).mAssignments.filter
          (fun p => m.eventPersistentType p.GetIndex) =
        cv.mAssignments.filter (fun p => m.eventPersistentType p.GetIndex) ++ added) ∧
    ∀ tout : ℚ, scheduleOf (assignPendingEvents m s cv timeEnd tout) = none ∨
      scheduleOf (assignPendingEvents m s cv timeEnd tout) =
        some (cv.mAssignments.filter (fun p => decide (timeEnd < p.GetTime)),
          cv.mAssignmentTimes) := by
  refine ⟨?_, fun tout => assignPendingEvents_schedule m s cv timeEnd tout⟩
  refine handleRootsForTime_induct m s cv timeEnd rootsFound
    (fun q _ => ∃ added : List PendingAssignment,
      q.filter (fun p => m.eventPersistentType p.GetIndex) =
        cv.mAssignments.filter (fun p => m.eventPersistentType p.GetIndex) ++ added)
    ?_ ?_ ?_ ⟨[], by simp⟩
  · intro q ts i hi ⟨added, h⟩
    exact ⟨added, by rw [persistent_filter_remove m q i hi, h]⟩
  · intro q ts t p _ ⟨added, h⟩
    exact ⟨added ++ [p].filter (fun p => m.eventPersistentType p.GetIndex), by
      rw [List.filter_append, h, List.append_assoc]⟩
  · intro q ts h
    exact h

/-! ## The schedule holds no time twice -/

theorem stdSort_nodup (ts : List ℚ) (h : ts.Nodup) :
    (stdSort (fun a b => decide (a < b)) ts).Nodup :=
  (stdSort_perm _ ts).nodup_iff.mpr h

theorem drainStep_schedules {κ σ : Type} (m : ExecutableModel σ) (timeEnd : ℚ)
    (st : RootState κ σ) (currentEvent : Nat) (rest : List Nat)
    (hsorted : (sortEventsByPriority m st.cv.mModel st.firedEvents).2 = currentEvent :: rest)
    (hdelay : m.eventDelays currentEvent
      (markPrevious (sortEventsByPriority m st.cv.mModel st.firedEvents).1 currentEvent) ≠ 0) :
    ∃ p : PendingAssignment, p.GetIndex = currentEvent ∧
      p.GetTime = timeEnd + m.eventDelays currentEvent
        (markPrevious (sortEventsByPriority m st.cv.mModel st.firedEvents).1 currentEvent) ∧
      (drainStep m timeEnd st).cv.mAssignments = st.cv.mAssignments ++ [p] ∧
      (drainStep m timeEnd st).cv.mAssignmentTimes =
        if p.GetTime ∈ st.cv.mAssignmentTimes then st.cv.mAssignmentTimes
        else st.cv.mAssignmentTimes ++ [p.GetTime] := by
  refine ⟨pendingFor m st.preComputedAssignments (timeEnd + m.eventDelays currentEvent
    (markPrevious (sortEventsByPriority m st.cv.mModel st.firedEvents).1 currentEvent))
    currentEvent, (pendingFor_time m _ _ _).2, (pendingFor_time m _ _ _).1, ?_, ?_⟩
  · unfold drainStep
    simp only [hsorted, hdelay, if_false]
    exact scheduleLater_queue m timeEnd st _ currentEvent rest _
  · unfold drainStep
    simp only [hsorted, hdelay, if_false, (pendingFor_time m _ _ _).1]
    exact scheduleLater_times m timeEnd st _ currentEvent rest _

/-- C10: when the schedule holds no time twice before `handleRootsForTime`, it holds none
twice after it. In a round of the handler that takes a candidate with a delay other than 0,
exactly one pending assignment, of this candidate and with the fire time `timeEnd + delay`,
goes to the end of the queue, and the fire time goes to the end of the schedule only when
the schedule does not hold it. -/
theorem schedule_nodup_kept {κ σ : Type} (m : ExecutableModel σ) (s : Sundials κ σ)
    (cv : CvodeInterface κ σ) (timeEnd : ℚ) (rootsFound : List Int)
    (h : cv.mAssignmentTimes.Nodup) :
    (handleRootsForTime m s cv timeEnd rootsFound).mAssignmentTimes.Nodup ∧
    ∀ (st : RootState κ σ) (currentEvent : Nat) (rest : List Nat),
      (sortEventsByPriority m st.cv.mModel st.firedEvents).2 = currentEvent :: rest →
      m.eventDelays currentEvent
        (markPrevious (sortEventsByPriority m st.cv.mModel st.firedEvents).1 currentEvent) ≠ 0 →
      ∃ p : PendingAssignment, p.GetIndex = currentEvent ∧
        p.GetTime = timeEnd + m.eventDelays currentEvent
          (markPrevious (sortEventsByPriority m st.cv.mModel st.firedEvents).1 currentEvent) ∧
        (drainStep m timeEnd st).cv.mAssignments = st.cv.mAssignments ++ [p] ∧
        (drainStep m timeEnd st).cv.mAssignmentTimes =
          if p.GetTime ∈ st.cv.mAssignmentTimes then st.cv.mAssignmentTimes
          else st.cv.mAssignmentTimes ++ [p.GetTime] := by
  refine ⟨?_, fun st currentEvent rest hs hd => drainStep_schedules m timeEnd st currentEvent rest hs hd⟩
  refine handleRootsForTime_induct m s cv timeEnd rootsFound (fun _ ts => ts.Nodup) ?_ ?_ ?_ h
  · intro q ts i _ hts
    exact hts
  · intro q ts t p _ hts
    split_ifs with hmem
    · exact hts
    · exact List.nodup_append.mpr ⟨hts, List.nodup_singleton t, by
        intro a ha hb
        rw [List.mem_singleton.mp hb] at ha
        exact hmem ha⟩
  · intro q ts hts
    exact stdSort_nodup ts hts

/-- C10 at `onePending`, where event 0 fires at time `1 / 2` with the delay `1 / 2`: the
schedule `[1]` stays `[1]` and the queue gets the entry of event 0 behind that of event 1. -/
theorem schedule_nodup_kept_witness :
    (handleRootsForTime delayModel (constSundials ℚ 0 id []) onePending (1 / 2) [1, 0]).mAssignments =
        [⟨1, 1, false, none⟩, ⟨1, 0, false, none⟩] ∧
      (handleRootsForTime delayModel (constSundials ℚ 0 id []) onePending (1 / 2) [1, 0]).mAssignmentTimes =
        [1] ∧
      (handleRootsForTime delayModel (constSundials ℚ 0 id []) onePending (1 / 2)
        [1, 0]).mAssignmentTimes.Nodup ∧
      ∃ p : PendingAssignment, p.GetIndex = 0 ∧
        (drainStep delayModel (1 / 2) (partitionRoots delayModel onePending (1 / 2) [1, 0])).cv.mAssignments =
          (partitionRoots delayModel onePending (1 / 2) [1, 0]).cv.mAssignments ++ [p] :=
  have h := schedule_nodup_kept delayModel (constSundials ℚ 0 id []) onePending (1 / 2) [1, 0]
    (by decide!)
  ⟨by decide!, by decide!, h.1,
    (h.2 (partitionRoots delayModel onePending (1 / 2) [1, 0]) 0 [] (by decide!) (by decide!)).imp
      (fun _ hp => ⟨hp.1, hp.2.2.1⟩)⟩

/-! ## A round of `oneStep`: the queue, the schedule and the local variables -/

theorem beginRound_ok {κ σ : Type} (m : ExecutableModel σ) (s : Sundials κ σ) (v : StepVars)
    (cv cv1 : CvodeInterface κ σ) (h : beginRound m s v cv = .ok cv1) :
    cv1.mAssignments = cv.mAssignments ∧ cv1.mAssignmentTimes = cv.mAssignmentTimes := by
  unfold beginRound at h
  split_ifs at h
  · have := reStart_queue m s cv cv1 _ h
    exact ⟨this.1, this.2.1⟩
  · cases h
    exact ⟨rfl, rfl⟩

theorem nextTarget_le {κ σ : Type} (cv : CvodeInterface κ σ) (tout : ℚ) :
    (nextTarget cv tout).1 ≤ tout := by
  unfold nextTarget
  split
  · split_ifs with h
    · exact le_of_lt h
    · exact le_refl _
  · exact le_refl _

theorem callCVode_vars {κ σ : Type} (s : Sundials κ σ) (v : StepVars) (cv : CvodeInterface κ σ) :
    (callCVode s v cv).2.1.tout = v.tout ∧
      (callCVode s v cv).2.2.mAssignments = cv.mAssignments ∧
      (callCVode s v cv).2.2.mAssignmentTimes = (nextTarget cv v.tout).2.mAssignmentTimes := by
  refine ⟨rfl, ?_, rfl⟩
  unfold callCVode nextTarget
  simp only
  split
  · split_ifs <;> rfl
  · rfl

theorem afterCVode_induct {κ σ : Type} (m : ExecutableModel σ) (s : Sundials κ σ)
    (nResult : Int) (v v1 : StepVars) (cv cv1 : CvodeInterface κ σ)
    (I : List PendingAssignment → List ℚ → Prop)
    (hrem : ∀ q ts i, m.eventPersistentType i = false → I q ts →
      I (q.filter (fun p => decide (p.GetIndex ≠ i))) ts)
    (hadd : ∀ q ts t p, p.GetTime = t → I q ts →
      I (q ++ [p]) (if t ∈ ts then ts else ts ++ [t]))
    (hsort : ∀ q ts, I q ts → I q (stdSort (fun a b => decide (a < b)) ts))
    (h : afterCVode m s nResult v cv = .ok (v1, cv1))
    (hI : I cv.mAssignments cv.mAssignmentTimes) :
    I cv1.mAssignments cv1.mAssignmentTimes ∧ v1.timeEnd = v.timeEnd ∧ v1.tout = v.tout := by
  unfold afterCVode at h
  simp only at h
  split_ifs at h
  all_goals first
    | (cases h; exact ⟨hI, rfl, rfl⟩)
    | (cases hr : reStart m s (handleRootsFound m s cv v.timeEnd) v.timeEnd with
       | error e => simp only [hr] at h; cases h
       | ok c =>
         simp only [hr] at h
         cases h
         have hq := reStart_queue m s _ c _ hr
         refine ⟨?_, rfl, rfl⟩
         show I c.mAssignments c.mAssignmentTimes
         rw [hq.1, hq.2.1]
         exact handleRootsForTime_induct m s cv _ _ I hrem hadd hsort hI)
    | (cases hc : handleCVODEError nResult with
       | error e => simp only [hc] at h; cases h
       | ok u => simp only [hc] at h; cases h; exact ⟨hI, rfl, rfl⟩)

theorem endRound_ok {κ σ : Type} (m : ExecutableModel σ) (s : Sundials κ σ) (v v1 : StepVars)
    (cv cv1 : CvodeInterface κ σ) (h : endRound m s v cv = .ok (.continues v1 cv1)) :
    v1.timeEnd = v.timeEnd ∧ v1.tout = v.tout ∧
      cv1.mAssignments = notDue v.timeEnd cv.mAssignments ∧
      cv1.mAssignmentTimes = cv.mAssignmentTimes := by
  unfold endRound at h
  simp only at h
  split at h
  · rename_i c hc
    have := assignPendingEvents_ok m s _ c _ _ hc
    simp only [Except.ok.injEq, Round.continues.injEq] at h
    obtain ⟨hv, hcv⟩ := h
    subst hcv
    refine ⟨?_, ?_, this.1, this.2⟩
    · rw [← hv]; split_ifs <;> rfl
    · rw [← hv]; split_ifs <;> rfl
  · cases h

theorem endRound_not_returned {κ σ : Type} (m : ExecutableModel σ) (s : Sundials κ σ)
    (v : StepVars) (cv cv1 : CvodeInterface κ σ) (r : ℚ) :
    endRound m s v cv ≠ .ok (.returned r cv1) := by
  unfold endRound
  simp only
  split <;> simp

/-- What a round of `oneStep` that ends at the end of the loop body has gone through. -/
theorem oneStepRound_continues {κ σ : Type} (m : ExecutableModel σ) (s : Sundials κ σ)
    (hstep : ℚ) (v v1 : StepVars) (cv cv1 : CvodeInterface κ σ)
    (h : oneStepRound m s hstep v cv = .ok (.continues v1 cv1)) :
    ∃ (c0 : CvodeInterface κ σ) (r : StepVars × CvodeInterface κ σ),
      beginRound m s v cv = .ok c0 ∧
      afterCVode m s (callCVode s v c0).1 (callCVode s v c0).2.1 (callCVode s v c0).2.2 = .ok r ∧
      endRound m s r.1 r.2 = .ok (.continues v1 cv1) := by
  unfold oneStepRound at h
  split_ifs at h
  · cases h
  · cases h
  · split at h
    · cases h
    · rename_i c0 hc0
      simp only at h
      split at h
      · cases h
      · rename_i r hr
        exact ⟨c0, r, hc0, hr, h⟩

theorem oneStepRound_returned {κ σ : Type} (m : ExecutableModel σ) (s : Sundials κ σ)
    (hstep : ℚ) (v : StepVars) (cv cv1 : CvodeInterface κ σ) (r : ℚ)
    (h : oneStepRound m s hstep v cv = .ok (.returned r cv1)) :
    r = v.tout ∧ cv1.mAssignments = cv.mAssignments ∧
      cv1.mAssignmentTimes = cv.mAssignmentTimes := by
  unfold oneStepRound at h
  split_ifs at h
  · cases h; exact ⟨rfl, rfl, rfl⟩
  · cases h; exact ⟨rfl, rfl, rfl⟩
  · split at h
    · cases h
    · simp only at h
      split at h
      · cases h
      · exact absurd h (endRound_not_returned m s _ _ _ _)

/-! ## Every pending assignment has its fire time in the schedule -/

theorem roundSummary_some {κ σ : Type} (x : Except String (Round κ σ)) (t : ℚ)
    (q : List PendingAssignment) (ts : List ℚ) (h : roundSummary x = some (t, q, ts)) :
    ∃ v1 cv1, x = .ok (.continues v1 cv1) ∧ v1.timeEnd = t ∧ cv1.mAssignments = q ∧
      cv1.mAssignmentTimes = ts := by
  unfold roundSummary at h
  split at h
  · rename_i v cv
    simp only [Option.some.injEq, Prod.mk.injEq] at h
    exact ⟨v, cv, rfl, h.1, h.2.1, h.2.2⟩
  · cases h

theorem scheduleOf_some {κ σ : Type} (x : Except String (CvodeInterface κ σ))
    (q : List PendingAssignment) (ts : List ℚ) (h : scheduleOf x = some (q, ts)) :
    ∃ c, x = .ok c ∧ c.mAssignments = q ∧ c.mAssignmentTimes = ts := by
  unfold scheduleOf at h
  split at h
  · rename_i cv
    simp only [Option.some.injEq, Prod.mk.injEq] at h
    exact ⟨cv, rfl, h.1, h.2⟩
  · cases h

theorem scheduledBut_remove (t0 : ℚ) (q : List PendingAssignment) (ts : List ℚ) (i : Nat)
    (h : ∀ p ∈ q, p.GetTime ∈ ts ∨ p.GetTime = t0) :
    ∀ p ∈ q.filter (fun p => decide (p.GetIndex ≠ i)), p.GetTime ∈ ts ∨ p.GetTime = t0 :=
  fun p hp => h p (List.mem_filter.mp hp).1

theorem scheduledBut_add (t0 : ℚ) (q : List PendingAssignment) (ts : List ℚ) (t : ℚ)
    (p : PendingAssignment) (hp : p.GetTime = t)
    (h : ∀ p ∈ q, p.GetTime ∈ ts ∨ p.GetTime = t0) :
    ∀ x ∈ q ++ [p], x.GetTime ∈ (if t ∈ ts then ts else ts ++ [t]) ∨ x.GetTime = t0 := by
  intro x hx
  rcases List.mem_append.mp hx with hx | hx
  · rcases h x hx with h1 | h1
    · left
      split_ifs
      · exact h1
      · exact List.mem_append_left _ h1
    · exact Or.inr h1
  · left
    rw [List.mem_singleton.mp hx, hp]
    split_ifs with hmem
    · exact hmem
    · simp

theorem scheduledBut_sort (t0 : ℚ) (q : List PendingAssignment) (ts : List ℚ)
    (h : ∀ p ∈ q, p.GetTime ∈ ts ∨ p.GetTime = t0) :
    ∀ p ∈ q, p.GetTime ∈ stdSort (fun a b => decide (a < b)) ts ∨ p.GetTime = t0 := by
  intro p hp
  rcases h p hp with h1 | h1
  · exact Or.inl ((stdSort_perm _ ts).mem_iff.mpr h1)
  · exact Or.inr h1

theorem handleRootsForTime_scheduled {κ σ : Type} (m : ExecutableModel σ) (s : Sundials κ σ)
    (cv : CvodeInterface κ σ) (timeEnd : ℚ) (rootsFound : List Int) (h : Scheduled cv) :
    Scheduled (handleRootsForTime m s cv timeEnd rootsFound) := by
  have h0 := handleRootsForTime_induct m s cv timeEnd rootsFound
    (fun q ts => ∀ p ∈ q, p.GetTime ∈ ts)
    (fun q ts i _ hq p hp => hq p (List.mem_filter.mp hp).1)
    (fun q ts t p hp hq x hx => by
      have := scheduledBut_add t q ts t p hp (fun y hy => Or.inl (hq y hy)) x hx
      rcases this with h1 | h1
      · exact h1
      · rw [h1]; split_ifs with hmem
        · exact hmem
        · simp)
    (fun q ts hq p hp => (stdSort_perm _ ts).mem_iff.mpr (hq p hp))
    h
  exact h0

theorem assignPendingEvents_scheduled {κ σ : Type} (m : ExecutableModel σ) (s : Sundials κ σ)
    (cv c : CvodeInterface κ σ) (timeEnd tout : ℚ) (h : Scheduled cv)
    (hc : assignPendingEvents m s cv timeEnd tout = .ok c) : Scheduled c := by
  have := assignPendingEvents_ok m s cv c timeEnd tout hc
  intro p hp
  rw [this.1] at hp
  rw [this.2]
  exact h p (List.mem_filter.mp hp).1

theorem oneStepRound_scheduled {κ σ : Type} (m : ExecutableModel σ) (s : Sundials κ σ)
    (hstep : ℚ) (v v1 : StepVars) (cv cv1 : CvodeInterface κ σ) (h : Scheduled cv)
    (hr : oneStepRound m s hstep v cv = .ok (.continues v1 cv1))
    (hreach : ∀ t ∈ cv.mAssignmentTimes.head?, t < v.tout → t ≤ v1.timeEnd) :
    Scheduled cv1 := by
  obtain ⟨c0, r, hb, ha, he⟩ := oneStepRound_continues m s hstep v v1 cv cv1 hr
  have hb' := beginRound_ok m s v cv c0 hb
  have hc := callCVode_vars s v c0
  have he' := endRound_ok m s r.1 v1 r.2 cv1 he
  -- the schedule after the choice of the target, with the consumed time exempted
  have hI : ∃ t0 : ℚ, t0 ≤ v1.timeEnd ∧
      ∀ p ∈ (callCVode s v c0).2.2.mAssignments,
        p.GetTime ∈ (callCVode s v c0).2.2.mAssignmentTimes ∨ p.GetTime = t0 := by
    rw [hc.2.1, hc.2.2, hb'.1]
    unfold nextTarget
    rw [hb'.2]
    cases hts : cv.mAssignmentTimes with
    | nil =>
      refine ⟨v1.timeEnd, le_refl _, fun p hp => ?_⟩
      have := h p hp
      rw [hts] at this
      simp at this
    | cons t ts =>
      simp only
      split_ifs with hlt
      · refine ⟨t, hreach t (by simp [hts]) hlt, fun p hp => ?_⟩
        have := h p hp
        rw [hts] at this
        rcases List.mem_cons.mp this with h1 | h1
        · exact Or.inr h1
        · exact Or.inl h1
      · refine ⟨v1.timeEnd, le_refl _, fun p hp => Or.inl ?_⟩
        have := h p hp
        rw [hts] at this
        rw [hb'.2, hts]
        exact this
  obtain ⟨t0, ht0, hI⟩ := hI
  obtain ⟨r1, r2⟩ := r
  have hafter := afterCVode_induct m s _ _ r1 _ r2
    (fun q ts => ∀ p ∈ q, p.GetTime ∈ ts ∨ p.GetTime = t0)
    (fun q ts i _ hq => scheduledBut_remove t0 q ts i hq)
    (fun q ts t p hp hq => scheduledBut_add t0 q ts t p hp hq)
    (fun q ts hq => scheduledBut_sort t0 q ts hq) ha hI
  intro p hp
  rw [he'.2.2.1] at hp
  rw [he'.2.2.2]
  have hmem := List.mem_filter.mp hp
  have hlt : r1.timeEnd < p.GetTime := by simpa using hmem.2
  rcases hafter.1 p hmem.1 with h1 | h1
  · exact h1
  · exfalso
    rw [h1] at hlt
    rw [he'.1] at ht0
    exact absurd hlt (not_lt.mpr ht0)

/-- A round of `oneStep` that takes its target from the schedule and is stopped before it
breaks the invariant: in `persistentPending` the assignment of the persistent event 0 is
pending at time 1 and the schedule is `[1]`; the round erases 1 from the schedule, the
integrator stops at a root of event 1 at time `1 / 2`, and the round ends with the pending
assignment in the queue and an empty schedule. -/
theorem round_loses_schedule_entry :
    Scheduled persistentPending ∧
    roundSummary (oneStepRound rootModel (constSundials ℚ CV_ROOT_RETURN (fun _ => 1 / 2) [0, 1]) 2
      ⟨0, 0, 2, 3⟩ persistentPending) = some (1 / 2, [⟨1, 0, false, none⟩], []) ∧
    ∃ v1 cv1, oneStepRound rootModel (constSundials ℚ CV_ROOT_RETURN (fun _ => 1 / 2) [0, 1]) 2
      ⟨0, 0, 2, 3⟩ persistentPending = .ok (.continues v1 cv1) ∧ ¬ Scheduled cv1 := by
  have hsum : roundSummary (oneStepRound rootModel
      (constSundials ℚ CV_ROOT_RETURN (fun _ => 1 / 2) [0, 1]) 2 ⟨0, 0, 2, 3⟩ persistentPending) =
      some (1 / 2, [⟨1, 0, false, none⟩], []) := by decide!
  refine ⟨?_, hsum, ?_⟩
  · intro p hp
    simp only [persistentPending, driverOf, List.mem_singleton] at hp
    subst hp
    simp [persistentPending, driverOf, PendingAssignment.GetTime]
  · obtain ⟨v1, cv1, hr, _, hq, hts⟩ := roundSummary_some _ _ _ _ hsum
    refine ⟨v1, cv1, hr, fun hs => ?_⟩
    have := hs ⟨1, 0, false, none⟩ (by rw [hq]; simp)
    rw [hts] at this
    simp at this

/-- The invariant `every pending assignment of the queue has its fire time in the schedule`
is kept by `handleRootsForTime`, by `removePendingAssignmentForIndex`, by
`assignPendingEvents` when it returns, by every round of the loop of `oneStep` that ends
with a `return`, and by every round that ends at the end of the loop body and, when it has
taken its target from the front of the schedule, has reached this target. -/
theorem scheduled_kept {κ σ : Type} (m : ExecutableModel σ) (s : Sundials κ σ)
    (cv : CvodeInterface κ σ) (h : Scheduled cv) :
    (∀ (timeEnd : ℚ) (rootsFound : List Int),
      Scheduled (handleRootsForTime m s cv timeEnd rootsFound)) ∧
    (∀ e : Nat, Scheduled (removePendingAssignmentForIndex cv e)) ∧
    (∀ (timeEnd tout : ℚ) (c : CvodeInterface κ σ),
      assignPendingEvents m s cv timeEnd tout = .ok c → Scheduled c) ∧
    (∀ (hstep : ℚ) (v v1 : StepVars) (cv1 : CvodeInterface κ σ),
      oneStepRound m s hstep v cv = .ok (.continues v1 cv1) →
      (∀ t ∈ cv.mAssignmentTimes.head?, t < v.tout → t ≤ v1.timeEnd) →
      Scheduled cv1) ∧
    (∀ (hstep : ℚ) (v : StepVars) (r : ℚ) (cv1 : CvodeInterface κ σ),
      oneStepRound m s hstep v cv = .ok (.returned r cv1) → Scheduled cv1) :=
  ⟨fun timeEnd rootsFound => handleRootsForTime_scheduled m s cv timeEnd rootsFound h,
    fun e => removePending_scheduled cv e h,
    fun timeEnd tout c hc => assignPendingEvents_scheduled m s cv c timeEnd tout h hc,
    fun hstep v v1 cv1 hr hreach => oneStepRound_scheduled m s hstep v v1 cv cv1 h hr hreach,
    fun hstep v r cv1 hr => by
      obtain ⟨_, hq, hts⟩ := oneStepRound_returned m s hstep v cv cv1 r hr
      intro p hp
      rw [hts]
      exact h p (hq ▸ hp)⟩

/-- The invariant at `twoPending` (assignments pending at the times 5 and 7): the handler at
time 1, the drop of event 0, the drain at time 6, and the round of `oneStep` towards 10,
which takes the target 5 from the schedule and reaches it. -/
theorem scheduled_kept_witness :
    Scheduled twoPending ∧
    Scheduled (handleRootsForTime (idleModel ℚ 2 [0]) (constSundials ℚ CV_SUCCESS id []) twoPending
      1 [0, 0]) ∧
    Scheduled (removePendingAssignmentForIndex twoPending 0) ∧
    (∃ c, assignPendingEvents (idleModel ℚ 2 [0]) (constSundials ℚ CV_SUCCESS id []) twoPending
      6 10 = .ok c ∧ Scheduled c) ∧
    (∃ v1 cv1, oneStepRound (idleModel ℚ 2 [0]) (constSundials ℚ CV_SUCCESS id []) 10
      ⟨0, 0, 10, 3⟩ twoPending = .ok (.continues v1 cv1) ∧ v1.timeEnd = 5 ∧
      cv1.mAssignments = [⟨7, 1, false, none⟩] ∧ cv1.mAssignmentTimes = [7] ∧ Scheduled cv1) := by
  have h : Scheduled twoPending := by
    intro p hp
    simp [twoPending, driverOf] at hp
    rcases hp with rfl | rfl <;> simp [twoPending, driverOf, PendingAssignment.GetTime]
  have hk := scheduled_kept (idleModel ℚ 2 [0]) (constSundials ℚ CV_SUCCESS id []) twoPending h
  obtain ⟨c, hc, _, _⟩ := scheduleOf_some
    (assignPendingEvents (idleModel ℚ 2 [0]) (constSundials ℚ CV_SUCCESS id []) twoPending 6 10)
    [⟨7, 1, false, none⟩] [5, 7] (by decide!)
  obtain ⟨v1, cv1, hr, hv, hq, hts⟩ := roundSummary_some
    (oneStepRound (idleModel ℚ 2 [0]) (constSundials ℚ CV_SUCCESS id []) 10 ⟨0, 0, 10, 3⟩
      twoPending) 5 [⟨7, 1, false, none⟩] [7] (by decide!)
  refine ⟨h, hk.1 1 [0, 0], hk.2.1 0, ⟨c, hc, hk.2.2.1 6 10 c hc⟩,
    ⟨v1, cv1, hr, hv, hq, hts, hk.2.2.2.1 10 ⟨0, 0, 10, 3⟩ v1 cv1 hr ?_⟩⟩
  intro t ht _
  have : t = 5 := by
    simp [twoPending, driverOf] at ht
    exact ht.symm
  rw [this, hv]

/-- C8: the code breaks the invariant in a round that takes its target from the schedule
and is stopped before it. In `stampPending` the assignment `stamp := y` of the persistent
event 0 is pending at time 1, the schedule is `[1]`, and the integrator follows `y = t`.
In `oneStep(0, 2)` the first round erases 1 from the schedule and is stopped by a root at
the time `1 / 2`; it ends with the pending assignment in the queue and an empty schedule.
The next round has no scheduled time to stop at and integrates to 2; the assignment is
applied there, on `y = 2`. Without the root the round reaches its target 1 and the
assignment is applied on `y = 1`. -/
theorem interrupted_round_loses_target :
    Scheduled stampPending ∧
    roundSummary (oneStepRound stampModel (clockSundials (ℚ × ℚ) (some (1 / 2))) 2 ⟨0, 0, 2, 3⟩
      stampPending) = some (1 / 2, [⟨1, 0, false, none⟩], []) ∧
    (∃ v1 cv1, oneStepRound stampModel (clockSundials (ℚ × ℚ) (some (1 / 2))) 2 ⟨0, 0, 2, 3⟩
      stampPending = .ok (.continues v1 cv1) ∧ ¬ Scheduled cv1) ∧
    returnedUser (oneStep stampModel (clockSundials (ℚ × ℚ) (some (1 / 2))) 10 stampPending 0 2) =
      some (2, (2, 2)) ∧
    returnedUser (oneStep stampModel (clockSundials (ℚ × ℚ) none) 10 stampPending 0 2) =
      some (2, (2, 1)) := by
  have hsum : roundSummary (oneStepRound stampModel (clockSundials (ℚ × ℚ) (some (1 / 2))) 2
      ⟨0, 0, 2, 3⟩ stampPending) = some (1 / 2, [⟨1, 0, false, none⟩], []) := by decide!
  refine ⟨?_, hsum, ?_, by decide!, by decide!⟩
  · intro p hp
    simp only [stampPending, driverOf, List.mem_singleton] at hp
    subst hp
    simp [stampPending, driverOf, PendingAssignment.GetTime]
  · obtain ⟨v1, cv1, hr, _, hq, hts⟩ := roundSummary_some _ _ _ _ hsum
    refine ⟨v1, cv1, hr, fun hs => ?_⟩
    have := hs ⟨1, 0, false, none⟩ (by rw [hq]; simp)
    rw [hts] at this
    simp at this

/-! ## What `oneStep` returns -/

theorem returnedTime_some {κ σ : Type} (x : Except String (Option (ℚ × CvodeInterface κ σ)))
    (t : ℚ) (h : returnedTime x = some t) : ∃ cv1, x = .ok (some (t, cv1)) := by
  unfold returnedTime at h
  split at h
  · rename_i t1 cv1
    simp only [Option.some.injEq] at h
    exact ⟨cv1, by rw [h]⟩
  · cases h

theorem callCVode_timeEnd {κ σ : Type} (s : Sundials κ σ) (v : StepVars)
    (cv : CvodeInterface κ σ)
    (hcvode : ∀ mem target y tret md, (s.CVode mem target y tret md).tret ≤ max target tret)
    (hv : v.timeEnd ≤ v.tout) : (callCVode s v cv).2.1.timeEnd ≤ v.tout := by
  unfold callCVode
  simp only
  exact le_trans (hcvode _ _ _ _ _) (max_le (nextTarget_le cv v.tout) hv)

theorem oneStepRound_timeEnd {κ σ : Type} (m : ExecutableModel σ) (s : Sundials κ σ)
    (hstep : ℚ) (v v1 : StepVars) (cv cv1 : CvodeInterface κ σ)
    (hcvode : ∀ mem target y tret md, (s.CVode mem target y tret md).tret ≤ max target tret)
    (hv : v.timeEnd ≤ v.tout)
    (h : oneStepRound m s hstep v cv = .ok (.continues v1 cv1)) :
    v1.tout = v.tout ∧ v1.timeEnd ≤ v1.tout := by
  obtain ⟨c0, r, _, ha, he⟩ := oneStepRound_continues m s hstep v v1 cv cv1 h
  obtain ⟨r1, r2⟩ := r
  have hafter := afterCVode_induct m s _ _ r1 _ r2 (fun _ _ => True)
    (fun _ _ _ _ _ => trivial) (fun _ _ _ _ _ _ => trivial) (fun _ _ _ => trivial) ha trivial
  have he' := endRound_ok m s r1 v1 r2 cv1 he
  have hc := callCVode_timeEnd s v c0 hcvode hv
  have htout : v1.tout = v.tout := by
    rw [he'.2.1, hafter.2.2]
    exact (callCVode_vars s v c0).1
  refine ⟨htout, ?_⟩
  rw [htout, he'.1, hafter.2.1]
  exact hc

theorem oneStepLoop_reaches {κ σ : Type} (m : ExecutableModel σ) (s : Sundials κ σ) (hstep : ℚ)
    (hcvode : ∀ mem target y tret md, (s.CVode mem target y tret md).tret ≤ max target tret) :
    ∀ (fuel : Nat) (v : StepVars) (cv cv1 : CvodeInterface κ σ) (r : ℚ),
      v.timeEnd ≤ v.tout → oneStepLoop m s hstep fuel v cv = .ok (some (r, cv1)) →
      |v.tout - r| ≤ 1 / 10 ^ 16 := by
  intro fuel
  induction fuel with
  | zero =>
    intro v cv cv1 r hv h
    unfold oneStepLoop at h
    split_ifs at h with hgt
    · cases h
    · simp only [Except.ok.injEq, Option.some.injEq, Prod.mk.injEq] at h
      rw [← h.1, abs_le]
      exact ⟨by linarith, not_lt.mp hgt⟩
  | succ fuel ih =>
    intro v cv cv1 r hv h
    unfold oneStepLoop at h
    split_ifs at h with hgt
    · simp only at h
      split at h
      · rename_i value c hr
        simp only [Except.ok.injEq, Option.some.injEq, Prod.mk.injEq] at h
        have := oneStepRound_returned m s hstep v cv c value hr
        rw [← h.1, this.1]
        simp
      · rename_i v2 c hr
        have hv2 := oneStepRound_timeEnd m s hstep v v2 cv c hcvode hv hr
        have := ih v2 c cv1 r hv2.2 h
        rw [hv2.1] at this
        exact this
      · cases h
    · simp only [Except.ok.injEq, Option.some.injEq, Prod.mk.injEq] at h
      rw [← h.1, abs_le]
      exact ⟨by linarith, not_lt.mp hgt⟩

/-- C1, as the claim states it, fails: for the start time 0 and the step -1 the loop of
`oneStep` is not entered (`tout - timeEnd` is `-1 - 0`) and the initial value 0 of `timeEnd`
is returned, at distance 1 from `t0 + h = -1`. -/
theorem oneStep_negative_end :
    returnedTime (oneStep (idleModel ℚ 0 [0]) (constSundials ℚ CV_SUCCESS id []) 10
      (driverOf (idleData 0) [0] [] []) 0 (-1)) = some 0 ∧
    ¬ |((0 : ℚ) + (-1)) - 0| ≤ 1 / 10 ^ 16 := by
  constructor
  · decide!
  · decide!

/-- C1, amended: for a start time `t0` and a step `h` with `t0 + h ≥ 0`, and an integrator
that reports no time beyond the greater of its target and the time it was handed, whenever
`oneStep(t0, h)` returns a time `r`, `|(t0 + h) - r| ≤ 1E-16`. -/
theorem oneStep_reaches_end {κ σ : Type} (m : ExecutableModel σ) (s : Sundials κ σ)
    (fuel : Nat) (cv cv1 : CvodeInterface κ σ) (t0 h r : ℚ)
    (hcvode : ∀ mem target y tret md, (s.CVode mem target y tret md).tret ≤ max target tret)
    (hend : 0 ≤ t0 + h)
    (hr : oneStep m s fuel cv t0 h = .ok (some (r, cv1))) :
    |(t0 + h) - r| ≤ 1 / 10 ^ 16 := by
  unfold oneStep at hr
  exact oneStepLoop_reaches m s h hcvode fuel ⟨0, t0, t0 + h, 3⟩ _ cv1 r hend hr

/-- C1, amended, at a driver with one state variable and an integrator that converges at
its target: `oneStep(0, 1)` returns 1. -/
theorem oneStep_reaches_end_witness :
    returnedTime (oneStep (idleModel ℚ 0 [0]) (constSundials ℚ CV_SUCCESS id []) 10
      (driverOf (idleData 0) [0] [] []) 0 1) = some 1 ∧
    |((0 : ℚ) + 1) - 1| ≤ 1 / 10 ^ 16 := by
  have hret : returnedTime (oneStep (idleModel ℚ 0 [0]) (constSundials ℚ CV_SUCCESS id []) 10
      (driverOf (idleData 0) [0] [] []) 0 1) = some 1 := by decide!
  obtain ⟨cv1, hr⟩ := returnedTime_some _ _ hret
  exact ⟨hret, oneStep_reaches_end (idleModel ℚ 0 [0]) (constSundials ℚ CV_SUCCESS id []) 10
    (driverOf (idleData 0) [0] [] []) cv1 0 1 1 (fun _ target _ tret _ => le_max_left target tret)
    (by norm_num) hr⟩

/-- C2: the code breaks the claim when events are not followed. With `mFollowEvents` false
and an integrator that gives up with the code -1 at the time `1 / 2` and converges in its
next call, `oneStep(0, 1)` returns 1: the branch `nResult == CV_SUCCESS || !mFollowEvents`
takes the negative code. With `mFollowEvents` true the same call throws, through
`handleCVODEError`. -/
theorem oneStep_swallows_error :
    returnedTime (oneStep (idleModel ℚ 0 [0]) (tooMuchWork ℚ) 10
      { driverOf (idleData 0) [0] [] [] with mFollowEvents := false } 0 1) = some 1 ∧
    thrown (oneStep (idleModel ℚ 0 [0]) (tooMuchWork ℚ) 10
      (driverOf (idleData 0) [0] [] []) 0 1) = some "Error in CVODE...!" := by
  constructor
  · decide!
  · decide!

/-- With `mFollowEvents` true, a negative code of the integrator always throws. -/
theorem afterCVode_raises {κ σ : Type} (m : ExecutableModel σ) (s : Sundials κ σ)
    (nResult : Int) (v : StepVars) (cv : CvodeInterface κ σ) (hneg : nResult < 0)
    (hfollow : cv.mFollowEvents = true) :
    afterCVode m s nResult v cv = .error "Error in CVODE...!" := by
  have h1 : ¬ (nResult = CV_ROOT_RETURN ∧ cv.mFollowEvents = true) := by
    intro h
    rw [h.1] at hneg
    exact absurd hneg (by decide)
  have h2 : ¬ (nResult = CV_SUCCESS ∨ cv.mFollowEvents = false) := by
    intro h
    rcases h with h | h
    · rw [h] at hneg
      exact absurd hneg (by decide)
    · rw [hfollow] at h
      cases h
  unfold afterCVode
  simp only [h1, h2, if_false, handleCVODEError, hneg, if_true]

/-! ## The order in which the candidates fire -/

theorem retract_fold_sublist {κ σ : Type} :
    ∀ (items : List Nat) (acc : List Nat × CvodeInterface κ σ),
      (items.foldl retractStep acc).1.Sublist acc.1
  | [], _ => List.Sublist.refl _
  | item :: items, acc => by
    rw [List.foldl_cons]
    refine (retract_fold_sublist items (retractStep acc item)).trans ?_
    unfold retractStep
    split_ifs
    · exact List.erase_sublist item acc.1
    · exact List.Sublist.refl _

theorem fireNow_fired {κ σ : Type} (m : ExecutableModel σ) (timeEnd : ℚ) (st : RootState κ σ)
    (md : ModelData σ) (currentEvent : Nat) (rest : List Nat) :
    (fireNow m timeEnd st md currentEvent rest).handled = st.handled ++ [currentEvent] ∧
      (fireNow m timeEnd st md currentEvent rest).firedEvents.Sublist rest := by
  unfold fireNow
  exact ⟨rfl, retract_fold_sublist _ _⟩

theorem scheduleLater_fired {κ σ : Type} (m : ExecutableModel σ) (timeEnd : ℚ)
    (st : RootState κ σ) (md : ModelData σ) (currentEvent : Nat) (rest : List Nat) (d : ℚ) :
    (scheduleLater m timeEnd st md currentEvent rest d).handled = st.handled ∧
      (scheduleLater m timeEnd st md currentEvent rest d).firedEvents = rest :=
  ⟨rfl, rfl⟩

/-- A round of the candidate loop takes the first of the sorted candidates: it either
fires it (it goes to the end of `handled`, and the candidates left are among the others)
or schedules it (the candidates left are the others). -/
theorem drainStep_cases {κ σ : Type} (m : ExecutableModel σ) (timeEnd : ℚ)
    (st : RootState κ σ) :
    ((sortEventsByPriority m st.cv.mModel st.firedEvents).2 = [] ∧
      (drainStep m timeEnd st).handled = st.handled ∧ (drainStep m timeEnd st).firedEvents = []) ∨
    ∃ currentEvent rest,
      (sortEventsByPriority m st.cv.mModel st.firedEvents).2 = currentEvent :: rest ∧
      (((drainStep m timeEnd st).handled = st.handled ++ [currentEvent] ∧
          (drainStep m timeEnd st).firedEvents.Sublist rest) ∨
        ((drainStep m timeEnd st).handled = st.handled ∧
          (drainStep m timeEnd st).firedEvents = rest)) := by
  unfold drainStep
  simp only
  split
  · rename_i hs
    exact Or.inl ⟨hs, rfl, rfl⟩
  · rename_i currentEvent rest hs
    refine Or.inr ⟨currentEvent, rest, hs, ?_⟩
    split_ifs
    · exact Or.inl (fireNow_fired m timeEnd st _ currentEvent rest)
    · exact Or.inr (scheduleLater_fired m timeEnd st _ currentEvent rest _)

theorem drainStep_length {κ σ : Type} (m : ExecutableModel σ) (timeEnd : ℚ)
    (st : RootState κ σ) (h : st.firedEvents.length > 0) :
    (drainStep m timeEnd st).firedEvents.length < st.firedEvents.length := by
  rcases drainStep_cases m timeEnd st with ⟨_, _, hf⟩ | ⟨cur, rest, hs, hcase⟩
  · rw [hf]; exact h
  · have hlen : (cur :: rest).length = st.firedEvents.length :=
      (hs ▸ sortEvents_perm m st.cv.mModel st.firedEvents).length_eq
    rw [List.length_cons] at hlen
    rcases hcase with ⟨_, hf⟩ | ⟨_, hf⟩
    · have := hf.length_le
      omega
    · rw [hf]; omega

/-- The candidate loop of `handleRootsForTime` ends: as many rounds as there are candidates
leave no candidate. -/
theorem drainLoop_done {κ σ : Type} (m : ExecutableModel σ) (timeEnd : ℚ) :
    ∀ (fuel : Nat) (st : RootState κ σ), st.firedEvents.length ≤ fuel →
      (drainLoop m timeEnd fuel st).firedEvents = []
  | 0, st, h => List.length_eq_zero.mp (Nat.le_zero.mp h)
  | fuel + 1, st, h => by
    rw [drainLoop]
    split_ifs with hpos
    · apply drainLoop_done m timeEnd fuel
      have := drainStep_length m timeEnd st hpos
      omega
    · exact List.length_eq_zero.mp (by omega)

theorem drainRoots_done {κ σ : Type} (m : ExecutableModel σ) (cv : CvodeInterface κ σ)
    (timeEnd : ℚ) (rootsFound : List Int) :
    (drainRoots m cv timeEnd rootsFound).firedEvents = [] :=
  drainLoop_done m timeEnd _ _ (Nat.le_refl _)

theorem partitionStep_fired {κ σ : Type} (m : ExecutableModel σ) (rootsFound : List Int)
    (st : RootState κ σ) (i : Nat) :
    (partitionStep m rootsFound st i).handled = st.handled ∧
      ((partitionStep m rootsFound st i).firedEvents = st.firedEvents ∨
        (partitionStep m rootsFound st i).firedEvents = st.firedEvents ++ [i]) := by
  unfold partitionStep
  split_ifs
  · exact ⟨rfl, Or.inr rfl⟩
  · exact ⟨rfl, Or.inr rfl⟩
  · exact ⟨rfl, Or.inl rfl⟩
  · exact ⟨rfl, Or.inl rfl⟩
  · exact ⟨rfl, Or.inl rfl⟩

theorem partitionFold_fired {κ σ : Type} (m : ExecutableModel σ) (rootsFound : List Int) :
    ∀ (is : List Nat) (st : RootState κ σ),
      (is.foldl (partitionStep m rootsFound) st).handled = st.handled ∧
      ∃ l, l.Sublist is ∧
        (is.foldl (partitionStep m rootsFound) st).firedEvents = st.firedEvents ++ l
  | [], st => ⟨rfl, [], List.Sublist.refl _, by simp⟩
  | i :: is, st => by
    rw [List.foldl_cons]
    obtain ⟨hh, l, hl, hf⟩ := partitionFold_fired m rootsFound is (partitionStep m rootsFound st i)
    have hs := partitionStep_fired m rootsFound st i
    refine ⟨hh.trans hs.1, ?_⟩
    rcases hs.2 with h | h
    · exact ⟨l, hl.cons i, by rw [hf, h]⟩
    · exact ⟨i :: l, hl.cons₂ i, by rw [hf, h]; simp⟩

theorem partitionRoots_fired {κ σ : Type} (m : ExecutableModel σ) (cv : CvodeInterface κ σ)
    (timeEnd : ℚ) (rootsFound : List Int) :
    (partitionRoots m cv timeEnd rootsFound).handled = [] ∧
      (partitionRoots m cv timeEnd rootsFound).firedEvents.Nodup := by
  unfold partitionRoots
  obtain ⟨hh, l, hl, hf⟩ := partitionFold_fired m rootsFound (List.range m.getNumEvents)
    { cv := { cv := _, firedEvents := [], preComputedAssignments := fun _ => none,
              handled := [] : RootState κ σ }.cv,
      firedEvents := [], preComputedAssignments := fun _ => none, handled := [] }
  refine ⟨hh, ?_⟩
  rw [hf]
  simpa using hl.nodup (List.nodup_range _)

theorem Priority.gt_ge_absurd (x y : Priority) (h1 : Priority.gt x y = true)
    (h2 : Priority.ge y x = true) : False := by
  cases x with
  | none => simp [Priority.gt] at h1
  | some x =>
    cases y with
    | none => simp [Priority.gt] at h1
    | some y =>
      simp only [Priority.gt, Priority.ge, decide_eq_true_eq] at h1 h2
      exact absurd h1 (not_lt.mpr h2)

/-! ## A step below `1E-16` -/

theorem oneStep_small {κ σ : Type} (m : ExecutableModel σ) (s : Sundials κ σ) (fuel : Nat)
    (cv : CvodeInterface κ σ) (t0 h : ℚ) (hh : h < 1 / 10 ^ 16) :
    oneStep m s (fuel + 1) cv t0 h =
      .ok (some (if t0 + h > 1 / 10 ^ 16 then t0 + h else 0,
        { cv with mOneStepCount := cv.mOneStepCount + 1 })) := by
  unfold oneStep oneStepLoop
  simp only [sub_zero]
  split_ifs with hgt
  · simp only [oneStepRound, hh, if_true]
  · rfl

/-- C13, as the claim states it, fails: for the start time 0 and the step `1 / 10 ^ 17` the
loop of `oneStep` is not entered (`tout - timeEnd` is no more than `1E-16`) and the initial
value 0 of `timeEnd` is returned, which is not `t0 + h`. -/
theorem oneStep_tiny_step_returns_zero :
    returnedTime (oneStep (idleModel ℚ 0 [0]) (constSundials ℚ CV_SUCCESS id []) 10
      (driverOf (idleData 0) [0] [] []) 0 (1 / 10 ^ 17)) = some 0 ∧
    (0 : ℚ) + 1 / 10 ^ 17 ≠ 0 ∧ (1 : ℚ) / 10 ^ 17 < 1 / 10 ^ 16 := by
  refine ⟨by decide!, by norm_num, by norm_num⟩

/-- C13, amended: for every start time `t0` and every step `h < 1E-16`, `oneStep(t0, h)`
returns `t0 + h` when `t0 + h > 1E-16` and 0 (the initial `timeEnd`) otherwise; whatever the
model and the integrator are, the driver it leaves differs from the one it found in the
count of calls only, so the integrator is not called and the model, the queue, the schedule,
`mLastTimeValue` and `mLastEvent` are as before. One round of the loop is enough. -/
theorem oneStep_small_step {κ σ : Type} (m : ExecutableModel σ) (s : Sundials κ σ) (fuel : Nat)
    (cv : CvodeInterface κ σ) (t0 h : ℚ) (hh : h < 1 / 10 ^ 16) :
    oneStep m s (fuel + 1) cv t0 h =
      .ok (some (if t0 + h > 1 / 10 ^ 16 then t0 + h else 0,
        { cv with mOneStepCount := cv.mOneStepCount + 1 })) :=
  oneStep_small m s fuel cv t0 h hh

/-- C13, amended, at the start time 3 and the step 0 in `twoPending`: 3 is returned. -/
theorem oneStep_small_step_witness :
    (0 : ℚ) < 1 / 10 ^ 16 ∧
    oneStep (idleModel ℚ 2 [0]) (constSundials ℚ CV_SUCCESS id []) 1 twoPending 3 0 =
      .ok (some (3, { twoPending with mOneStepCount := twoPending.mOneStepCount + 1 })) := by
  have h := oneStep_small_step (idleModel ℚ 2 [0]) (constSundials ℚ CV_SUCCESS id []) 0
    twoPending 3 0 (by norm_num)
  have h3 : (if (3 : ℚ) + 0 > 1 / 10 ^ 16 then (3 : ℚ) + 0 else 0) = 3 := by norm_num
  rw [h3] at h
  exact ⟨by norm_num, h⟩

/-! ## A root that is not followed -/

theorem afterCVode_not_followed {κ σ : Type} (m : ExecutableModel σ) (s : Sundials κ σ)
    (nResult : Int) (v : StepVars) (cv : CvodeInterface κ σ) (hf : cv.mFollowEvents = false) :
    afterCVode m s nResult v cv =
      .ok (v, withModel (m.setStateVector (cv.mStateVector.getD []) (m.setTime v.tout cv.mModel))
        cv) := by
  unfold afterCVode
  rw [if_neg (by simp [hf]), if_pos (Or.inr hf)]
  rfl

theorem oneStepRound_not_followed {κ σ : Type} (m : ExecutableModel σ) (s : Sundials κ σ)
    (hstep : ℚ) (v0 v : StepVars) (cv0 cv : CvodeInterface κ σ) (nResult : Int)
    (hcall : roundCall m s hstep v0 cv0 = some (nResult, v, cv))
    (hf : cv.mFollowEvents = false) :
    oneStepRound m s hstep v0 cv0 =
      endRound m s v
        (withModel (m.setStateVector (cv.mStateVector.getD []) (m.setTime v.tout cv.mModel))
          cv) := by
  unfold roundCall at hcall
  unfold oneStepRound
  split_ifs at hcall ⊢
  split at hcall
  · cases hcall
  · simp only [Option.some.injEq] at hcall
    simp only [hcall, afterCVode_not_followed m s nResult v cv hf]

/-- C12: when `mFollowEvents` is false, the branch of `oneStep` for a root return of the
integrator leaves the local variables as they are and changes the driver in the model only:
the model time is set to `tout` and the state vector is written to the model. Whatever the
model and the integrator are, nothing else happens: no call of the root handler, no restart,
no pending assignment, no event assignment. A round of the loop whose integrator call ends
with the root return goes from there to its end, as a round of a converged call does. -/
theorem root_not_followed {κ σ : Type} (m : ExecutableModel σ) (s : Sundials κ σ)
    (v : StepVars) (cv : CvodeInterface κ σ) (hf : cv.mFollowEvents = false) :
    afterCVode m s CV_ROOT_RETURN v cv =
      .ok (v, withModel (m.setStateVector (cv.mStateVector.getD []) (m.setTime v.tout cv.mModel))
        cv) ∧
    ∀ (hstep : ℚ) (v0 : StepVars) (cv0 : CvodeInterface κ σ),
      roundCall m s hstep v0 cv0 = some (CV_ROOT_RETURN, v, cv) →
      oneStepRound m s hstep v0 cv0 =
        endRound m s v
          (withModel (m.setStateVector (cv.mStateVector.getD []) (m.setTime v.tout cv.mModel))
            cv) :=
  ⟨afterCVode_not_followed m s CV_ROOT_RETURN v cv hf,
    fun hstep v0 cv0 hcall => oneStepRound_not_followed m s hstep v0 v cv0 cv _ hcall hf⟩

/-- C12 for the model `rootModel`, whose event 1 is true, at a root return at the time
`1 / 2` on the way to 1, in a driver that does not follow events. -/
theorem root_not_followed_witness :
    notFollowing.mFollowEvents = false ∧
    afterCVode rootModel (constSundials ℚ CV_ROOT_RETURN id [0, 1]) CV_ROOT_RETURN
      ⟨1 / 2, 0, 1, 3⟩ notFollowing =
      .ok (⟨1 / 2, 0, 1, 3⟩,
        withModel (rootModel.setStateVector (notFollowing.mStateVector.getD [])
          (rootModel.setTime 1 notFollowing.mModel)) notFollowing) :=
  ⟨rfl, (root_not_followed rootModel (constSundials ℚ CV_ROOT_RETURN id [0, 1])
    ⟨1 / 2, 0, 1, 3⟩ notFollowing rfl).1⟩

/-! ## The retest -/

theorem retestLoop_eq {σ : Type} (m : ExecutableModel σ) (md : ModelData σ) (before : Nat → Bool)
    (H : List Nat) :
    ∀ (is : List Nat) (acc : List Nat × List Nat),
      retestLoop m md before H is acc =
        (acc.1 ++ is.filter (fun i =>
            decide (md.eventStatusArray i = true ∧ before i = false ∧ i ∉ H)),
         acc.2 ++ is.filter (fun i =>
            decide (md.eventStatusArray i = false ∧ before i = true ∧
              m.eventPersistentType i = false))) := by
  intro is
  induction is with
  | nil => intro acc; simp [retestLoop]
  | cons i is ih =>
    intro acc
    obtain ⟨result, removeEvents⟩ := acc
    rw [retestLoop, ih]
    by_cases h1 : md.eventStatusArray i = true ∧ before i = false ∧ i ∉ H
    · have h2 : ¬ (md.eventStatusArray i = false ∧ before i = true ∧
          m.eventPersistentType i = false) := by
        intro h; rw [h1.1] at h; exact Bool.noConfusion h.1
      simp [h1, h2, List.filter_cons]
    · by_cases h2 : md.eventStatusArray i = false ∧ before i = true ∧
          m.eventPersistentType i = false
      · have h1a : ¬ (md.eventStatusArray i = true ∧ before i = false ∧
            decide (i ∈ H) = false) := by
          intro h; exact h1 ⟨h.1, h.2.1, by simpa using h.2.2⟩
        rw [if_neg h1a, if_pos h2]
        simp [h1, h2, List.filter_cons]
      · have h1a : ¬ (md.eventStatusArray i = true ∧ before i = false ∧
            decide (i ∈ H) = false) := by
          intro h; exact h1 ⟨h.1, h.2.1, by simpa using h.2.2⟩
        rw [if_neg h1a, if_neg h2]
        simp [h1, h2, List.filter_cons]

theorem retestEvents_eq {κ σ : Type} (m : ExecutableModel σ) (cv : CvodeInterface κ σ)
    (timeEnd : ℚ) (H : List Nat) (assignOldState : Bool) (removeEvents : List Nat) :
    retestEvents m cv timeEnd H assignOldState removeEvents =
      (withModel (m.popState (if assignOldState then 0 else PopDiscard) (retestAfter m cv timeEnd))
          cv,
       (List.range m.getNumEvents).filter (fun i =>
          decide ((retestAfter m cv timeEnd).eventStatusArray i = true ∧
            (retestBefore m cv timeEnd).eventStatusArray i = false ∧ i ∉ H)),
       removeEvents ++ (List.range m.getNumEvents).filter (fun i =>
          decide ((retestAfter m cv timeEnd).eventStatusArray i = false ∧
            (retestBefore m cv timeEnd).eventStatusArray i = true ∧
            m.eventPersistentType i = false))) := by
  unfold retestEvents
  simp only [retestLoop_eq, List.nil_append]
  rfl

/-- C20: for every time `t`, handled list `H`, flag and list `removeEvents`,
`retestEvents(t, H, flag, removeEvents)` returns the events `i < getNumEvents`, in ascending
order, whose status is true after the call's `evalEvents`, was false in the copy of
`eventStatusArray` the call takes ahead of it (between `evalModel` and the snapshot
`pushState`), and that are not in `H`; and `removeEvents` is extended by the events, in
ascending order, whose status is false after `evalEvents`, was true in the copy, and that
are not persistent. -/
theorem retestEvents_exact {κ σ : Type} (m : ExecutableModel σ) (cv : CvodeInterface κ σ)
    (t : ℚ) (H : List Nat) (assignOldState : Bool) (removeEvents : List Nat) :
    (retestEvents m cv t H assignOldState removeEvents).2.1 =
      (List.range m.getNumEvents).filter (fun i =>
        decide ((retestAfter m cv t).eventStatusArray i = true ∧
          (retestBefore m cv t).eventStatusArray i = false ∧ i ∉ H)) ∧
    (retestEvents m cv t H assignOldState removeEvents).2.2 =
      removeEvents ++ (List.range m.getNumEvents).filter (fun i =>
        decide ((retestAfter m cv t).eventStatusArray i = false ∧
          (retestBefore m cv t).eventStatusArray i = true ∧
          m.eventPersistentType i = false)) := by
  rw [retestEvents_eq]
  exact ⟨rfl, rfl⟩

/-! ## The partition of the events -/

theorem partitionStep_exact {κ σ : Type} (m : ExecutableModel σ) (rootsFound : List Int)
    (st : RootState κ σ) (i : Nat) :
    (partitionStep m rootsFound st i).cv.mModel = st.cv.mModel ∧
    (partitionStep m rootsFound st i).cv.mAssignmentTimes = st.cv.mAssignmentTimes ∧
    (partitionStep m rootsFound st i).handled = st.handled ∧
    (partitionStep m rootsFound st i).firedEvents =
      st.firedEvents ++
        (if rootsFound.getD i 0 = 1 ∧ st.cv.mModel.eventStatusArray i = true then [i] else []) ∧
    (partitionStep m rootsFound st i).cv.mAssignments =
      st.cv.mAssignments.filter (fun p => decide (¬ (p.GetIndex = i ∧
        rootsFound.getD i 0 ≠ 1 ∧ m.eventPersistentType i = false))) ∧
    ∀ j, (partitionStep m rootsFound st i).preComputedAssignments j =
      if j = i ∧ rootsFound.getD i 0 = 1 ∧ st.cv.mModel.eventStatusArray i = true ∧
          m.eventType i = true then
        some (m.computeEventAssignments i st.cv.mModel)
      else st.preComputedAssignments j := by
  unfold partitionStep
  by_cases h1 : rootsFound.getD i 0 = 1
  · by_cases h2 : st.cv.mModel.eventStatusArray i = true
    · by_cases h3 : m.eventType i = true
      · rw [if_pos h1, if_pos h2, if_pos h3]
        refine ⟨rfl, rfl, rfl, ?_, ?_, ?_⟩
        · rw [if_pos ⟨h1, h2⟩]
        · simp [-List.getD_eq_getElem?_getD, h1]
        · intro j
          by_cases hj : j = i
          · subst hj; simp [-List.getD_eq_getElem?_getD, h1, h2, h3]
          · simp [-List.getD_eq_getElem?_getD, hj, Function.update_noteq hj]
      · rw [if_pos h1, if_pos h2, if_neg h3]
        refine ⟨rfl, rfl, rfl, ?_, ?_, ?_⟩
        · rw [if_pos ⟨h1, h2⟩]
        · simp [-List.getD_eq_getElem?_getD, h1]
        · intro j; simp [-List.getD_eq_getElem?_getD, h3]
    · rw [if_pos h1, if_neg h2]
      refine ⟨rfl, rfl, rfl, ?_, ?_, ?_⟩
      · rw [if_neg (fun h => h2 h.2)]; simp
      · simp [-List.getD_eq_getElem?_getD, h1]
      · intro j; simp [-List.getD_eq_getElem?_getD, h2]
  · by_cases h4 : m.eventPersistentType i = true
    · have h5 : ¬ ((!m.eventPersistentType i) = true) := by simp [h4]
      rw [if_neg h1, if_neg h5]
      refine ⟨rfl, rfl, rfl, ?_, ?_, ?_⟩
      · rw [if_neg (fun h => h1 h.1)]; simp
      · simp [-List.getD_eq_getElem?_getD, h4]
      · intro j; simp [-List.getD_eq_getElem?_getD, h1]
    · have hp : m.eventPersistentType i = false := by simpa using h4
      have h5 : (!m.eventPersistentType i) = true := by simp [hp]
      rw [if_neg h1, if_pos h5]
      refine ⟨rfl, rfl, rfl, ?_, ?_, ?_⟩
      · rw [if_neg (fun h => h1 h.1)]; simp
      · rw [removePending_queue]
        apply List.filter_congr
        intro p _
        simp [-List.getD_eq_getElem?_getD, h1, hp]
      · intro j; simp [-List.getD_eq_getElem?_getD, h1]

theorem partitionFold_exact {κ σ : Type} (m : ExecutableModel σ) (rootsFound : List Int) :
    ∀ (is : List Nat) (st : RootState κ σ),
      (is.foldl (partitionStep m rootsFound) st).cv.mModel = st.cv.mModel ∧
      (is.foldl (partitionStep m rootsFound) st).cv.mAssignmentTimes = st.cv.mAssignmentTimes ∧
      (is.foldl (partitionStep m rootsFound) st).handled = st.handled ∧
      (is.foldl (partitionStep m rootsFound) st).firedEvents =
        st.firedEvents ++ is.filter (fun i =>
          decide (rootsFound.getD i 0 = 1 ∧ st.cv.mModel.eventStatusArray i = true)) ∧
      (is.foldl (partitionStep m rootsFound) st).cv.mAssignments =
        st.cv.mAssignments.filter (fun p => decide (¬ (p.GetIndex ∈ is ∧
          rootsFound.getD p.GetIndex 0 ≠ 1 ∧ m.eventPersistentType p.GetIndex = false))) ∧
      ∀ j, (is.foldl (partitionStep m rootsFound) st).preComputedAssignments j =
        if j ∈ is ∧ rootsFound.getD j 0 = 1 ∧ st.cv.mModel.eventStatusArray j = true ∧
            m.eventType j = true then
          some (m.computeEventAssignments j st.cv.mModel)
        else st.preComputedAssignments j
  | [], st => by simp
  | i :: is, st => by
    rw [List.foldl_cons]
    obtain ⟨hm, ht, hh, hf, hq, hpre⟩ :=
      partitionFold_exact m rootsFound is (partitionStep m rootsFound st i)
    obtain ⟨sm, stt, sh, sf, sq, spre⟩ := partitionStep_exact m rootsFound st i
    refine ⟨hm.trans sm, ht.trans stt, hh.trans sh, ?_, ?_, ?_⟩
    · rw [hf, sf, sm, List.filter_cons]
      by_cases hc : rootsFound.getD i 0 = 1 ∧ st.cv.mModel.eventStatusArray i = true
      · simp [-List.getD_eq_getElem?_getD, hc]
      · simp [-List.getD_eq_getElem?_getD, hc]
    · rw [hq, sq, List.filter_filter]
      apply List.filter_congr
      intro p _
      by_cases hpi : p.GetIndex = i
      · by_cases hd : rootsFound.getD i 0 ≠ 1 ∧ m.eventPersistentType i = false
        · simp [-List.getD_eq_getElem?_getD, hpi, hd]
        · simp [-List.getD_eq_getElem?_getD, hpi, hd]
      · simp [-List.getD_eq_getElem?_getD, hpi]
    · intro j
      rw [hpre j, spre j, sm]
      by_cases hj : j = i
      · subst hj
        by_cases hc : rootsFound.getD j 0 = 1 ∧ st.cv.mModel.eventStatusArray j = true ∧
            m.eventType j = true
        · simp [-List.getD_eq_getElem?_getD, hc]
        · simp [-List.getD_eq_getElem?_getD, hc]
      · simp [-List.getD_eq_getElem?_getD, hj]

/-- C16: when the `while` loop of `handleRootsForTime(timeEnd, rootsFound)` starts, that is
after `evalEvents` and the first loop over the events, the candidate list holds, in
ascending order, exactly the events `i` with `rootsFound[i] = 1` whose status is true; the
map of precomputed assignments holds the value of `computeEventAssignments[i]` on the
refreshed model for exactly the candidates of Type A and nothing for any other event; and
the queue is the one of the driver without the entries of the events `i` with
`rootsFound[i] ≠ 1` that are not persistent (so an event with `rootsFound[i] = 1` and a false
status is neither a candidate nor dropped). The model, the schedule and the handled list
are not touched by the loop. -/
theorem partition_exact {κ σ : Type} (m : ExecutableModel σ) (cv : CvodeInterface κ σ)
    (timeEnd : ℚ) (rootsFound : List Int) :
    (partitionRoots m cv timeEnd rootsFound).firedEvents =
      (List.range m.getNumEvents).filter (fun i => decide (rootsFound.getD i 0 = 1 ∧
        (refreshedModel m cv timeEnd).eventStatusArray i = true)) ∧
    (∀ i, (partitionRoots m cv timeEnd rootsFound).preComputedAssignments i =
      if i < m.getNumEvents ∧ rootsFound.getD i 0 = 1 ∧
          (refreshedModel m cv timeEnd).eventStatusArray i = true ∧ m.eventType i = true then
        some (m.computeEventAssignments i (refreshedModel m cv timeEnd))
      else none) ∧
    (partitionRoots m cv timeEnd rootsFound).cv.mAssignments =
      cv.mAssignments.filter (fun p => decide (¬ (p.GetIndex < m.getNumEvents ∧
        rootsFound.getD p.GetIndex 0 ≠ 1 ∧ m.eventPersistentType p.GetIndex = false))) ∧
    (partitionRoots m cv timeEnd rootsFound).cv.mModel = refreshedModel m cv timeEnd ∧
    (partitionRoots m cv timeEnd rootsFound).cv.mAssignmentTimes = cv.mAssignmentTimes ∧
    (partitionRoots m cv timeEnd rootsFound).handled = [] := by
  unfold partitionRoots
  obtain ⟨hm, ht, hh, hf, hq, hpre⟩ := partitionFold_exact m rootsFound (List.range m.getNumEvents)
    { cv := withModel (refreshedModel m cv timeEnd) cv, firedEvents := [],
      preComputedAssignments := fun _ => none, handled := [] }
  refine ⟨?_, ?_, ?_, hm, ht, hh⟩
  · simpa using hf
  · intro i
    simpa using hpre i
  · simpa using hq

/-! ## The tolerances of `assignNewVector` -/

theorem minTolerance_eq_least : ∀ (y : List ℚ) (a : ℚ), minTolerance a y = leastTolerance a y
  | [], a => rfl
  | yi :: y, a => by
    have ih := minTolerance_eq_least y
    unfold minTolerance leastTolerance at *
    rw [List.foldl_cons]
    by_cases hpos : yi > 0
    · have h1 : yi / 1000 > 0 := by positivity
      rw [List.filter_cons_of_pos (by simpa using hpos), List.map_cons, List.foldl_cons, ih]
      congr 1
      by_cases hlt : yi / 1000 < a
      · simp only [h1, hlt, and_self, if_true]
        exact (min_eq_right (le_of_lt hlt)).symm
      · rw [if_neg (fun h => hlt h.2)]
        exact (min_eq_left (not_lt.mp hlt)).symm
    · have h1 : ¬ yi / 1000 > 0 := by
        intro h; apply hpos
        have : yi = yi / 1000 * 1000 := by ring
        rw [this]; positivity
      rw [List.filter_cons_of_neg (by simpa using hpos), ih]
      congr 1
      rw [if_neg (fun h => h1 h.1)]

theorem foldl_min_le (l : List ℚ) : ∀ a : ℚ, l.foldl min a ≤ a := by
  induction l with
  | nil => intro a; exact le_refl a
  | cons x l ih => intro a; exact (ih (min a x)).trans (min_le_left a x)

theorem foldl_min_pos (l : List ℚ) (hl : ∀ x ∈ l, 0 < x) : ∀ a : ℚ, 0 < a → 0 < l.foldl min a := by
  induction l with
  | nil => intro a ha; exact ha
  | cons x l ih =>
    intro a ha
    exact ih (fun z hz => hl z (List.mem_cons_of_mem _ hz)) (min a x)
      (lt_min ha (hl x (List.mem_cons_self _ _)))

theorem leastTolerance_le (absTol : ℚ) (y : List ℚ) : leastTolerance absTol y ≤ absTol :=
  foldl_min_le _ absTol

theorem leastTolerance_pos (absTol : ℚ) (y : List ℚ) (h : 0 < absTol) :
    0 < leastTolerance absTol y := by
  apply foldl_min_pos _ _ absTol h
  intro x hx
  obtain ⟨yi, hyi, rfl⟩ := List.mem_map.mp hx
  have hpos : yi > 0 := by simpa using (List.mem_filter.mp hyi).2
  positivity

theorem setAbsTolerance_fold {κ σ : Type} (d : ℚ) :
    ∀ (l : List Nat) (cv : CvodeInterface κ σ),
      l.foldl (fun c i => setAbsTolerance c i d) cv =
        withTolerances (l.foldl
          (fun a i => SetVector a i (if d > 0 ∧ cv.mAbsTol > d then d else cv.mAbsTol))
          cv.mAbstolArray) cv
  | [], _ => rfl
  | i :: l, cv => by
    rw [List.foldl_cons, setAbsTolerance_fold d l (setAbsTolerance cv i d)]
    rfl

theorem SetVector_fold (v : ℚ) :
    ∀ (l : List Nat) (tol : List ℚ),
      l.foldl (fun a i => SetVector a i v) (some tol) =
        some (l.foldl (fun (a : List ℚ) i => a.set i v) tol)
  | [], _ => rfl
  | i :: l, tol => by
    rw [List.foldl_cons, List.foldl_cons]
    exact SetVector_fold v l (tol.set i v)

theorem set_range_fold (v : ℚ) (tol : List ℚ) :
    ∀ n, n ≤ tol.length →
      (List.range n).foldl (fun (a : List ℚ) i => a.set i v) tol =
        List.replicate n v ++ tol.drop n := by
  intro n
  induction n with
  | zero => intro _; simp
  | succ n ih =>
    intro hn
    have hlt : n < tol.length := hn
    rw [List.range_succ, List.foldl_append, ih (Nat.le_of_lt hlt)]
    simp only [List.foldl_cons, List.foldl_nil]
    rw [List.set_append_right _ _ (by simp), List.length_replicate, Nat.sub_self,
      List.drop_eq_getElem_cons hlt, List.set_cons_zero, List.replicate_succ']
    simp

theorem replicate_set_self (v : ℚ) : ∀ (n i : Nat), (List.replicate n v).set i v = List.replicate n v
  | 0, _ => rfl
  | n + 1, 0 => rfl
  | n + 1, i + 1 => by
    rw [List.replicate_succ, List.set_cons_succ, replicate_set_self v n i]

theorem assignNewVector_true {κ σ : Type} (m : ExecutableModel σ) (cv : CvodeInterface κ σ)
    (sv tol : List ℚ) (habs : 0 < cv.mAbsTol) (hsv : cv.mStateVector = some sv)
    (htol : cv.mAbstolArray = some tol) (hlen : tol.length = sv.length)
    (hfit : (m.getStateVector cv.mModel).length ≤ sv.length) :
    ∃ cv1, assignNewVector m cv true = .ok cv1 ∧
      cv1.mAbstolArray = some (List.replicate sv.length
        (leastTolerance cv.mAbsTol (copiedState m cv.mModel sv))) := by
  have hylen : (copiedState m cv.mModel sv).length = sv.length := by
    unfold copiedState
    simp only [List.length_append, List.length_drop]
    omega
  have hd : minTolerance cv.mAbsTol (copiedState m cv.mModel sv) =
      leastTolerance cv.mAbsTol (copiedState m cv.mModel sv) := minTolerance_eq_least _ _
  have hdpos := leastTolerance_pos cv.mAbsTol (copiedState m cv.mModel sv) habs
  have hdle := leastTolerance_le cv.mAbsTol (copiedState m cv.mModel sv)
  have hclamp : (if leastTolerance cv.mAbsTol (copiedState m cv.mModel sv) > 0 ∧
      cv.mAbsTol > leastTolerance cv.mAbsTol (copiedState m cv.mModel sv) then
        leastTolerance cv.mAbsTol (copiedState m cv.mModel sv) else cv.mAbsTol) =
      leastTolerance cv.mAbsTol (copiedState m cv.mModel sv) := by
    split_ifs with h
    · rfl
    · exact le_antisymm (not_lt.mp (fun hlt => h ⟨hdpos, hlt⟩)) hdle
  have hfold : (List.range (copiedState m cv.mModel sv).length).foldl
      (fun a i => SetVector a i (leastTolerance cv.mAbsTol (copiedState m cv.mModel sv)))
      (some tol) = some (List.replicate sv.length
        (leastTolerance cv.mAbsTol (copiedState m cv.mModel sv))) := by
    rw [SetVector_fold, hylen, set_range_fold _ _ _ (le_of_eq hlen.symm), ← hlen]
    simp
  unfold assignNewVector
  rw [hsv]
  simp only
  rw [if_neg (not_lt.mpr hfit)]
  simp only [if_true]
  rw [setAbsTolerance_fold]
  unfold copiedState at hd hclamp hfold hylen
  simp only [hd, hclamp]
  split_ifs
  · refine ⟨_, rfl, ?_⟩
    simp only [withTolerances, setAbsTolerance, htol, hclamp, hfold]
    simp only [SetVector, Option.map_some', replicate_set_self]
    rfl
  · refine ⟨_, rfl, ?_⟩
    simp only [withTolerances, htol, hfold]
    rfl

/-- C14: for a driver with `mAbsTol > 0` whose state vector `sv` is allocated, at least as
long as the state of the model, and as long as its tolerance vector,
`assignNewVector(model, true)` returns normally and leaves a tolerance vector of which every
component is `min(absTol, min{ y[i] / 1000 : y[i] > 0 })`, where `y` is the state vector as
it stands when the state of the model has been copied in; that value is positive and no
more than `mAbsTol`. -/
theorem tolerances_are_least {κ σ : Type} (m : ExecutableModel σ) (cv : CvodeInterface κ σ)
    (sv tol : List ℚ) (habs : 0 < cv.mAbsTol) (hsv : cv.mStateVector = some sv)
    (htol : cv.mAbstolArray = some tol) (hlen : tol.length = sv.length)
    (hfit : (m.getStateVector cv.mModel).length ≤ sv.length) :
    (∃ cv1, assignNewVector m cv true = .ok cv1 ∧
      cv1.mAbstolArray = some (List.replicate sv.length
        (leastTolerance cv.mAbsTol (copiedState m cv.mModel sv)))) ∧
    0 < leastTolerance cv.mAbsTol (copiedState m cv.mModel sv) ∧
    leastTolerance cv.mAbsTol (copiedState m cv.mModel sv) ≤ cv.mAbsTol :=
  ⟨assignNewVector_true m cv sv tol habs hsv htol hlen hfit,
    leastTolerance_pos _ _ habs, leastTolerance_le _ _⟩

/-- C14 for the state `[1 / 10 ^ 4, 0, 5]` and the tolerance `1 / 10 ^ 6`: every component
of the tolerance vector becomes `1 / 10 ^ 7`. -/
theorem tolerances_are_least_witness :
    leastTolerance (1 / 10 ^ 6) [1 / 10 ^ 4, 0, 5] = 1 / 10 ^ 7 ∧
    (∃ cv1, assignNewVector (idleModel ℚ 0 [1 / 10 ^ 4, 0, 5])
        (driverOf (idleData 0) [0, 0, 0] [] []) true = .ok cv1 ∧
      cv1.mAbstolArray = some (List.replicate 3
        (leastTolerance (1 / 10 ^ 6) [1 / 10 ^ 4, 0, 5]))) :=
  ⟨by decide!,
    (tolerances_are_least (idleModel ℚ 0 [1 / 10 ^ 4, 0, 5])
      (driverOf (idleData 0) [0, 0, 0] [] []) [0, 0, 0] (List.replicate 3 (1 / 10 ^ 6))
      (by norm_num [driverOf]) rfl rfl rfl (by simp [idleModel])).1⟩

/-! ## The dummy state of a model without variables -/

theorem allocateCvodeMem_vectors {κ σ : Type} (s : Sundials κ σ) (cv : CvodeInterface κ σ) :
    (allocateCvodeMem s cv).2.mStateVector = cv.mStateVector ∧
    (allocateCvodeMem s cv).2.mAbstolArray = cv.mAbstolArray ∧
    (allocateCvodeMem s cv).2.mStateVectorSize = cv.mStateVectorSize := by
  unfold allocateCvodeMem
  split
  · exact ⟨rfl, rfl, rfl⟩
  · simp only
    split_ifs
    · exact ⟨rfl, rfl, rfl⟩
    · exact ⟨rfl, rfl, rfl⟩

theorem allocateCvodeMem_code {κ σ : Type} (s : Sundials κ σ) (cv : CvodeInterface κ σ)
    (hInit : ∀ mem t y, 0 ≤ (s.CVodeInit mem t y).1)
    (hTol : ∀ mem r a, 0 ≤ (s.CVodeSVtolerances mem r a).1) :
    ¬ (allocateCvodeMem s cv).1 < 0 := by
  unfold allocateCvodeMem
  split
  · simp [CV_SUCCESS]
  · simp only
    split_ifs
    · exact not_lt.mpr (hInit _ _ _)
    · exact not_lt.mpr (hTol _ _ _)

theorem rootInit_vectors {κ σ : Type} (s : Sundials κ σ) (cv : CvodeInterface κ σ) (n : Nat) :
    (rootInit s cv n).2.mStateVector = cv.mStateVector ∧
    (rootInit s cv n).2.mAbstolArray = cv.mAbstolArray ∧
    (rootInit s cv n).2.mStateVectorSize = cv.mStateVectorSize := by
  unfold rootInit
  split
  · exact ⟨rfl, rfl, rfl⟩
  · exact ⟨rfl, rfl, rfl⟩

theorem initialize_dummy {κ σ : Type} (m : ExecutableModel σ) (s : Sundials κ σ)
    (cv : CvodeInterface κ σ) (md : ModelData σ)
    (hN : m.getStateVector md = []) (hE : 0 < m.getNumEvents)
    (hInit : ∀ mem t y, 0 ≤ (s.CVodeInit mem t y).1)
    (hTol : ∀ mem r a, 0 ≤ (s.CVodeSVtolerances mem r a).1)
    (hDense : ∀ mem n, 0 ≤ (s.CVDense mem n).1) :
    ∃ cv1, initializeCVODEInterface m s cv (some md) = .ok cv1 ∧
      cv1.mStateVector = some [10] ∧ cv1.mAbstolArray = some [cv.mDefaultAbsTol] ∧
      cv1.mStateVectorSize = 0 := by
  have hA := fun c => allocateCvodeMem_code s c hInit hTol
  have hD : ∀ mem n, ¬ (s.CVDense mem n).1 < 0 := fun mem n => not_lt.mpr (hDense mem n)
  unfold initializeCVODEInterface initializeBody
  simp only [hN, List.length_nil, gt_iff_lt, lt_self_iff_false, if_false, hE, if_true, hA, hD,
    bind, Except.bind, pure, Except.pure]
  refine ⟨_, rfl, ?_, ?_, ?_⟩
  · simp only [(rootInit_vectors s _ _).1, (allocateCvodeMem_vectors s _).1]
    rfl
  · simp only [(rootInit_vectors s _ _).2.1, (allocateCvodeMem_vectors s _).2.1]
    rfl
  · simp only [(rootInit_vectors s _ _).2.2, (allocateCvodeMem_vectors s _).2.2]

/-- C15, as the claim states it, fails: for a model without state variables and with one
event, `initializeCVODEInterface` leaves the state vector `[10]`, not `[1]`
(`SetVector(mStateVector, 0, 10)`; the branch does not call `assignNewVector`, whose dummy
value is 1). The tolerance vector is `[mDefaultAbsTol]`. -/
theorem initialize_dummy_is_ten :
    vectorsOf (initializeCVODEInterface (idleModel ℚ 1 []) (constSundials ℚ CV_SUCCESS id [])
      (driverOf (idleData 0) [] [] []) (some (idleData 0))) =
        some (some [10], some [1 / 10 ^ 6]) ∧
    ((10 : ℚ) ≠ 1) := by
  refine ⟨by decide!, by norm_num⟩

/-- C15, amended: for a model without state variables (`N = 0`) and with events (`E > 0`),
and an integrator whose `CVodeInit`, `CVodeSVtolerances` and `CVDense` report no failure,
`initializeCVODEInterface` returns normally; the state vector then has the length 1 with
`y[0] = 10`, the tolerance vector has the length 1 and holds `mDefaultAbsTol`, and
`mStateVectorSize` is 0. -/
theorem initialize_dummy_state {κ σ : Type} (m : ExecutableModel σ) (s : Sundials κ σ)
    (cv : CvodeInterface κ σ) (md : ModelData σ)
    (hN : m.getStateVector md = []) (hE : 0 < m.getNumEvents)
    (hInit : ∀ mem t y, 0 ≤ (s.CVodeInit mem t y).1)
    (hTol : ∀ mem r a, 0 ≤ (s.CVodeSVtolerances mem r a).1)
    (hDense : ∀ mem n, 0 ≤ (s.CVDense mem n).1) :
    ∃ cv1, initializeCVODEInterface m s cv (some md) = .ok cv1 ∧
      cv1.mStateVector = some [10] ∧ cv1.mAbstolArray = some [cv.mDefaultAbsTol] ∧
      cv1.mStateVectorSize = 0 :=
  initialize_dummy m s cv md hN hE hInit hTol hDense

/-- C15, amended, for a model with two events and no state, and an integrator that reports
success throughout. -/
theorem initialize_dummy_state_witness :
    ∃ cv1, initializeCVODEInterface (idleModel ℚ 2 []) (constSundials ℚ CV_SUCCESS id [])
        twoPending (some (idleData 0)) = .ok cv1 ∧
      cv1.mStateVector = some [10] ∧ cv1.mAbstolArray = some [twoPending.mDefaultAbsTol] ∧
      cv1.mStateVectorSize = 0 :=
  initialize_dummy_state (idleModel ℚ 2 []) (constSundials ℚ CV_SUCCESS id []) twoPending
    (idleData 0) rfl (by decide) (fun _ _ _ => le_refl _) (fun _ _ _ => le_refl _)
    (fun _ _ => le_refl _)

/-! ## A round of the candidate loop -/

theorem drainLoop_empty {κ σ : Type} (m : ExecutableModel σ) (timeEnd : ℚ) :
    ∀ (fuel : Nat) (st : RootState κ σ), st.firedEvents = [] → drainLoop m timeEnd fuel st = st
  | 0, _, _ => rfl
  | fuel + 1, st, h => by
    rw [drainLoop, if_neg (by simp [h])]

theorem drainLoop_add {κ σ : Type} (m : ExecutableModel σ) (timeEnd : ℚ) :
    ∀ (a b : Nat) (st : RootState κ σ),
      drainLoop m timeEnd (a + b) st = drainLoop m timeEnd b (drainLoop m timeEnd a st)
  | 0, b, st => by rw [Nat.zero_add]; rfl
  | a + 1, b, st => by
    rw [Nat.add_right_comm, drainLoop, drainLoop]
    split_ifs with h
    · exact drainLoop_add m timeEnd a b _
    · exact (drainLoop_empty m timeEnd b st (List.length_eq_zero.mp (by omega))).symm

theorem handlerState_succ {κ σ : Type} (m : ExecutableModel σ) (cv : CvodeInterface κ σ)
    (timeEnd : ℚ) (rootsFound : List Int) (k : Nat)
    (h : (handlerState m cv timeEnd rootsFound k).firedEvents.length > 0) :
    handlerState m cv timeEnd rootsFound (k + 1) =
      drainStep m timeEnd (handlerState m cv timeEnd rootsFound k) := by
  unfold handlerState at *
  rw [drainLoop_add, drainLoop, if_pos h]
  rfl

theorem drainRoots_from {κ σ : Type} (m : ExecutableModel σ) (cv : CvodeInterface κ σ)
    (timeEnd : ℚ) (rootsFound : List Int) (k : Nat) :
    drainRoots m cv timeEnd rootsFound =
      drainLoop m timeEnd (partitionRoots m cv timeEnd rootsFound).firedEvents.length
        (handlerState m cv timeEnd rootsFound k) := by
  unfold handlerState
  rw [← drainLoop_add, Nat.add_comm, drainLoop_add]
  exact (drainLoop_empty m timeEnd k _ (drainRoots_done m cv timeEnd rootsFound)).symm

theorem sortedCandidates_perm {κ σ : Type} (m : ExecutableModel σ) (st : RootState κ σ) :
    (sortedCandidates m st).Perm st.firedEvents :=
  sortEvents_perm m st.cv.mModel st.firedEvents

theorem precompute_fold_isSome {σ : Type} (m : ExecutableModel σ) (md : ModelData σ) (x : Nat) :
    ∀ (l : List Nat) (pre : Nat → Option (List ℚ)), (pre x).isSome = true →
      ((l.foldl (precomputeStep m md) pre) x).isSome = true
  | [], _, h => h
  | j :: l, pre, h => by
    rw [List.foldl_cons]
    apply precompute_fold_isSome m md x l
    unfold precomputeStep
    split_ifs
    · by_cases hx : x = j
      · subst hx; simp
      · rw [Function.update_noteq hx]; exact h
    · exact h

theorem fireNow_pre {κ σ : Type} (m : ExecutableModel σ) (timeEnd : ℚ) (st : RootState κ σ)
    (md : ModelData σ) (currentEvent : Nat) (rest : List Nat) :
    ∃ (l : List Nat) (md1 : ModelData σ),
      (fireNow m timeEnd st md currentEvent rest).preComputedAssignments =
        l.foldl (precomputeStep m md1) st.preComputedAssignments := by
  unfold fireNow
  exact ⟨_, _, rfl⟩

theorem drainStep_ready {κ σ : Type} (m : ExecutableModel σ) (timeEnd : ℚ)
    (st : RootState κ σ) (h : CandidatesReady m st) :
    CandidatesReady m (drainStep m timeEnd st) := by
  obtain ⟨hnd, hdisj, hpre⟩ := h
  have hperm := sortEvents_perm m st.cv.mModel st.firedEvents
  unfold drainStep
  simp only
  split
  · exact ⟨List.nodup_nil, fun x _ => List.not_mem_nil x, fun x hx => absurd hx (List.not_mem_nil x)⟩
  · rename_i cur rest hs
    rw [hs] at hperm
    have hnd2 : (cur :: rest).Nodup := hperm.nodup_iff.mpr hnd
    have hsub : ∀ x ∈ rest, x ∈ st.firedEvents := fun x hx =>
      hperm.subset (List.mem_cons_of_mem _ hx)
    have hcur : cur ∉ rest := (List.nodup_cons.mp hnd2).1
    split_ifs
    · obtain ⟨hh, hf⟩ := fireNow_fired m timeEnd st
        (markPrevious (sortEventsByPriority m st.cv.mModel st.firedEvents).1 cur) cur rest
      obtain ⟨l, md1, hp⟩ := fireNow_pre m timeEnd st
        (markPrevious (sortEventsByPriority m st.cv.mModel st.firedEvents).1 cur) cur rest
      refine ⟨hf.nodup (List.nodup_cons.mp hnd2).2, ?_, ?_⟩
      · intro x hx hxf
        rw [hh, List.mem_append, List.mem_singleton] at hx
        rcases hx with hx | hx
        · exact hdisj x hx (hsub x (hf.subset hxf))
        · exact hcur (hx ▸ hf.subset hxf)
      · intro x hx hty
        rw [hp]
        exact precompute_fold_isSome m md1 x l _ (hpre x (hsub x (hf.subset hx)) hty)
    · refine ⟨(List.nodup_cons.mp hnd2).2, ?_, ?_⟩
      · intro x hx hxf
        exact hdisj x hx (hsub x hxf)
      · intro x hx hty
        exact hpre x (hsub x hx) hty

theorem drainLoop_ready {κ σ : Type} (m : ExecutableModel σ) (timeEnd : ℚ) :
    ∀ (fuel : Nat) (st : RootState κ σ), CandidatesReady m st →
      CandidatesReady m (drainLoop m timeEnd fuel st)
  | 0, _, h => h
  | fuel + 1, st, h => by
    rw [drainLoop]
    split_ifs
    · exact drainLoop_ready m timeEnd fuel _ (drainStep_ready m timeEnd st h)
    · exact h

theorem partitionRoots_ready {κ σ : Type} (m : ExecutableModel σ) (cv : CvodeInterface κ σ)
    (timeEnd : ℚ) (rootsFound : List Int) :
    CandidatesReady m (partitionRoots m cv timeEnd rootsFound) := by
  obtain ⟨hh, hnd⟩ := partitionRoots_fired m cv timeEnd rootsFound
  refine ⟨hnd, fun x hx => by rw [hh] at hx; exact absurd hx (List.not_mem_nil x), ?_⟩
  intro x hx hty
  unfold partitionRoots at hx ⊢
  obtain ⟨-, -, -, hf, -, hpre⟩ := partitionFold_exact m rootsFound (List.range m.getNumEvents)
    { cv := withModel (refreshedModel m cv timeEnd) cv, firedEvents := [],
      preComputedAssignments := fun _ => none, handled := [] }
  have hf2 : x ∈ (List.range m.getNumEvents).filter (fun i =>
      decide (rootsFound.getD i 0 = 1 ∧ (refreshedModel m cv timeEnd).eventStatusArray i = true)) := by
    have := hf ▸ hx
    simpa using this
  obtain ⟨hr, hc⟩ := List.mem_filter.mp hf2
  have hc2 : rootsFound.getD x 0 = 1 ∧ (refreshedModel m cv timeEnd).eventStatusArray x = true :=
    of_decide_eq_true hc
  have := hpre x
  rw [if_pos ⟨hr, hc2.1, hc2.2, hty⟩] at this
  exact this ▸ rfl

theorem handlerState_ready {κ σ : Type} (m : ExecutableModel σ) (cv : CvodeInterface κ σ)
    (timeEnd : ℚ) (rootsFound : List Int) (k : Nat) :
    CandidatesReady m (handlerState m cv timeEnd rootsFound k) :=
  drainLoop_ready m timeEnd k _ (partitionRoots_ready m cv timeEnd rootsFound)

theorem retract_fold_frame {κ σ : Type} :
    ∀ (items : List Nat) (acc : List Nat × CvodeInterface κ σ),
      (items.foldl retractStep acc).2.mModel = acc.2.mModel ∧
      (items.foldl retractStep acc).2.mAssignmentTimes = acc.2.mAssignmentTimes ∧
      (items.foldl retractStep acc).2.mAssignments.Sublist acc.2.mAssignments
  | [], _ => ⟨rfl, rfl, List.Sublist.refl _⟩
  | item :: items, acc => by
    rw [List.foldl_cons]
    obtain ⟨h1, h2, h3⟩ := retract_fold_frame items (retractStep acc item)
    have hstep : (retractStep acc item).2.mModel = acc.2.mModel ∧
        (retractStep acc item).2.mAssignmentTimes = acc.2.mAssignmentTimes ∧
        (retractStep acc item).2.mAssignments.Sublist acc.2.mAssignments := by
      unfold retractStep
      split_ifs
      · refine ⟨rfl, rfl, ?_⟩
        show (removePendingAssignmentForIndex acc.2 item).mAssignments.Sublist _
        rw [removePending_queue]
        exact List.filter_sublist _
      · exact ⟨rfl, rfl, List.Sublist.refl _⟩
    exact ⟨h1.trans hstep.1, h2.trans hstep.2.1, h3.trans hstep.2.2⟩

theorem fireNow_frame {κ σ : Type} (m : ExecutableModel σ) (timeEnd : ℚ) (st : RootState κ σ)
    (md : ModelData σ) (currentEvent : Nat) (rest : List Nat) :
    (fireNow m timeEnd st md currentEvent rest).cv.mModel =
      clearStatus (m.popState PopDiscard
        (retestAfter m (withModel (appliedModel m st md currentEvent) st.cv) timeEnd))
        currentEvent ∧
    (fireNow m timeEnd st md currentEvent rest).cv.mAssignmentTimes = st.cv.mAssignmentTimes ∧
    (fireNow m timeEnd st md currentEvent rest).cv.mAssignments.Sublist st.cv.mAssignments := by
  unfold fireNow
  simp only
  refine ⟨(retract_fold_frame _ _).1.trans ?_, (retract_fold_frame _ _).2.1.trans ?_,
    (retract_fold_frame _ _).2.2.trans ?_⟩
  · simp only [retestEvents_eq]
    rfl
  · simp only [retestEvents_eq]
    rfl
  · simp only [retestEvents_eq]
    exact List.Sublist.refl _

theorem drainStep_fire {κ σ : Type} (m : ExecutableModel σ) (timeEnd : ℚ) (st : RootState κ σ)
    (i : Nat) (rest : List Nat) (hs : sortedCandidates m st = i :: rest)
    (hd : m.eventDelays i (roundModel m st i) = 0) :
    drainStep m timeEnd st = fireNow m timeEnd st (roundModel m st i) i rest := by
  unfold sortedCandidates at hs
  unfold roundModel at hd
  unfold drainStep roundModel
  simp only [hs, hd, if_true]

theorem drainStep_schedule {κ σ : Type} (m : ExecutableModel σ) (timeEnd : ℚ)
    (st : RootState κ σ) (i : Nat) (rest : List Nat) (hs : sortedCandidates m st = i :: rest)
    (hd : m.eventDelays i (roundModel m st i) ≠ 0) :
    drainStep m timeEnd st =
      scheduleLater m timeEnd st (roundModel m st i) i rest (m.eventDelays i (roundModel m st i)) := by
  unfold sortedCandidates at hs
  unfold roundModel at hd
  unfold drainStep roundModel
  simp only [hs, hd, if_false]

theorem sorted_head {κ σ : Type} (m : ExecutableModel σ) (st : RootState κ σ) (i : Nat)
    (rest : List Nat) (hs : sortedCandidates m st = i :: rest) (h : CandidatesReady m st) :
    st.firedEvents.length > 0 ∧ i ∈ st.firedEvents ∧ i ∉ rest ∧ i ∉ st.handled ∧
      (∀ x ∈ rest, x ∈ st.firedEvents) ∧
      (m.eventType i = false ∨ (st.preComputedAssignments i).isSome = true) := by
  have hperm := sortedCandidates_perm m st
  rw [hs] at hperm
  have hi : i ∈ st.firedEvents := hperm.subset (List.mem_cons_self _ _)
  have hnd : (i :: rest).Nodup := hperm.nodup_iff.mpr h.1
  refine ⟨List.length_pos_of_mem hi, hi, (List.nodup_cons.mp hnd).1,
    fun hh => h.2.1 i hh hi, fun x hx => hperm.subset (List.mem_cons_of_mem _ hx), ?_⟩
  by_cases hty : m.eventType i = true
  · exact Or.inr (h.2.2 i hi hty)
  · exact Or.inl (by simpa using hty)

theorem zero_delay_round {κ σ : Type} (m : ExecutableModel σ) (timeEnd : ℚ)
    (st : RootState κ σ) (i : Nat) (rest : List Nat) (hready : CandidatesReady m st)
    (hs : sortedCandidates m st = i :: rest) (hd : m.eventDelays i (roundModel m st i) = 0) :
    (m.eventType i = false ∨ (st.preComputedAssignments i).isSome = true) ∧
    appliedModel m st (roundModel m st i) i =
      (if m.eventType i = true then
        m.performEventAssignments i (roundModel m st i) ((st.preComputedAssignments i).getD [])
      else m.eventAssignments i (roundModel m st i)) ∧
    (drainStep m timeEnd st).cv.mModel =
      clearStatus (m.popState PopDiscard
        (retestAfter m (withModel (appliedModel m st (roundModel m st i) i) st.cv) timeEnd)) i ∧
    (drainStep m timeEnd st).handled = st.handled ++ [i] ∧
    (drainStep m timeEnd st).cv.mModel.eventStatusArray i = false ∧
    i ∉ (drainStep m timeEnd st).firedEvents ∧
    (drainStep m timeEnd st).firedEvents.Sublist rest ∧
    (drainStep m timeEnd st).cv.mAssignments.Sublist st.cv.mAssignments ∧
    (drainStep m timeEnd st).cv.mAssignmentTimes = st.cv.mAssignmentTimes := by
  obtain ⟨-, -, hirest, -, -, hpre⟩ := sorted_head m st i rest hs hready
  rw [drainStep_fire m timeEnd st i rest hs hd]
  obtain ⟨hmodel, htimes, hqueue⟩ := fireNow_frame m timeEnd st (roundModel m st i) i rest
  obtain ⟨hh, hf⟩ := fireNow_fired m timeEnd st (roundModel m st i) i rest
  refine ⟨hpre, ?_, hmodel, hh, ?_, fun hx => hirest (hf.subset hx), hf, hqueue, htimes⟩
  · unfold appliedModel
    rcases hpre with hty | hsome
    · simp [hty]
    · simp [hsome]
  · rw [hmodel]
    simp [clearStatus]

theorem zero_delay_state {κ σ : Type} (m : ExecutableModel σ) (cv : CvodeInterface κ σ)
    (timeEnd : ℚ) (rootsFound : List Int) (k i : Nat) (rest : List Nat)
    (hs : sortedCandidates m (handlerState m cv timeEnd rootsFound k) = i :: rest)
    (hd : m.eventDelays i (roundModel m (handlerState m cv timeEnd rootsFound k) i) = 0) :
    (m.eventType i = false ∨
      ((handlerState m cv timeEnd rootsFound k).preComputedAssignments i).isSome = true) ∧
    appliedModel m (handlerState m cv timeEnd rootsFound k)
        (roundModel m (handlerState m cv timeEnd rootsFound k) i) i =
      (if m.eventType i = true then
        m.performEventAssignments i (roundModel m (handlerState m cv timeEnd rootsFound k) i)
          (((handlerState m cv timeEnd rootsFound k).preComputedAssignments i).getD [])
      else m.eventAssignments i (roundModel m (handlerState m cv timeEnd rootsFound k) i)) ∧
    (handlerState m cv timeEnd rootsFound (k + 1)).cv.mModel =
      clearStatus (m.popState PopDiscard (retestAfter m
        (withModel (appliedModel m (handlerState m cv timeEnd rootsFound k)
          (roundModel m (handlerState m cv timeEnd rootsFound k) i) i)
          (handlerState m cv timeEnd rootsFound k).cv) timeEnd)) i ∧
    (handlerState m cv timeEnd rootsFound (k + 1)).handled =
      (handlerState m cv timeEnd rootsFound k).handled ++ [i] ∧
    (handlerState m cv timeEnd rootsFound (k + 1)).cv.mModel.eventStatusArray i = false ∧
    i ∉ (handlerState m cv timeEnd rootsFound (k + 1)).firedEvents ∧
    (handlerState m cv timeEnd rootsFound (k + 1)).firedEvents.Sublist rest ∧
    (handlerState m cv timeEnd rootsFound (k + 1)).cv.mAssignments.Sublist
      (handlerState m cv timeEnd rootsFound k).cv.mAssignments ∧
    (handlerState m cv timeEnd rootsFound (k + 1)).cv.mAssignmentTimes =
      (handlerState m cv timeEnd rootsFound k).cv.mAssignmentTimes := by
  have hready := handlerState_ready m cv timeEnd rootsFound k
  rw [handlerState_succ m cv timeEnd rootsFound k (sorted_head m _ i rest hs hready).1]
  exact zero_delay_round m timeEnd _ i rest hready hs hd

theorem delayed_round {κ σ : Type} (m : ExecutableModel σ) (timeEnd : ℚ)
    (st : RootState κ σ) (i : Nat) (rest : List Nat) (hready : CandidatesReady m st)
    (hs : sortedCandidates m st = i :: rest) (hd : m.eventDelays i (roundModel m st i) ≠ 0) :
    (m.eventType i = false ∨ (st.preComputedAssignments i).isSome = true) ∧
    (drainStep m timeEnd st).cv.mAssignments =
      st.cv.mAssignments ++
        [⟨timeEnd + m.eventDelays i (roundModel m st i), i, m.eventType i,
          if m.eventType i = true then st.preComputedAssignments i else none⟩] ∧
    (drainStep m timeEnd st).cv.mAssignmentTimes =
      (if timeEnd + m.eventDelays i (roundModel m st i) ∈ st.cv.mAssignmentTimes then
        st.cv.mAssignmentTimes
      else st.cv.mAssignmentTimes ++ [timeEnd + m.eventDelays i (roundModel m st i)]) ∧
    (drainStep m timeEnd st).cv.mModel = clearStatus (roundModel m st i) i ∧
    (drainStep m timeEnd st).cv.mModel.eventStatusArray i = false ∧
    (drainStep m timeEnd st).firedEvents = rest ∧ i ∉ rest ∧
    (drainStep m timeEnd st).handled = st.handled ∧ i ∉ st.handled := by
  obtain ⟨-, -, hirest, hih, -, hpre⟩ := sorted_head m st i rest hs hready
  rw [drainStep_schedule m timeEnd st i rest hs hd]
  have hmodel : (scheduleLater m timeEnd st (roundModel m st i) i rest
      (m.eventDelays i (roundModel m st i))).cv.mModel = clearStatus (roundModel m st i) i := by
    unfold scheduleLater
    simp only
    split_ifs <;> rfl
  refine ⟨hpre, ?_, scheduleLater_times m timeEnd st _ i rest _, hmodel, ?_, rfl, hirest, rfl,
    hih⟩
  · rw [scheduleLater_queue]
    unfold pendingFor PendingAssignment.new
    rcases hpre with hty | hsome
    · simp [hty]
    · by_cases hty : m.eventType i = true
      · simp [hty, hsome]
      · simp [hty]
  · rw [hmodel]
    simp [clearStatus]

theorem drainStep_not_handled {κ σ : Type} (m : ExecutableModel σ) (timeEnd : ℚ) (i : Nat)
    (st : RootState κ σ) (hh : i ∉ st.handled) (hf : i ∉ st.firedEvents) :
    i ∉ (drainStep m timeEnd st).handled ∧ i ∉ (drainStep m timeEnd st).firedEvents := by
  rcases drainStep_cases m timeEnd st with ⟨_, h1, h2⟩ | ⟨cur, rest, hs, hcase⟩
  · rw [h1, h2]; exact ⟨hh, List.not_mem_nil i⟩
  · have hperm := sortEvents_perm m st.cv.mModel st.firedEvents
    rw [hs] at hperm
    have hcur : cur ≠ i := fun h => hf (h ▸ hperm.subset (List.mem_cons_self _ _))
    have hrest : i ∉ rest := fun h => hf (hperm.subset (List.mem_cons_of_mem _ h))
    rcases hcase with ⟨h1, h2⟩ | ⟨h1, h2⟩
    · refine ⟨?_, fun h => hrest (h2.subset h)⟩
      rw [h1, List.mem_append, List.mem_singleton]
      rintro (h | h)
      · exact hh h
      · exact hcur h.symm
    · rw [h1, h2]; exact ⟨hh, hrest⟩

theorem drainLoop_not_handled {κ σ : Type} (m : ExecutableModel σ) (timeEnd : ℚ) (i : Nat) :
    ∀ (fuel : Nat) (st : RootState κ σ), i ∉ st.handled → i ∉ st.firedEvents →
      i ∉ (drainLoop m timeEnd fuel st).handled
  | 0, _, hh, _ => hh
  | fuel + 1, st, hh, hf => by
    rw [drainLoop]
    split_ifs
    · exact drainLoop_not_handled m timeEnd i fuel _ (drainStep_not_handled m timeEnd i st hh hf).1
        (drainStep_not_handled m timeEnd i st hh hf).2
    · exact hh

theorem delayed_state {κ σ : Type} (m : ExecutableModel σ) (cv : CvodeInterface κ σ)
    (timeEnd : ℚ) (rootsFound : List Int) (k i : Nat) (rest : List Nat)
    (hs : sortedCandidates m (handlerState m cv timeEnd rootsFound k) = i :: rest)
    (hd : m.eventDelays i (roundModel m (handlerState m cv timeEnd rootsFound k) i) ≠ 0) :
    (m.eventType i = false ∨
      ((handlerState m cv timeEnd rootsFound k).preComputedAssignments i).isSome = true) ∧
    (handlerState m cv timeEnd rootsFound (k + 1)).cv.mAssignments =
      (handlerState m cv timeEnd rootsFound k).cv.mAssignments ++
        [⟨timeEnd + m.eventDelays i (roundModel m (handlerState m cv timeEnd rootsFound k) i), i,
          m.eventType i,
          if m.eventType i = true then
            (handlerState m cv timeEnd rootsFound k).preComputedAssignments i
          else none⟩] ∧
    (handlerState m cv timeEnd rootsFound (k + 1)).cv.mAssignmentTimes =
      (if timeEnd + m.eventDelays i (roundModel m (handlerState m cv timeEnd rootsFound k) i) ∈
          (handlerState m cv timeEnd rootsFound k).cv.mAssignmentTimes then
        (handlerState m cv timeEnd rootsFound k).cv.mAssignmentTimes
      else (handlerState m cv timeEnd rootsFound k).cv.mAssignmentTimes ++
        [timeEnd + m.eventDelays i (roundModel m (handlerState m cv timeEnd rootsFound k) i)]) ∧
    (handlerState m cv timeEnd rootsFound (k + 1)).cv.mModel =
      clearStatus (roundModel m (handlerState m cv timeEnd rootsFound k) i) i ∧
    (handlerState m cv timeEnd rootsFound (k + 1)).cv.mModel.eventStatusArray i = false ∧
    (handlerState m cv timeEnd rootsFound (k + 1)).firedEvents = rest ∧ i ∉ rest ∧
    (handlerState m cv timeEnd rootsFound (k + 1)).handled =
      (handlerState m cv timeEnd rootsFound k).handled ∧
    i ∉ (drainRoots m cv timeEnd rootsFound).handled := by
  have hready := handlerState_ready m cv timeEnd rootsFound k
  have hsucc := handlerState_succ m cv timeEnd rootsFound k (sorted_head m _ i rest hs hready).1
  obtain ⟨h1, h2, h3, h4, h5, h6, h7, h8, h9⟩ := delayed_round m timeEnd _ i rest hready hs hd
  rw [hsucc]
  refine ⟨h1, h2, h3, h4, h5, h6, h7, h8, ?_⟩
  rw [drainRoots_from m cv timeEnd rootsFound (k + 1), hsucc]
  apply drainLoop_not_handled
  · rw [h8]; exact h9
  · rw [h6]; exact h7

/-! ## Cascades -/

/-- C19: the code breaks the claim. In `cascadeModel` with `y = 0` and a root of event 0 at
the time 1, the first round fires event 0 (`y := 1`), and the retest after it reports event
1 as newly true and not handled. Event 1 does not become a candidate: the candidate list is
empty after the round, the loop is left with the handled list `[0]`, the queue is empty and
`y` is 1, so the assignment `y := y + 10` of event 1 is neither applied nor scheduled in
the call. -/
theorem cascade_event_lost :
    sortedCandidates cascadeModel
      (handlerState cascadeModel (driverOf (idleData 0) [0] [] []) 1 [1, 0] 0) = [0] ∧
    (retestEvents cascadeModel
      (withModel (appliedModel cascadeModel
          (handlerState cascadeModel (driverOf (idleData 0) [0] [] []) 1 [1, 0] 0)
          (roundModel cascadeModel
            (handlerState cascadeModel (driverOf (idleData 0) [0] [] []) 1 [1, 0] 0) 0) 0)
        (handlerState cascadeModel (driverOf (idleData 0) [0] [] []) 1 [1, 0] 0).cv)
      1 [0] false []).2.1 = [1] ∧
    (handlerState cascadeModel (driverOf (idleData 0) [0] [] []) 1 [1, 0] 1).firedEvents = [] ∧
    (drainRoots cascadeModel (driverOf (idleData 0) [0] [] []) 1 [1, 0]).handled = [0] ∧
    (drainRoots cascadeModel (driverOf (idleData 0) [0] [] []) 1 [1, 0]).cv.mAssignments = [] ∧
    (drainRoots cascadeModel (driverOf (idleData 0) [0] [] []) 1 [1, 0]).cv.mModel.user = 1 := by
  refine ⟨by decide!, by decide!, by decide!, by decide!, by decide!, by decide!⟩

/-! ## The chatter guard -/

theorem afterCVode_strikes {κ σ : Type} (m : ExecutableModel σ) (s : Sundials κ σ)
    (nResult : Int) (v v1 : StepVars) (cv cv1 : CvodeInterface κ σ)
    (h : afterCVode m s nResult v cv = .ok (v1, cv1)) :
    v1.strikes =
      if nResult = CV_ROOT_RETURN ∧ cv.mFollowEvents = true then strikesAfterRoot v cv
      else v.strikes := by
  unfold afterCVode at h
  unfold strikesAfterRoot tooCloseToStart
  by_cases hroot : nResult = CV_ROOT_RETURN ∧ cv.mFollowEvents = true
  · rw [if_pos hroot] at h ⊢
    simp only at h
    by_cases hfar : |v.timeEnd - cv.mLastEvent| > cv.mRelTol
    · simp only [hfar, decide_True, if_true, true_or] at h ⊢
      split at h
      · simp only [Except.ok.injEq, Prod.mk.injEq] at h
        rw [← h.1]
      · cases h
    · simp only [hfar, decide_False, Bool.false_eq_true, if_false, false_or] at h ⊢
      split_ifs at h
      · split at h
        · simp only [Except.ok.injEq, Prod.mk.injEq] at h
          rw [← h.1]
        · cases h
      · simp only [Except.ok.injEq, Prod.mk.injEq] at h
        rw [← h.1]
  · rw [if_neg hroot] at h ⊢
    split_ifs at h
    · simp only [Except.ok.injEq, Prod.mk.injEq] at h
      rw [← h.1]
    · split at h
      · simp only [Except.ok.injEq, Prod.mk.injEq] at h
        rw [← h.1]
      · cases h

theorem endRound_strikes {κ σ : Type} (m : ExecutableModel σ) (s : Sundials κ σ)
    (v v1 : StepVars) (cv cv1 : CvodeInterface κ σ)
    (h : endRound m s v cv = .ok (.continues v1 cv1)) : v1.strikes = v.strikes := by
  unfold endRound at h
  simp only at h
  split at h
  · simp only [Except.ok.injEq, Round.continues.injEq] at h
    rw [← h.1]
    split_ifs <;> rfl
  · cases h

theorem oneStepRound_strikes {κ σ : Type} (m : ExecutableModel σ) (s : Sundials κ σ)
    (hstep : ℚ) (v v2 : StepVars) (cv cv2 : CvodeInterface κ σ)
    (h : oneStepRound m s hstep v cv = .ok (.continues v2 cv2)) :
    ∃ nResult v1 cv1, roundCall m s hstep v cv = some (nResult, v1, cv1) ∧
      v1.strikes = v.strikes ∧
      v2.strikes =
        if nResult = CV_ROOT_RETURN ∧ cv1.mFollowEvents = true then strikesAfterRoot v1 cv1
        else v1.strikes := by
  unfold oneStepRound at h
  unfold roundCall
  split_ifs at h ⊢
  · cases h
  · cases h
  · split at h
    · cases h
    · rename_i c0 hc0
      simp only at h
      split at h
      · cases h
      · rename_i r hr
        obtain ⟨r1, r2⟩ := r
        refine ⟨_, _, _, rfl, rfl, ?_⟩
        rw [endRound_strikes m s _ _ _ _ h]
        exact afterCVode_strikes m s _ _ _ _ _ hr

theorem root_entry_counted {κ σ : Type} (v : StepVars) (cv : CvodeInterface κ σ) :
    handlesRoot v cv =
      decide (decide (|v.timeEnd - cv.mLastEvent| ≤ cv.mRelTol) = false ∨
        (if decide (|v.timeEnd - cv.mLastEvent| ≤ cv.mRelTol) = true then v.strikes - 1 else 3) > 0) ∧
    strikesAfterRoot v cv =
      (if decide (|v.timeEnd - cv.mLastEvent| ≤ cv.mRelTol) = true then v.strikes - 1 else 3) := by
  unfold handlesRoot strikesAfterRoot tooCloseToStart
  by_cases hfar : |v.timeEnd - cv.mLastEvent| > cv.mRelTol
  · have hle : ¬ |v.timeEnd - cv.mLastEvent| ≤ cv.mRelTol := not_le.mpr hfar
    simp [hfar, hle]
  · have hle : |v.timeEnd - cv.mLastEvent| ≤ cv.mRelTol := not_lt.mp hfar
    simp [hfar, hle]

theorem roundCall_strikes {κ σ : Type} (m : ExecutableModel σ) (s : Sundials κ σ) (hstep : ℚ)
    (v : StepVars) (cv : CvodeInterface κ σ) (n : Int) (v1 : StepVars) (cv1 : CvodeInterface κ σ)
    (hcall : roundCall m s hstep v cv = some (n, v1, cv1)) : v1.strikes = v.strikes := by
  unfold roundCall at hcall
  split_ifs at hcall
  split at hcall
  · cases hcall
  · simp only [Option.some.injEq] at hcall
    rw [← (Prod.mk.inj (Prod.mk.inj hcall).2).1]

theorem rootTrace_counted {κ σ : Type} (m : ExecutableModel σ) (s : Sundials κ σ) (hstep : ℚ) :
    ∀ (fuel : Nat) (v : StepVars) (cv : CvodeInterface κ σ),
      Counted v.strikes (rootTrace m s hstep fuel v cv)
  | 0, _, _ => trivial
  | fuel + 1, v, cv => by
    rw [rootTrace]
    split_ifs with hloop
    · cases hround : oneStepRound m s hstep v cv with
      | error e =>
        simp only
        cases hcall : roundCall m s hstep v cv with
        | none => exact trivial
        | some c =>
          obtain ⟨n, v1, cv1⟩ := c
          have hv1 := roundCall_strikes m s hstep v cv n v1 cv1 hcall
          simp only
          split_ifs
          · exact ⟨by rw [← hv1]; exact (root_entry_counted v1 cv1).1, trivial⟩
          · exact trivial
      | ok r =>
        cases r with
        | returned value cv2 =>
          simp only
          cases hcall : roundCall m s hstep v cv with
          | none => exact trivial
          | some c =>
            obtain ⟨n, v1, cv1⟩ := c
            have hv1 := roundCall_strikes m s hstep v cv n v1 cv1 hcall
            simp only
            split_ifs
            · exact ⟨by rw [← hv1]; exact (root_entry_counted v1 cv1).1, trivial⟩
            · exact trivial
        | continues v2 cv2 =>
          obtain ⟨n, v1, cv1, hcall, hv1, hv2⟩ := oneStepRound_strikes m s hstep v v2 cv cv2 hround
          have ih := rootTrace_counted m s hstep fuel v2 cv2
          simp only [hcall]
          split_ifs with hroot
          · rw [if_pos hroot] at hv2
            rw [hv2, (root_entry_counted v1 cv1).2, hv1] at ih
            exact ⟨by rw [← hv1]; exact (root_entry_counted v1 cv1).1, ih⟩
          · rw [if_neg hroot, hv1] at hv2
            rw [hv2] at ih
            simpa using ih
    · exact trivial

theorem counted_suffix : ∀ (l1 l : List (Bool × Bool)) (k : Int), k ≤ 3 → Counted k (l1 ++ l) →
    ∃ k1 : Int, k1 ≤ 3 ∧ Counted k1 l
  | [], l, k, hk, h => ⟨k, hk, h⟩
  | e :: l1, l, k, hk, h => by
    have h2 : Counted (if e.1 then k - 1 else 3) (l1 ++ l) := h.2
    refine counted_suffix l1 l _ ?_ h2
    split_ifs
    · omega
    · exact le_refl _

theorem counted_run : ∀ (run l2 : List (Bool × Bool)) (k : Int), Counted k (run ++ l2) →
    (∀ e ∈ run, e.1 = true) →
    ∀ (j : Nat) (e : Bool × Bool), run[j]? = some e → e.2 = decide (k - (j + 1) > 0)
  | [], _, _, _, _, j, e, he => by simp at he
  | e0 :: run, l2, k, h, hall, j, e, he => by
    have h0 : e0.1 = true := hall e0 (List.mem_cons_self _ _)
    have h1 : e0.2 = decide (e0.1 = false ∨ (if e0.1 then k - 1 else 3) > 0) := h.1
    have h2 : Counted (if e0.1 then k - 1 else 3) (run ++ l2) := h.2
    rw [h0] at h1 h2
    simp only [if_true, Bool.true_eq_false, false_or] at h1 h2
    cases j with
    | zero =>
      simp only [List.getElem?_cons_zero, Option.some.injEq] at he
      rw [← he, h1]
      simp
    | succ j =>
      simp only [List.getElem?_cons_succ] at he
      have := counted_run run l2 (k - 1) h2 (fun x hx => hall x (List.mem_cons_of_mem _ hx)) j e he
      rw [this]
      congr 1
      push_cast
      apply propext
      constructor <;> intro hh <;> linarith

theorem countP_le_two {α : Type} (p : α → Bool) :
    ∀ (run : List α), (∀ (j : Nat) (e : α), 2 ≤ j → run[j]? = some e → p e = false) →
      run.countP p ≤ 2
  | [], _ => by simp
  | [_], _ => by
    rw [List.countP_cons, List.countP_nil]
    split_ifs <;> omega
  | a :: b :: rest, h => by
    have hrest : rest.countP p = 0 := by
      rw [List.countP_eq_zero]
      intro e he
      obtain ⟨j, hj, hje⟩ := List.getElem_of_mem he
      have := h (j + 2) e (by omega) (by
        simp only [List.getElem?_cons_succ]
        rw [List.getElem?_eq_getElem hj, hje])
      simp [this]
    rw [List.countP_cons, List.countP_cons, hrest]
    split_ifs <;> omega

theorem counted_guard (l1 run l2 : List (Bool × Bool)) (k : Int) (hk : k ≤ 3)
    (h : Counted k (l1 ++ run ++ l2)) (hrun : ∀ e ∈ run, e.1 = true) :
    run.countP (fun e => e.2) ≤ 2 ∧
      ∀ (j : Nat) (e : Bool × Bool), 2 ≤ j → run[j]? = some e → e.2 = false := by
  rw [List.append_assoc] at h
  obtain ⟨k1, hk1, h1⟩ := counted_suffix l1 (run ++ l2) k hk h
  have hidx : ∀ (j : Nat) (e : Bool × Bool), 2 ≤ j → run[j]? = some e → e.2 = false := by
    intro j e hj he
    rw [counted_run run l2 k1 h1 hrun j e he]
    have : ¬ (k1 - ((j : Int) + 1) > 0) := by
      have : (2 : Int) ≤ (j : Int) := by exact_mod_cast hj
      omega
    simp [this]
  exact ⟨countP_le_two _ run hidx, hidx⟩

theorem afterCVode_root {κ σ : Type} (m : ExecutableModel σ) (s : Sundials κ σ)
    (v : StepVars) (cv : CvodeInterface κ σ) (hf : cv.mFollowEvents = true) :
    afterCVode m s CV_ROOT_RETURN v cv =
      if handlesRoot v cv = true then
        match reStart m s (handleRootsFound m s cv v.timeEnd) v.timeEnd with
        | .ok cv1 => .ok (withStrikes (strikesAfterRoot v cv) v, withLastEvent v.timeEnd cv1)
        | .error e => .error e
      else .ok (withStrikes (strikesAfterRoot v cv) v, cv) := by
  unfold afterCVode handlesRoot strikesAfterRoot tooCloseToStart withStrikes withLastEvent
  rw [if_pos ⟨rfl, hf⟩]
  by_cases hfar : |v.timeEnd - cv.mLastEvent| > cv.mRelTol
  · simp only [hfar, decide_True, if_true, true_or]
  · simp only [hfar, decide_False, Bool.false_eq_true, if_false, false_or, decide_eq_true_eq]

theorem afterCVode_unhandled {κ σ : Type} (m : ExecutableModel σ) (s : Sundials κ σ)
    (v : StepVars) (cv : CvodeInterface κ σ) (hf : cv.mFollowEvents = true)
    (hh : handlesRoot v cv = false) :
    afterCVode m s CV_ROOT_RETURN v cv = .ok (withStrikes (strikesAfterRoot v cv) v, cv) := by
  rw [afterCVode_root m s v cv hf, hh]
  rfl

theorem oneStepRound_unhandled {κ σ : Type} (m : ExecutableModel σ) (s : Sundials κ σ)
    (hstep : ℚ) (v v1 : StepVars) (cv cv1 : CvodeInterface κ σ)
    (hcall : roundCall m s hstep v cv = some (CV_ROOT_RETURN, v1, cv1))
    (hf : cv1.mFollowEvents = true) (hh : handlesRoot v1 cv1 = false) :
    oneStepRound m s hstep v cv = endRound m s (withStrikes (strikesAfterRoot v1 cv1) v1) cv1 := by
  unfold roundCall at hcall
  unfold oneStepRound
  split_ifs at hcall ⊢
  split at hcall
  · cases hcall
  · rename_i c0 hc0
    simp only [Option.some.injEq] at hcall
    simp only [hcall, afterCVode_unhandled m s v1 cv1 hf hh]

/-- C11: in the list of the root returns of a call of `oneStep` (those of its rounds whose
integrator call returns `CV_ROOT_RETURN` while events are followed), of any run of
consecutive returns that each satisfy `|timeEnd - mLastEvent| ≤ mRelTol` at most two are
handled, and none from the third on. A root that is not handled leaves the branch with the
driver as it is (no `handleRootsFound`, no `reStart`, `mLastEvent` unchanged) and the round
goes on to its end as every round does, so the loop continues; a root that is handled goes
through `handleRootsFound`, `reStart` and `mLastEvent = timeEnd`. -/
theorem chatter_guard {κ σ : Type} (m : ExecutableModel σ) (s : Sundials κ σ) (fuel : Nat)
    (cv : CvodeInterface κ σ) (t0 hstep : ℚ) (l1 run l2 : List (Bool × Bool))
    (htrace : oneStepTrace m s fuel cv t0 hstep = l1 ++ run ++ l2)
    (hrun : ∀ e ∈ run, e.1 = true) :
    run.countP (fun e => e.2) ≤ 2 ∧
    (∀ (j : Nat) (e : Bool × Bool), 2 ≤ j → run[j]? = some e → e.2 = false) ∧
    (∀ (v : StepVars) (c : CvodeInterface κ σ), c.mFollowEvents = true →
      handlesRoot v c = false →
      afterCVode m s CV_ROOT_RETURN v c = .ok (withStrikes (strikesAfterRoot v c) v, c)) ∧
    (∀ (v v1 : StepVars) (c c1 : CvodeInterface κ σ),
      roundCall m s hstep v c = some (CV_ROOT_RETURN, v1, c1) → c1.mFollowEvents = true →
      handlesRoot v1 c1 = false →
      oneStepRound m s hstep v c = endRound m s (withStrikes (strikesAfterRoot v1 c1) v1) c1) ∧
    (∀ (v : StepVars) (c : CvodeInterface κ σ), c.mFollowEvents = true →
      handlesRoot v c = true →
      afterCVode m s CV_ROOT_RETURN v c =
        match reStart m s (handleRootsFound m s c v.timeEnd) v.timeEnd with
        | .ok c1 => .ok (withStrikes (strikesAfterRoot v c) v, withLastEvent v.timeEnd c1)
        | .error e => .error e) := by
  have hcounted : Counted 3 (l1 ++ run ++ l2) := by
    rw [← htrace]
    exact rootTrace_counted m s hstep fuel ⟨0, t0, t0 + hstep, 3⟩ _
  obtain ⟨h1, h2⟩ := counted_guard l1 run l2 3 (le_refl _) hcounted hrun
  refine ⟨h1, h2, fun v c hf hh => afterCVode_unhandled m s v c hf hh,
    fun v v1 c c1 hcall hf hh => oneStepRound_unhandled m s hstep v v1 c c1 hcall hf hh, ?_⟩
  intro v c hf hh
  rw [afterCVode_root m s v c hf, if_pos hh]

/-- C11 for an integrator that stops at a root at the time `1 / 2` in every call, in
`oneStep(0, 1)`: the first root lies away from `mLastEvent = 0` and is handled; the four
that follow are within the tolerance of it, and the first two of them are handled. -/
theorem chatter_guard_witness :
    oneStepTrace (idleModel ℚ 0 [0]) (constSundials ℚ CV_ROOT_RETURN (fun _ => 1 / 2) []) 5
        (driverOf (idleData 0) [0] [] []) 0 1 =
      [(false, true)] ++ [(true, true), (true, true), (true, false), (true, false)] ++ [] ∧
    List.countP (fun (e : Bool × Bool) => e.2)
      [(true, true), (true, true), (true, false), (true, false)] ≤ 2 :=
  ⟨by decide!,
    (chatter_guard (idleModel ℚ 0 [0]) (constSundials ℚ CV_ROOT_RETURN (fun _ => 1 / 2) []) 5
      (driverOf (idleData 0) [0] [] []) 0 1 [(false, true)]
      [(true, true), (true, true), (true, false), (true, false)] [] (by decide!)
      (by decide)).1⟩

/-! ## The chatter rule of the specification -/

theorem afterCVode_eq_chatterRule {κ σ : Type} (m : ExecutableModel σ) (s : Sundials κ σ)
    (v : StepVars) (cv : CvodeInterface κ σ) (hf : cv.mFollowEvents = true) :
    afterCVode m s CV_ROOT_RETURN v cv = chatterRule m s v cv := by
  rw [afterCVode_root m s v cv hf]
  unfold chatterRule
  obtain ⟨hh, hs⟩ := root_entry_counted v cv
  simp only [hs]
  by_cases hc : handlesRoot v cv = true
  · have hc2 := hc
    rw [hh, decide_eq_true_eq] at hc2
    rw [if_pos hc, if_pos hc2]
    rfl
  · have hc2 := hc
    rw [hh, decide_eq_true_eq] at hc2
    rw [if_neg hc, if_neg hc2]

/-- C21: for a root return with `mFollowEvents` true, the branch of `oneStep` is the chatter
rule of the specification, as a function of the local variables and the driver. In the
terms of the source: the root is handled (`handleRootsFound`, `reStart`,
`mLastEvent = timeEnd`) if and only if `|timeEnd - mLastEvent| > mRelTol` or the strike
counter is above 0 after the update, and is otherwise left alone with the driver as it is;
the update sets the counter to 3 when `|timeEnd - mLastEvent| > mRelTol` and takes 1 off
it otherwise. -/
theorem chatter_rule_refined {κ σ : Type} (m : ExecutableModel σ) (s : Sundials κ σ)
    (v : StepVars) (cv : CvodeInterface κ σ) (hf : cv.mFollowEvents = true) :
    afterCVode m s CV_ROOT_RETURN v cv = chatterRule m s v cv ∧
    afterCVode m s CV_ROOT_RETURN v cv =
      (if |v.timeEnd - cv.mLastEvent| > cv.mRelTol ∨ strikesAfterRoot v cv > 0 then
        match reStart m s (handleRootsFound m s cv v.timeEnd) v.timeEnd with
        | .ok cv1 => .ok (withStrikes (strikesAfterRoot v cv) v, withLastEvent v.timeEnd cv1)
        | .error e => .error e
      else .ok (withStrikes (strikesAfterRoot v cv) v, cv)) ∧
    strikesAfterRoot v cv =
      (if |v.timeEnd - cv.mLastEvent| > cv.mRelTol then 3 else v.strikes - 1) := by
  refine ⟨afterCVode_eq_chatterRule m s v cv hf, ?_, ?_⟩
  · rw [afterCVode_root m s v cv hf]
    unfold handlesRoot tooCloseToStart
    simp only [decide_eq_true_eq]
  · unfold strikesAfterRoot tooCloseToStart
    simp only [decide_eq_true_eq]

/-- C21 at a root at the time `1 / 2` with the counter at 1, in the driver `onePending`,
whose last event was at the time 0 and whose tolerance is `1 / 10 ^ 6`: the code and the
rule agree. -/
theorem chatter_rule_refined_witness :
    onePending.mFollowEvents = true ∧
    afterCVode rootModel (constSundials ℚ CV_ROOT_RETURN id [0, 1]) CV_ROOT_RETURN
        ⟨1 / 2, 0, 1, 1⟩ onePending =
      chatterRule rootModel (constSundials ℚ CV_ROOT_RETURN id [0, 1]) ⟨1 / 2, 0, 1, 1⟩
        onePending :=
  ⟨rfl, (chatter_rule_refined rootModel (constSundials ℚ CV_ROOT_RETURN id [0, 1])
    ⟨1 / 2, 0, 1, 1⟩ onePending rfl).1⟩

/-! ## The schedule is sorted -/

theorem stdSort_ascending (ts : List ℚ) :
    (stdSort (fun a b => decide (a < b)) ts).Pairwise (fun a b => a ≤ b) := by
  have h := stdSort_ordered (fun (a b : ℚ) => decide (a < b)) (fun _ => True)
    (fun a b _ _ hab => by
      have : a < b := of_decide_eq_true hab
      exact decide_eq_false (not_lt.mpr (le_of_lt this)))
    (fun a b c _ _ _ hab hbc => by
      have h1 : ¬ a < b := of_decide_eq_false hab
      have h2 : ¬ b < c := of_decide_eq_false hbc
      exact decide_eq_false (not_lt.mpr ((not_lt.mp h2).trans (not_lt.mp h1))))
    ts (fun _ _ => trivial)
  exact h.imp (fun hba => not_lt.mp (of_decide_eq_false hba))

theorem handleRootsForTime_ascending {κ σ : Type} (m : ExecutableModel σ) (s : Sundials κ σ)
    (cv : CvodeInterface κ σ) (timeEnd : ℚ) (rootsFound : List Int) :
    (handleRootsForTime m s cv timeEnd rootsFound).mAssignmentTimes.Pairwise
      (fun a b => a ≤ b) := by
  unfold handleRootsForTime
  simp only [reInit_snd]
  split_ifs <;> exact stdSort_ascending _

theorem nextTarget_ascending {κ σ : Type} (cv : CvodeInterface κ σ) (tout : ℚ)
    (h : cv.mAssignmentTimes.Pairwise (fun a b => a ≤ b)) :
    (nextTarget cv tout).2.mAssignmentTimes.Pairwise (fun a b => a ≤ b) := by
  unfold nextTarget
  split
  · rename_i t ts hts
    rw [hts] at h
    split_ifs
    · exact (List.pairwise_cons.mp h).2
    · rw [hts]; exact h
  · exact h

theorem nextTarget_least {κ σ : Type} (cv : CvodeInterface κ σ) (tout : ℚ)
    (h : cv.mAssignmentTimes.Pairwise (fun a b => a ≤ b))
    (htake : takesScheduled cv tout = true) :
    (nextTarget cv tout).1 ∈ cv.mAssignmentTimes ∧
      (∀ x ∈ cv.mAssignmentTimes, (nextTarget cv tout).1 ≤ x) ∧
      cv.mAssignmentTimes =
        (nextTarget cv tout).1 :: (nextTarget cv tout).2.mAssignmentTimes := by
  unfold takesScheduled at htake
  unfold nextTarget
  split at htake
  · rename_i t ts hts
    have hlt : t < tout := of_decide_eq_true htake
    rw [hts] at h
    simp only [hts, hlt, if_true]
    refine ⟨List.mem_cons_self _ _, ?_, trivial⟩
    intro x hx
    rcases List.mem_cons.mp hx with hx | hx
    · rw [hx]
    · exact (List.pairwise_cons.mp h).1 x hx
  · cases htake

theorem afterCVode_ascending {κ σ : Type} (m : ExecutableModel σ) (s : Sundials κ σ)
    (nResult : Int) (v v1 : StepVars) (cv cv1 : CvodeInterface κ σ)
    (h : afterCVode m s nResult v cv = .ok (v1, cv1))
    (hs : cv.mAssignmentTimes.Pairwise (fun a b => a ≤ b)) :
    cv1.mAssignmentTimes.Pairwise (fun a b => a ≤ b) := by
  by_cases hroot : nResult = CV_ROOT_RETURN ∧ cv.mFollowEvents = true
  · obtain ⟨hn, hf⟩ := hroot
    subst hn
    rw [afterCVode_root m s v cv hf] at h
    split_ifs at h
    · cases hr : reStart m s (handleRootsFound m s cv v.timeEnd) v.timeEnd with
      | error e => rw [hr] at h; cases h
      | ok cx =>
        rw [hr] at h
        simp only [Except.ok.injEq, Prod.mk.injEq] at h
        rw [← h.2]
        show cx.mAssignmentTimes.Pairwise _
        rw [(reStart_queue m s _ cx _ hr).2.1]
        exact handleRootsForTime_ascending m s cv v.timeEnd _
    · simp only [Except.ok.injEq, Prod.mk.injEq] at h
      rw [← h.2]; exact hs
  · unfold afterCVode at h
    rw [if_neg hroot] at h
    split_ifs at h
    · simp only [Except.ok.injEq, Prod.mk.injEq] at h
      rw [← h.2]; exact hs
    · split at h
      · simp only [Except.ok.injEq, Prod.mk.injEq] at h
        rw [← h.2]; exact hs
      · cases h

theorem oneStepRound_ascending {κ σ : Type} (m : ExecutableModel σ) (s : Sundials κ σ)
    (hstep : ℚ) (v v1 : StepVars) (cv cv1 : CvodeInterface κ σ)
    (h : oneStepRound m s hstep v cv = .ok (.continues v1 cv1))
    (hs : cv.mAssignmentTimes.Pairwise (fun a b => a ≤ b)) :
    cv1.mAssignmentTimes.Pairwise (fun a b => a ≤ b) := by
  obtain ⟨c0, r, hb, ha, he⟩ := oneStepRound_continues m s hstep v v1 cv cv1 h
  obtain ⟨r1, r2⟩ := r
  have h0 : c0.mAssignmentTimes.Pairwise (fun a b => a ≤ b) := by
    rw [(beginRound_ok m s v cv c0 hb).2]; exact hs
  have h1 : (callCVode s v c0).2.2.mAssignmentTimes.Pairwise (fun a b => a ≤ b) := by
    rw [(callCVode_vars s v c0).2.2]
    exact nextTarget_ascending c0 v.tout h0
  have h2 := afterCVode_ascending m s _ _ r1 _ r2 ha h1
  rw [(endRound_ok m s r1 v1 r2 cv1 he).2.2.2]
  exact h2

theorem roundStart_schedule {κ σ : Type} (m : ExecutableModel σ) (s : Sundials κ σ)
    (hstep : ℚ) (v : StepVars) (cv c0 : CvodeInterface κ σ)
    (h : roundStart m s hstep v cv = some c0) :
    c0.mAssignmentTimes = cv.mAssignmentTimes := by
  unfold roundStart at h
  split_ifs at h
  split at h
  · cases h
  · rename_i c1 hc1
    simp only [Option.some.injEq] at h
    rw [← h]
    exact (beginRound_ok m s v cv c1 hc1).2

theorem targetTrace_least {κ σ : Type} (m : ExecutableModel σ) (s : Sundials κ σ) (hstep : ℚ) :
    ∀ (fuel : Nat) (v : StepVars) (cv : CvodeInterface κ σ),
      cv.mAssignmentTimes.Pairwise (fun a b => a ≤ b) →
      ∀ e ∈ targetTrace m s hstep fuel v cv, e.1 ∈ e.2 ∧ ∀ x ∈ e.2, e.1 ≤ x
  | 0, _, _, _, e, he => by simp [targetTrace] at he
  | fuel + 1, v, cv, hs, e, he => by
    rw [targetTrace] at he
    split_ifs at he with hloop
    · have hhere : ∀ e ∈ (match roundStart m s hstep v cv with
          | some c0 =>
            if takesScheduled c0 v.tout then [((nextTarget c0 v.tout).1, c0.mAssignmentTimes)]
            else []
          | none => ([] : List (ℚ × List ℚ))), e.1 ∈ e.2 ∧ ∀ x ∈ e.2, e.1 ≤ x := by
        intro e he
        cases hst : roundStart m s hstep v cv with
        | none => rw [hst] at he; simp at he
        | some c0 =>
          rw [hst] at he
          simp only at he
          split_ifs at he with htake
          · rw [List.mem_singleton] at he
            rw [he]
            have h0 : c0.mAssignmentTimes.Pairwise (fun a b => a ≤ b) := by
              rw [roundStart_schedule m s hstep v cv c0 hst]; exact hs
            exact ⟨(nextTarget_least c0 v.tout h0 htake).1, (nextTarget_least c0 v.tout h0 htake).2.1⟩
          · simp at he
      simp only at he
      cases hround : oneStepRound m s hstep v cv with
      | error err => rw [hround] at he; exact hhere e he
      | ok r =>
        cases r with
        | returned value cv2 => rw [hround] at he; exact hhere e he
        | continues v2 cv2 =>
          rw [hround] at he
          simp only at he
          rcases List.mem_append.mp he with he | he
          · exact hhere e he
          · exact targetTrace_least m s hstep fuel v2 cv2
              (oneStepRound_ascending m s hstep v v2 cv cv2 hround hs) e he
    · simp at he

/-- C22: the schedule is in ascending order after every call of `handleRootsForTime`, and
an ascending schedule is ascending after `oneStep` has erased its first element for the
target of an integrator call, and after every round of the loop of `oneStep`. Hence, in a
call of `oneStep` that starts with an ascending schedule, every target that a round takes
from the schedule is in the schedule of that moment and is no more than any time in it. -/
theorem schedule_sorted {κ σ : Type} (m : ExecutableModel σ) (s : Sundials κ σ) (fuel : Nat)
    (cv : CvodeInterface κ σ) (t0 hstep : ℚ)
    (hs : cv.mAssignmentTimes.Pairwise (fun a b => a ≤ b)) :
    (∀ (c : CvodeInterface κ σ) (timeEnd : ℚ) (rootsFound : List Int),
      (handleRootsForTime m s c timeEnd rootsFound).mAssignmentTimes.Pairwise
        (fun a b => a ≤ b)) ∧
    (∀ (c : CvodeInterface κ σ) (tout : ℚ), c.mAssignmentTimes.Pairwise (fun a b => a ≤ b) →
      (nextTarget c tout).2.mAssignmentTimes.Pairwise (fun a b => a ≤ b)) ∧
    (∀ (v v1 : StepVars) (c c1 : CvodeInterface κ σ),
      c.mAssignmentTimes.Pairwise (fun a b => a ≤ b) →
      oneStepRound m s hstep v c = .ok (.continues v1 c1) →
      c1.mAssignmentTimes.Pairwise (fun a b => a ≤ b)) ∧
    (∀ e ∈ oneStepTargets m s fuel cv t0 hstep, e.1 ∈ e.2 ∧ ∀ x ∈ e.2, e.1 ≤ x) :=
  ⟨fun c timeEnd rootsFound => handleRootsForTime_ascending m s c timeEnd rootsFound,
    fun c tout hc => nextTarget_ascending c tout hc,
    fun v v1 c c1 hc hr => oneStepRound_ascending m s hstep v v1 c c1 hr hc,
    fun e he => targetTrace_least m s hstep fuel ⟨0, t0, t0 + hstep, 3⟩
      { cv with mOneStepCount := cv.mOneStepCount + 1 } hs e he⟩

/-- C22 for `oneStep(0, 10)` in the driver `twoPending`, whose schedule is `[5, 7]`: the
first round integrates to 5, the second to 7, each the least time of its schedule. -/
theorem schedule_sorted_witness :
    twoPending.mAssignmentTimes.Pairwise (fun a b => a ≤ b) ∧
    oneStepTargets (idleModel ℚ 2 [0]) (constSundials ℚ CV_SUCCESS id []) 5 twoPending 0 10 =
      [(5, [5, 7]), (7, [7])] ∧
    ((5 : ℚ) ∈ ([5, 7] : List ℚ) ∧ ∀ x ∈ ([5, 7] : List ℚ), (5 : ℚ) ≤ x) :=
  ⟨by decide!, by decide!,
    (schedule_sorted (idleModel ℚ 2 [0]) (constSundials ℚ CV_SUCCESS id []) 5 twoPending 0 10
      (by decide!)).2.2.2 (5, [5, 7]) (by decide!)⟩

/-! ## The candidate loop ends -/

theorem drainStep_subset {κ σ : Type} (m : ExecutableModel σ) (timeEnd : ℚ)
    (st : RootState κ σ) :
    ∀ x ∈ (drainStep m timeEnd st).firedEvents, x ∈ st.firedEvents := by
  intro x hx
  rcases drainStep_cases m timeEnd st with ⟨_, _, hf⟩ | ⟨cur, rest, hs, hcase⟩
  · rw [hf] at hx; exact absurd hx (List.not_mem_nil x)
  · have hperm := sortEvents_perm m st.cv.mModel st.firedEvents
    rw [hs] at hperm
    rcases hcase with ⟨_, hf⟩ | ⟨_, hf⟩
    · exact hperm.subset (List.mem_cons_of_mem _ (hf.subset hx))
    · rw [hf] at hx; exact hperm.subset (List.mem_cons_of_mem _ hx)

theorem drainLoop_enough {κ σ : Type} (m : ExecutableModel σ) (timeEnd : ℚ) (fuel : Nat)
    (st : RootState κ σ) (h : st.firedEvents.length ≤ fuel) :
    drainLoop m timeEnd fuel st = drainLoop m timeEnd st.firedEvents.length st := by
  obtain ⟨d, rfl⟩ := Nat.exists_eq_add_of_le h
  rw [drainLoop_add]
  exact drainLoop_empty m timeEnd d _ (drainLoop_done m timeEnd _ st (Nat.le_refl _))

theorem loopRounds_le {κ σ : Type} (m : ExecutableModel σ) (timeEnd : ℚ) :
    ∀ (fuel : Nat) (st : RootState κ σ), loopRounds m timeEnd fuel st ≤ st.firedEvents.length
  | 0, _ => Nat.zero_le _
  | fuel + 1, st => by
    rw [loopRounds]
    split_ifs with hpos
    · have := loopRounds_le m timeEnd fuel (drainStep m timeEnd st)
      have := drainStep_length m timeEnd st hpos
      omega
    · exact Nat.zero_le _

theorem takenEvents_length {κ σ : Type} (m : ExecutableModel σ) (timeEnd : ℚ) :
    ∀ (fuel : Nat) (st : RootState κ σ),
      (takenEvents m timeEnd fuel st).length = loopRounds m timeEnd fuel st
  | 0, _ => rfl
  | fuel + 1, st => by
    rw [takenEvents, loopRounds]
    split_ifs with hpos
    · have hperm := sortedCandidates_perm m st
      have hlen := hperm.length_eq
      rw [List.length_append, List.length_take, takenEvents_length m timeEnd fuel]
      omega
    · rfl

theorem takenEvents_nodup {κ σ : Type} (m : ExecutableModel σ) (timeEnd : ℚ) :
    ∀ (fuel : Nat) (st : RootState κ σ), st.firedEvents.Nodup →
      (takenEvents m timeEnd fuel st).Nodup ∧
        ∀ x ∈ takenEvents m timeEnd fuel st, x ∈ st.firedEvents
  | 0, _, _ => ⟨List.nodup_nil, fun x hx => absurd hx (List.not_mem_nil x)⟩
  | fuel + 1, st, hnd => by
    rw [takenEvents]
    split_ifs with hpos
    · have hperm := sortedCandidates_perm m st
      rcases drainStep_cases m timeEnd st with ⟨hs, _, _⟩ | ⟨cur, rest, hs, hcase⟩
      · have hs2 : sortedCandidates m st = [] := hs
        rw [hs2] at hperm
        have := hperm.length_eq
        simp at this
        omega
      · have hs2 : sortedCandidates m st = cur :: rest := hs
        rw [hs2] at hperm ⊢
        have hnd2 : (cur :: rest).Nodup := hperm.nodup_iff.mpr hnd
        have hsub : (drainStep m timeEnd st).firedEvents.Sublist rest := by
          rcases hcase with ⟨_, hf⟩ | ⟨_, hf⟩
          · exact hf
          · rw [hf]
        obtain ⟨ih1, ih2⟩ := takenEvents_nodup m timeEnd fuel (drainStep m timeEnd st)
          (hsub.nodup (List.nodup_cons.mp hnd2).2)
        simp only [List.take_succ_cons, List.take_zero, List.singleton_append]
        refine ⟨List.nodup_cons.mpr ⟨fun hx => (List.nodup_cons.mp hnd2).1
          (hsub.subset (ih2 cur hx)), ih1⟩, ?_⟩
        intro x hx
        rcases List.mem_cons.mp hx with hx | hx
        · rw [hx]; exact hperm.subset (List.mem_cons_self _ _)
        · exact hperm.subset (List.mem_cons_of_mem _ (hsub.subset (ih2 x hx)))
    · exact ⟨List.nodup_nil, fun x hx => absurd hx (List.not_mem_nil x)⟩

theorem drainStep_deals {κ σ : Type} (m : ExecutableModel σ) (timeEnd : ℚ)
    (st : RootState κ σ) (cur : Nat) (rest : List Nat)
    (hs : sortedCandidates m st = cur :: rest) :
    (drainStep m timeEnd st).handled = st.handled ++ [cur] ∨
      ((drainStep m timeEnd st).handled = st.handled ∧
        ∃ p : PendingAssignment, p.GetIndex = cur ∧
          (drainStep m timeEnd st).cv.mAssignments = st.cv.mAssignments ++ [p]) := by
  by_cases hd : m.eventDelays cur (roundModel m st cur) = 0
  · rw [drainStep_fire m timeEnd st cur rest hs hd]
    exact Or.inl (fireNow_fired m timeEnd st _ cur rest).1
  · rw [drainStep_schedule m timeEnd st cur rest hs hd]
    refine Or.inr ⟨rfl, _, (pendingFor_time m st.preComputedAssignments _ cur).2,
      scheduleLater_queue m timeEnd st _ cur rest _⟩

/-- C23: the `while (firedEvents.size() > 0)` loop of `handleRootsForTime` ends, for every
model and every `rootsFound`. A round of the loop leaves fewer candidates than it finds, all
of them candidates before; so the loop is left without candidates after at most as many
rounds as there are candidates when it starts (more rounds allowed change nothing, and the
body never runs more often than that). The events the rounds deal with are candidates of
the start and no event is among them twice; a round deals with the first of its sorted
candidates by either firing it (it goes to the handled list) or scheduling it (one pending
assignment of it goes to the queue). -/
theorem candidate_loop_ends {κ σ : Type} (m : ExecutableModel σ) (cv : CvodeInterface κ σ)
    (timeEnd : ℚ) (rootsFound : List Int) (fuel : Nat) :
    (∀ st : RootState κ σ, st.firedEvents.length > 0 →
      (drainStep m timeEnd st).firedEvents.length < st.firedEvents.length) ∧
    (∀ (st : RootState κ σ), ∀ x ∈ (drainStep m timeEnd st).firedEvents, x ∈ st.firedEvents) ∧
    (drainRoots m cv timeEnd rootsFound).firedEvents = [] ∧
    ((partitionRoots m cv timeEnd rootsFound).firedEvents.length ≤ fuel →
      drainLoop m timeEnd fuel (partitionRoots m cv timeEnd rootsFound) =
        drainRoots m cv timeEnd rootsFound) ∧
    loopRounds m timeEnd fuel (partitionRoots m cv timeEnd rootsFound) ≤
      (partitionRoots m cv timeEnd rootsFound).firedEvents.length ∧
    (takenEvents m timeEnd fuel (partitionRoots m cv timeEnd rootsFound)).length =
      loopRounds m timeEnd fuel (partitionRoots m cv timeEnd rootsFound) ∧
    (takenEvents m timeEnd fuel (partitionRoots m cv timeEnd rootsFound)).Nodup ∧
    (∀ x ∈ takenEvents m timeEnd fuel (partitionRoots m cv timeEnd rootsFound),
      x ∈ (partitionRoots m cv timeEnd rootsFound).firedEvents) ∧
    (∀ (st : RootState κ σ) (cur : Nat) (rest : List Nat),
      sortedCandidates m st = cur :: rest →
      (drainStep m timeEnd st).handled = st.handled ++ [cur] ∨
        ((drainStep m timeEnd st).handled = st.handled ∧
          ∃ p : PendingAssignment, p.GetIndex = cur ∧
            (drainStep m timeEnd st).cv.mAssignments = st.cv.mAssignments ++ [p])) := by
  have hnd := (partitionRoots_fired m cv timeEnd rootsFound).2
  have htaken := takenEvents_nodup m timeEnd fuel _ hnd
  exact ⟨fun st h => drainStep_length m timeEnd st h, fun st => drainStep_subset m timeEnd st,
    drainRoots_done m cv timeEnd rootsFound,
    fun h => drainLoop_enough m timeEnd fuel _ h,
    loopRounds_le m timeEnd fuel _, takenEvents_length m timeEnd fuel _, htaken.1, htaken.2,
    fun st cur rest hs => drainStep_deals m timeEnd st cur rest hs⟩

/-! ## The candidate of the greater priority fires first -/

theorem handlerState_step {κ σ : Type} (m : ExecutableModel σ) (cv : CvodeInterface κ σ)
    (timeEnd : ℚ) (rootsFound : List Int) (k : Nat) :
    handlerState m cv timeEnd rootsFound (k + 1) =
      if (handlerState m cv timeEnd rootsFound k).firedEvents.length > 0 then
        drainStep m timeEnd (handlerState m cv timeEnd rootsFound k)
      else handlerState m cv timeEnd rootsFound k := by
  split_ifs with h
  · exact handlerState_succ m cv timeEnd rootsFound k h
  · unfold handlerState at *
    rw [drainLoop_add, drainLoop, if_neg h]

/-- With a NaN priority among the candidates the order is still by priority: in `nanModel`
the events 1, 2 and 3 (priorities 1, NaN and 2) become candidates and fire in the order
3, 1, 2; the sort moves event 3 to the front because it must precede the first element. -/
theorem nan_candidates_fire_by_priority :
    (sortEventsByPriority nanModel (idleData 0) [1, 2, 3]).2 = [3, 1, 2] ∧
    (drainRoots nanModel (driverOf (idleData 0) [0] [] []) (1 / 2) [0, 1, 1, 1]).handled =
      [3, 1, 2] := by
  refine ⟨by decide!, by decide!⟩

theorem precompute_fold_eq {σ : Type} (m : ExecutableModel σ) (md : ModelData σ) (i : Nat) :
    ∀ (l : List Nat) (pre : Nat → Option (List ℚ)),
      (l.foldl (precomputeStep m md) pre) i =
        if i ∈ l ∧ m.eventType i = true then some (m.computeEventAssignments i md) else pre i
  | [], pre => by simp
  | j :: l, pre => by
    rw [List.foldl_cons, precompute_fold_eq m md i l]
    unfold precomputeStep
    by_cases hty : m.eventType i = true
    · by_cases hl : i ∈ l
      · simp [hl, hty]
      · by_cases hij : i = j
        · subst hij
          simp [hl, hty]
        · have hji : m.eventType j = true → Function.update pre j
              (some (m.computeEventAssignments j md)) i = pre i :=
            fun _ => Function.update_noteq hij _ _
          by_cases htj : m.eventType j = true
          · simp [hl, hij, htj, hji htj]
          · simp [hl, hij, htj]
    · by_cases htj : m.eventType j = true
      · have hij : i ≠ j := fun h => hty (h ▸ htj)
        simp [hty, htj, Function.update_noteq hij]
      · simp [hty, htj]

theorem fireNow_pre_eq {κ σ : Type} (m : ExecutableModel σ) (timeEnd : ℚ) (st : RootState κ σ)
    (md : ModelData σ) (currentEvent : Nat) (rest : List Nat) :
    (fireNow m timeEnd st md currentEvent rest).preComputedAssignments =
      (retestEvents m (withModel (appliedModel m st md currentEvent) st.cv) timeEnd
        (st.handled ++ [currentEvent]) false []).2.1.foldl
        (precomputeStep m (retestEvents m (withModel (appliedModel m st md currentEvent) st.cv)
          timeEnd (st.handled ++ [currentEvent]) false []).1.mModel)
        st.preComputedAssignments := rfl

theorem drainStep_pre {κ σ : Type} (m : ExecutableModel σ) (timeEnd : ℚ) (st : RootState κ σ)
    (i : Nat) :
    (drainStep m timeEnd st).preComputedAssignments i =
      if i ∈ retestReport m timeEnd st ∧ m.eventType i = true then
        some (m.computeEventAssignments i (retestedModel m timeEnd st))
      else st.preComputedAssignments i := by
  cases hs : sortedCandidates m st with
  | nil =>
    have hr : roundRetest m timeEnd st = none := by unfold roundRetest; rw [hs]
    have hd : (drainStep m timeEnd st).preComputedAssignments = st.preComputedAssignments := by
      unfold sortedCandidates at hs
      unfold drainStep
      simp only [hs]
    unfold retestReport
    rw [hr, hd]
    simp
  | cons cur rest =>
    by_cases hdel : m.eventDelays cur (roundModel m st cur) = 0
    · have hr : roundRetest m timeEnd st = some (retestEvents m
          (withModel (appliedModel m st (roundModel m st cur) cur) st.cv) timeEnd
          (st.handled ++ [cur]) false []) := by
        unfold roundRetest; rw [hs]; simp only [hdel, if_true]
      rw [drainStep_fire m timeEnd st cur rest hs hdel, fireNow_pre_eq, precompute_fold_eq]
      unfold retestReport retestedModel
      rw [hr]
    · have hr : roundRetest m timeEnd st = none := by
        unfold roundRetest; rw [hs]; simp only [hdel, if_false]
      rw [drainStep_schedule m timeEnd st cur rest hs hdel]
      unfold retestReport
      rw [hr]
      simp [scheduleLater]

theorem handlerState_pre {κ σ : Type} (m : ExecutableModel σ) (cv : CvodeInterface κ σ)
    (timeEnd : ℚ) (rootsFound : List Int) (k i : Nat) :
    (handlerState m cv timeEnd rootsFound (k + 1)).preComputedAssignments i =
      if i ∈ retestReport m timeEnd (handlerState m cv timeEnd rootsFound k) ∧
          m.eventType i = true then
        some (m.computeEventAssignments i
          (retestedModel m timeEnd (handlerState m cv timeEnd rootsFound k)))
      else (handlerState m cv timeEnd rootsFound k).preComputedAssignments i := by
  rw [handlerState_step]
  split_ifs with hpos hrep
  · rw [drainStep_pre, if_pos hrep]
  · rw [drainStep_pre, if_neg hrep]
  · rename_i hrep
    exfalso
    have hnil : (handlerState m cv timeEnd rootsFound k).firedEvents = [] :=
      List.length_eq_zero.mp (by omega)
    have hsorted : sortedCandidates m (handlerState m cv timeEnd rootsFound k) = [] := by
      have hperm := sortedCandidates_perm m (handlerState m cv timeEnd rootsFound k)
      rw [hnil] at hperm
      exact List.perm_nil.mp hperm
    have hr : roundRetest m timeEnd (handlerState m cv timeEnd rootsFound k) = none := by
      unfold roundRetest; rw [hsorted]
    unfold retestReport at hrep
    rw [hr] at hrep
    exact absurd hrep.1 (List.not_mem_nil i)
  · rfl

theorem stored_kept {κ σ : Type} (m : ExecutableModel σ) (cv : CvodeInterface κ σ)
    (timeEnd : ℚ) (rootsFound : List Int) (i j : Nat) :
    ∀ d : Nat,
      (∀ j1, j ≤ j1 → j1 < j + d →
        i ∉ retestReport m timeEnd (handlerState m cv timeEnd rootsFound j1)) →
      (handlerState m cv timeEnd rootsFound (j + d)).preComputedAssignments i =
        (handlerState m cv timeEnd rootsFound j).preComputedAssignments i
  | 0, _ => rfl
  | d + 1, h => by
    rw [← Nat.add_assoc, handlerState_pre,
      if_neg (fun hc => h (j + d) (Nat.le_add_right _ _) (by omega) hc.1)]
    exact stored_kept m cv timeEnd rootsFound i j d
      (fun j1 h1 h2 => h j1 h1 (by omega))

theorem handlerState_subset {κ σ : Type} (m : ExecutableModel σ) (cv : CvodeInterface κ σ)
    (timeEnd : ℚ) (rootsFound : List Int) :
    ∀ (k : Nat), ∀ x ∈ (handlerState m cv timeEnd rootsFound k).firedEvents,
      x ∈ (partitionRoots m cv timeEnd rootsFound).firedEvents
  | 0, x, hx => hx
  | k + 1, x, hx => by
    rw [handlerState_step] at hx
    split_ifs at hx
    · exact handlerState_subset m cv timeEnd rootsFound k x (drainStep_subset m timeEnd _ x hx)
    · exact handlerState_subset m cv timeEnd rootsFound k x hx

theorem partitionRoots_stored {κ σ : Type} (m : ExecutableModel σ) (cv : CvodeInterface κ σ)
    (timeEnd : ℚ) (rootsFound : List Int) (i : Nat)
    (hi : i ∈ (partitionRoots m cv timeEnd rootsFound).firedEvents)
    (hty : m.eventType i = true) :
    (partitionRoots m cv timeEnd rootsFound).preComputedAssignments i =
      some (m.computeEventAssignments i (refreshedModel m cv timeEnd)) := by
  unfold partitionRoots at hi ⊢
  obtain ⟨-, -, -, hf, -, hpre⟩ := partitionFold_exact m rootsFound (List.range m.getNumEvents)
    { cv := withModel (refreshedModel m cv timeEnd) cv, firedEvents := [],
      preComputedAssignments := fun _ => none, handled := [] }
  have hf2 : i ∈ (List.range m.getNumEvents).filter (fun i =>
      decide (rootsFound.getD i 0 = 1 ∧ (refreshedModel m cv timeEnd).eventStatusArray i = true)) := by
    have := hf ▸ hi
    simpa using this
  obtain ⟨hr, hc⟩ := List.mem_filter.mp hf2
  have hc2 : rootsFound.getD i 0 = 1 ∧ (refreshedModel m cv timeEnd).eventStatusArray i = true :=
    of_decide_eq_true hc
  have := hpre i
  rw [if_pos ⟨hr, hc2.1, hc2.2, hty⟩] at this
  exact this

/-- The values stored for a candidate `i` of Type A in the state after `k` rounds are those
computed when the events were partitioned, unless the retest of an earlier round reported
`i` as newly true; they are then those computed after the last such retest. -/
theorem stored_values {κ σ : Type} (m : ExecutableModel σ) (cv : CvodeInterface κ σ)
    (timeEnd : ℚ) (rootsFound : List Int) (k i : Nat)
    (hi : i ∈ (handlerState m cv timeEnd rootsFound k).firedEvents)
    (hty : m.eventType i = true) :
    ((∀ j, j < k → i ∉ retestReport m timeEnd (handlerState m cv timeEnd rootsFound j)) →
      (handlerState m cv timeEnd rootsFound k).preComputedAssignments i =
        some (m.computeEventAssignments i (refreshedModel m cv timeEnd))) ∧
    (∀ j, j < k → i ∈ retestReport m timeEnd (handlerState m cv timeEnd rootsFound j) →
      (∀ j1, j < j1 → j1 < k →
        i ∉ retestReport m timeEnd (handlerState m cv timeEnd rootsFound j1)) →
      (handlerState m cv timeEnd rootsFound k).preComputedAssignments i =
        some (m.computeEventAssignments i
          (retestedModel m timeEnd (handlerState m cv timeEnd rootsFound j)))) := by
  constructor
  · intro hnone
    have h := stored_kept m cv timeEnd rootsFound i 0 k
      (fun j1 _ h2 => hnone j1 (by omega))
    rw [Nat.zero_add] at h
    rw [h]
    exact partitionRoots_stored m cv timeEnd rootsFound i
      (handlerState_subset m cv timeEnd rootsFound k i hi) hty
  · intro j hj hrep hlater
    obtain ⟨d, rfl⟩ := Nat.exists_eq_add_of_le (Nat.succ_le_of_lt hj)
    rw [stored_kept m cv timeEnd rootsFound i (j + 1) d
      (fun j1 h1 h2 => hlater j1 (by omega) (by omega)), handlerState_pre, if_pos ⟨hrep, hty⟩]

/-! ## The candidate that is fired and the candidate that is scheduled -/

/-- C17, as the claim states it, fails: in `flickerModel 0` with `y = 0` and roots of the
three events at the time 1, the value computed for the event 2 of Type A when it is
detected is 0. Event 0 fires (`y := 1`, the trigger of event 2 goes false), event 1 fires
(`y := 5`, the trigger is true again) and the retest after it reports event 2, which still
waits as a candidate, as newly true; its stored value is computed anew and is 5. Event 2
then fires with the delay 0 and the value 5: `y` is 105, not 100. -/
theorem retest_overwrites_fired_values :
    sortedCandidates (flickerModel 0)
      (handlerState (flickerModel 0) (driverOf (idleData 0) [0] [] []) 1 [1, 1, 1] 2) = [2] ∧
    (flickerModel 0).eventType 2 = true ∧
    (flickerModel 0).eventDelays 2 (roundModel (flickerModel 0)
      (handlerState (flickerModel 0) (driverOf (idleData 0) [0] [] []) 1 [1, 1, 1] 2) 2) = 0 ∧
    (flickerModel 0).computeEventAssignments 2
      (refreshedModel (flickerModel 0) (driverOf (idleData 0) [0] [] []) 1) = [0] ∧
    (partitionRoots (flickerModel 0) (driverOf (idleData 0) [0] [] []) 1
      [1, 1, 1]).preComputedAssignments 2 = some [0] ∧
    (handlerState (flickerModel 0) (driverOf (idleData 0) [0] [] []) 1
      [1, 1, 1] 2).preComputedAssignments 2 = some [5] ∧
    (drainRoots (flickerModel 0) (driverOf (idleData 0) [0] [] []) 1 [1, 1, 1]).handled =
      [0, 1, 2] ∧
    (drainRoots (flickerModel 0) (driverOf (idleData 0) [0] [] []) 1
      [1, 1, 1]).cv.mModel.user = 105 := by
  refine ⟨by decide!, by decide!, by decide!, by decide!, by decide!, by decide!, by decide!,
    by decide!⟩

/-- C17, amended: when a round of the `while` loop of `handleRootsForTime` takes the
candidate `i` (the first of the sorted candidates, in the state after `k` rounds) and its
delay evaluates to 0, the round applies the assignment of `i` (with the values stored for
`i` in the map of precomputed assignments when `i` is of Type A, which are there; through
`eventAssignments` on the current model when `i` is of Type B), retests the events, puts `i`
at the end of the handled list, sets `eventStatusArray[i]` to false and leaves `i` out of
the candidates; the queue gets no new entry and the schedule stays as it is. The values
stored for `i` of Type A are those computed at its detection, when the events were
partitioned, unless the retest of an earlier round of the call reported `i` as newly true:
they are then those computed on the model right after the last such retest. -/
theorem zero_delay_fires {κ σ : Type} (m : ExecutableModel σ) (cv : CvodeInterface κ σ)
    (timeEnd : ℚ) (rootsFound : List Int) (k i : Nat) (rest : List Nat)
    (hs : sortedCandidates m (handlerState m cv timeEnd rootsFound k) = i :: rest)
    (hd : m.eventDelays i (roundModel m (handlerState m cv timeEnd rootsFound k) i) = 0) :
    (m.eventType i = false ∨
      ((handlerState m cv timeEnd rootsFound k).preComputedAssignments i).isSome = true) ∧
    appliedModel m (handlerState m cv timeEnd rootsFound k)
        (roundModel m (handlerState m cv timeEnd rootsFound k) i) i =
      (if m.eventType i = true then
        m.performEventAssignments i (roundModel m (handlerState m cv timeEnd rootsFound k) i)
          (((handlerState m cv timeEnd rootsFound k).preComputedAssignments i).getD [])
      else m.eventAssignments i (roundModel m (handlerState m cv timeEnd rootsFound k) i)) ∧
    (handlerState m cv timeEnd rootsFound (k + 1)).cv.mModel =
      clearStatus (m.popState PopDiscard (retestAfter m
        (withModel (appliedModel m (handlerState m cv timeEnd rootsFound k)
          (roundModel m (handlerState m cv timeEnd rootsFound k) i) i)
          (handlerState m cv timeEnd rootsFound k).cv) timeEnd)) i ∧
    (handlerState m cv timeEnd rootsFound (k + 1)).handled =
      (handlerState m cv timeEnd rootsFound k).handled ++ [i] ∧
    (handlerState m cv timeEnd rootsFound (k + 1)).cv.mModel.eventStatusArray i = false ∧
    i ∉ (handlerState m cv timeEnd rootsFound (k + 1)).firedEvents ∧
    (handlerState m cv timeEnd rootsFound (k + 1)).firedEvents.Sublist rest ∧
    (handlerState m cv timeEnd rootsFound (k + 1)).cv.mAssignments.Sublist
      (handlerState m cv timeEnd rootsFound k).cv.mAssignments ∧
    (handlerState m cv timeEnd rootsFound (k + 1)).cv.mAssignmentTimes =
      (handlerState m cv timeEnd rootsFound k).cv.mAssignmentTimes ∧
    (m.eventType i = true →
      ((∀ j, j < k → i ∉ retestReport m timeEnd (handlerState m cv timeEnd rootsFound j)) →
        (handlerState m cv timeEnd rootsFound k).preComputedAssignments i =
          some (m.computeEventAssignments i (refreshedModel m cv timeEnd))) ∧
      (∀ j, j < k → i ∈ retestReport m timeEnd (handlerState m cv timeEnd rootsFound j) →
        (∀ j1, j < j1 → j1 < k →
          i ∉ retestReport m timeEnd (handlerState m cv timeEnd rootsFound j1)) →
        (handlerState m cv timeEnd rootsFound k).preComputedAssignments i =
          some (m.computeEventAssignments i
            (retestedModel m timeEnd (handlerState m cv timeEnd rootsFound j))))) := by
  obtain ⟨h1, h2, h3, h4, h5, h6, h7, h8, h9⟩ :=
    zero_delay_state m cv timeEnd rootsFound k i rest hs hd
  exact ⟨h1, h2, h3, h4, h5, h6, h7, h8, h9, fun hty =>
    stored_values m cv timeEnd rootsFound k i
      (sorted_head m _ i rest hs (handlerState_ready m cv timeEnd rootsFound k)).2.1 hty⟩

/-- C17, amended, in `flickerModel 0`: the third round takes event 2 and fires it, with the
value computed after the retest of the second round, which is 5. -/
theorem zero_delay_fires_witness :
    sortedCandidates (flickerModel 0)
      (handlerState (flickerModel 0) (driverOf (idleData 0) [0] [] []) 1 [1, 1, 1] 2) = [2] ∧
    (flickerModel 0).computeEventAssignments 2 (retestedModel (flickerModel 0) 1
      (handlerState (flickerModel 0) (driverOf (idleData 0) [0] [] []) 1 [1, 1, 1] 1)) = [5] ∧
    (handlerState (flickerModel 0) (driverOf (idleData 0) [0] [] []) 1 [1, 1, 1] 3).handled =
      (handlerState (flickerModel 0) (driverOf (idleData 0) [0] [] []) 1 [1, 1, 1] 2).handled ++
        [2] ∧
    (handlerState (flickerModel 0) (driverOf (idleData 0) [0] [] []) 1
      [1, 1, 1] 2).preComputedAssignments 2 =
      some ((flickerModel 0).computeEventAssignments 2 (retestedModel (flickerModel 0) 1
        (handlerState (flickerModel 0) (driverOf (idleData 0) [0] [] []) 1 [1, 1, 1] 1))) :=
  ⟨by decide!, by decide!,
    (zero_delay_fires (flickerModel 0) (driverOf (idleData 0) [0] [] []) 1 [1, 1, 1] 2 2 []
      (by decide!) (by decide!)).2.2.2.1,
    ((zero_delay_fires (flickerModel 0) (driverOf (idleData 0) [0] [] []) 1 [1, 1, 1] 2 2 []
      (by decide!) (by decide!)).2.2.2.2.2.2.2.2.2 (by decide!)).2 1 (by decide) (by decide!)
      (fun j1 h1 h2 => absurd h2 (by omega))⟩

/-- C18, as the claim states it, fails: in `flickerModel (1 / 2)` with `y = 0` and roots of
the three events at the time 1, the value computed for the event 2 of Type A when it is
detected is 0; the retest after the assignment of event 1 reports event 2, which still
waits as a candidate, as newly true, and its stored value becomes 5. Event 2 is then
scheduled for the time `3 / 2` with the value 5. -/
theorem retest_overwrites_scheduled_values :
    sortedCandidates (flickerModel (1 / 2))
      (handlerState (flickerModel (1 / 2)) (driverOf (idleData 0) [0] [] []) 1 [1, 1, 1] 2) =
      [2] ∧
    (flickerModel (1 / 2)).eventType 2 = true ∧
    (flickerModel (1 / 2)).eventDelays 2 (roundModel (flickerModel (1 / 2))
      (handlerState (flickerModel (1 / 2)) (driverOf (idleData 0) [0] [] []) 1 [1, 1, 1] 2) 2) =
      1 / 2 ∧
    (flickerModel (1 / 2)).computeEventAssignments 2
      (refreshedModel (flickerModel (1 / 2)) (driverOf (idleData 0) [0] [] []) 1) = [0] ∧
    (partitionRoots (flickerModel (1 / 2)) (driverOf (idleData 0) [0] [] []) 1
      [1, 1, 1]).preComputedAssignments 2 = some [0] ∧
    (drainRoots (flickerModel (1 / 2)) (driverOf (idleData 0) [0] [] []) 1
      [1, 1, 1]).cv.mAssignments = [⟨1 + 1 / 2, 2, true, some [5]⟩] := by
  refine ⟨by decide!, by decide!, by decide!, by decide!, by decide!, by decide!⟩

/-- C18, amended: when a round of the `while` loop of `handleRootsForTime` takes the
candidate `i` (the first of the sorted candidates, in the state after `k` rounds) and its
delay `d` is not 0, the round appends exactly one pending assignment to the queue, with the
event id `i`, the fire time `timeEnd + d` and, when `i` is of Type A, the values stored for
`i` in the map of precomputed assignments (which are there); the fire time joins the
schedule unless it is in it; `eventStatusArray[i]` becomes false and nothing else of the
model changes in the round; `i` leaves the candidates; and `i` is not in the handled list
when the loop is left, that is, no round of the call applies its assignment. The values
stored for `i` of Type A are those computed at its detection, when the events were
partitioned, unless the retest of an earlier round of the call reported `i` as newly true:
they are then those computed on the model right after the last such retest. -/
theorem delayed_is_scheduled {κ σ : Type} (m : ExecutableModel σ) (cv : CvodeInterface κ σ)
    (timeEnd : ℚ) (rootsFound : List Int) (k i : Nat) (rest : List Nat)
    (hs : sortedCandidates m (handlerState m cv timeEnd rootsFound k) = i :: rest)
    (hd : m.eventDelays i (roundModel m (handlerState m cv timeEnd rootsFound k) i) ≠ 0) :
    (m.eventType i = false ∨
      ((handlerState m cv timeEnd rootsFound k).preComputedAssignments i).isSome = true) ∧
    (handlerState m cv timeEnd rootsFound (k + 1)).cv.mAssignments =
      (handlerState m cv timeEnd rootsFound k).cv.mAssignments ++
        [⟨timeEnd + m.eventDelays i (roundModel m (handlerState m cv timeEnd rootsFound k) i), i,
          m.eventType i,
          if m.eventType i = true then
            (handlerState m cv timeEnd rootsFound k).preComputedAssignments i
          else none⟩] ∧
    (handlerState m cv timeEnd rootsFound (k + 1)).cv.mAssignmentTimes =
      (if timeEnd + m.eventDelays i (roundModel m (handlerState m cv timeEnd rootsFound k) i) ∈
          (handlerState m cv timeEnd rootsFound k).cv.mAssignmentTimes then
        (handlerState m cv timeEnd rootsFound k).cv.mAssignmentTimes
      else (handlerState m cv timeEnd rootsFound k).cv.mAssignmentTimes ++
        [timeEnd + m.eventDelays i (roundModel m (handlerState m cv timeEnd rootsFound k) i)]) ∧
    (handlerState m cv timeEnd rootsFound (k + 1)).cv.mModel =
      clearStatus (roundModel m (handlerState m cv timeEnd rootsFound k) i) i ∧
    (handlerState m cv timeEnd rootsFound (k + 1)).cv.mModel.eventStatusArray i = false ∧
    (handlerState m cv timeEnd rootsFound (k + 1)).firedEvents = rest ∧ i ∉ rest ∧
    (handlerState m cv timeEnd rootsFound (k + 1)).handled =
      (handlerState m cv timeEnd rootsFound k).handled ∧
    i ∉ (drainRoots m cv timeEnd rootsFound).handled ∧
    (m.eventType i = true →
      ((∀ j, j < k → i ∉ retestReport m timeEnd (handlerState m cv timeEnd rootsFound j)) →
        (handlerState m cv timeEnd rootsFound k).preComputedAssignments i =
          some (m.computeEventAssignments i (refreshedModel m cv timeEnd))) ∧
      (∀ j, j < k → i ∈ retestReport m timeEnd (handlerState m cv timeEnd rootsFound j) →
        (∀ j1, j < j1 → j1 < k →
          i ∉ retestReport m timeEnd (handlerState m cv timeEnd rootsFound j1)) →
        (handlerState m cv timeEnd rootsFound k).preComputedAssignments i =
          some (m.computeEventAssignments i
            (retestedModel m timeEnd (handlerState m cv timeEnd rootsFound j))))) := by
  obtain ⟨h1, h2, h3, h4, h5, h6, h7, h8, h9⟩ :=
    delayed_state m cv timeEnd rootsFound k i rest hs hd
  exact ⟨h1, h2, h3, h4, h5, h6, h7, h8, h9, fun hty =>
    stored_values m cv timeEnd rootsFound k i
      (sorted_head m _ i rest hs (handlerState_ready m cv timeEnd rootsFound k)).2.1 hty⟩

/-- C18, amended, in `delayModel`, whose event 0 fires with the delay `1 / 2`, at the time
1: the first round sends an assignment of event 0 with the fire time `3 / 2` to the end of
the queue, and event 0 is not handled in the call. -/
theorem delayed_is_scheduled_witness :
    sortedCandidates delayModel (handlerState delayModel onePending 1 [1, 0] 0) = [0] ∧
    (handlerState delayModel onePending 1 [1, 0] 1).cv.mAssignments =
      (handlerState delayModel onePending 1 [1, 0] 0).cv.mAssignments ++
        [⟨1 + 1 / 2, 0, false, none⟩] ∧
    0 ∉ (drainRoots delayModel onePending 1 [1, 0]).handled :=
  ⟨by decide!,
    (delayed_is_scheduled delayModel onePending 1 [1, 0] 0 0 []
      (by decide!) (by decide!)).2.1,
    (delayed_is_scheduled delayModel onePending 1 [1, 0] 0 0 []
      (by decide!) (by decide!)).2.2.2.2.2.2.2.2.1⟩

end rr
